import Mathlib

/-!
# mishell: the line parser, the dispatcher and the line editor of `shell-skeleton.c`

A shallow embedding of `src/src/shell-skeleton.c`.

Conventions of the embedding.

* A C `char` is a `Char`; a piece of memory read through a `char *` is a `List Char`
  that may hold the terminator `NUL`.  The C string at such a pointer is the bytes before
  the first `NUL` (`c_str`), the bytes behind that terminator are `past_str`.  The end of
  the list stands for memory that reads as `NUL`.
* `strtok` keeps a hidden saved position; here it is passed explicitly, as the memory at
  that position.
* `malloc` does not clear memory.  The content of the n-th nested `struct command_t` that
  `parse_command` allocates for a pipe is the parameter `alloc n`; `main` clears the
  head struct with `memset`, which is `zeroed`.
* The scratch buffers `temp_buf[1024]`, `pathcpy[1024]`, `path[1024]` and `e_path[1024]` are
  filled by `strcpy` and `sprintf` without a test.  `token_loop`, `parse_command`, `resolve`
  and `child` give the result of a run in which every such copy fits; `token_loop_checked`,
  `parse_command_checked`, `resolve_checked` and `child_checked` carry the bounds and are
  `none` for a run that writes past one of the arrays.  Statements about tokens and search
  paths of any length that pass through these buffers are made on the checked forms.
* Loops and the recursion of `parse_command` run on fuel; `parse_fuel_enough` and
  `prompt_loop_total` show that the fuel supplied is always enough.
* What the shell prints (`show_prompt`, the echo of the keys) is left out.  The bodies of
  the builtins are one step each: every `return` in them returns `SUCCESS`, and the model
  follows the runs that reach it.  The history update inside `cd` is `cd_history`, on the
  list of paths read from the history file.
* The array `buf` of `prompt` is not initialised: what it holds when a call starts is the
  parameter `stack`.
-/

namespace Mishell

/-! ## Data model -/

/-- The result codes of `enum return_codes`. -/
inductive return_codes where
  | SUCCESS
  | EXIT
  | UNKNOWN
  deriving DecidableEq, Repr

/-- The numeric value of a result code. -/
def return_codes.val : return_codes → Nat
  | .SUCCESS => 0
  | .EXIT => 1
  | .UNKNOWN => 2

/-- The record `struct command_t`.  A `NULL` entry of `args` or `redirects` is `none`. -/
structure command_t where
  name : List Char
  background : Bool
  auto_complete : Bool
  arg_count : Nat
  args : List (Option (List Char))
  redirects : Fin 3 → Option (List Char)
  next : Option command_t

/-- The struct after `memset(command, 0, sizeof(struct command_t))` in `main`. -/
def zeroed : command_t :=
  { name := [], background := false, auto_complete := false, arg_count := 0,
    args := [], redirects := fun _ => none, next := none }

/-- The string terminator. -/
def NUL : Char := Char.ofNat 0

/-- The C string at a pointer: the bytes before the first terminator. -/
def c_str (mem : List Char) : List Char := mem.takeWhile (fun c => c != NUL)

/-- The memory behind the terminator of the C string at a pointer. -/
def past_str (mem : List Char) : List Char := (mem.dropWhile (fun c => c != NUL)).drop 1

/-! ## parse_command -/

/-- The delimiter set `splitters = " \t"`. -/
def splitters : List Char := [' ', '\t']

/-- The test `strchr(splitters, c) != NULL` on a byte of the string. -/
def is_splitter (c : Char) : Bool := splitters.contains c

/-- The loop `while (len > 0 && strchr(splitters, buf[0]) != NULL) { buf++; len--; }`. -/
def trim_left (s : List Char) : List Char := s.dropWhile is_splitter

/-- The loop `while (len > 0 && strchr(splitters, buf[len - 1]) != NULL) buf[--len] = 0;`,
as the string it leaves. -/
def trim_right (s : List Char) : List Char := s.rdropWhile is_splitter

/-- One call of `strtok` with the delimiters `delims` on the memory at the saved position:
the token and the memory from the byte that ends the token (a delimiter, which `strtok`
overwrites with the terminator, or the terminator itself).  `none` is the `NULL` result. -/
def strtok (delims : List Char) (save : List Char) : Option (List Char × List Char) :=
  match save.dropWhile (fun c => delims.contains c) with
  | [] => none
  | c :: cs =>
    if c = NUL then none
    else some ((c :: cs).takeWhile (fun x => !delims.contains x && x != NUL),
               (c :: cs).dropWhile (fun x => !delims.contains x && x != NUL))

/-- The position `strtok` saves after a token whose ending byte starts `tail`: behind the
overwritten delimiter, or on the terminator when the token ran to the end of the string. -/
def strtok_save (tail : List Char) : List Char :=
  match tail with
  | [] => []
  | d :: rest => if d = NUL then d :: rest else rest

/-- The position `strtok` saves when it returns `NULL`: on the terminator. -/
def strtok_end (delims : List Char) (save : List Char) : List Char :=
  save.dropWhile (fun c => delims.contains c)

/-- The redirection test of lines 198-212: the slot `redirect_index` and the text `arg + 1`
that is stored there, for an argument that starts with `<`, `>>` or `>`. -/
def redirect_of (arg : List Char) : Option (Fin 3 × List Char) :=
  match arg with
  | [] => none
  | a0 :: rest =>
    if a0 = '>' then
      match rest with
      | [] => some (1, [])
      | a1 :: rest2 => if a1 = '>' then some (2, rest2) else some (1, a1 :: rest2)
    else if a0 = '<' then some (0, rest)
    else none

/-- The quote test of lines 221-227: an argument longer than two bytes that starts and ends
with the same quote character loses its first and last byte. -/
def strip_quotes (arg : List Char) : List Char :=
  if 2 < arg.length ∧
      ((arg.head? = some '"' ∧ arg.getLast? = some '"') ∨
       (arg.head? = some '\'' ∧ arg.getLast? = some '\'')) then
    arg.dropLast.tail
  else arg

/-- Assignment `command->redirects[i] = target`. -/
def set_redirect (r : Fin 3 → Option (List Char)) (i : Fin 3) (target : List Char) :
    Fin 3 → Option (List Char) :=
  fun j => if j = i then some target else r j

/-- Lines 192-233 of the token loop, for an argument that is not the pipe: a lone `&` is
skipped, a redirection is stored in its slot, anything else is appended to `args`
after the quote test. -/
def process_arg (command : command_t) (arg : List Char) : command_t :=
  if arg = ['&'] then command
  else
    match redirect_of arg with
    | some (i, target) => { command with redirects := set_redirect command.redirects i target }
    | none => { command with args := command.args ++ [some (strip_quotes arg)] }

/-- The test `pch[index] == ' ' || pch[index] == '\t'` of the blank-skipping loop. -/
def is_blank (c : Char) : Bool := c == ' ' || c == '\t'

/-- The token loop of lines 147-234, at most `fuel` passes of it.  `sub` is the nested
`parse_command(pch + index, c)` on a fresh struct; it returns the struct and the position
`strtok` holds afterwards, from which this loop's next `strtok(NULL, splitters)`
continues.  The result is the command (its `args` holding the arguments collected so
far) and the final saved position.  The copy of each token into `temp_buf[1024]` is taken
to fit here; `token_loop_checked` carries the bound. -/
def token_loop (sub : List Char → command_t × List Char) :
    Nat → List Char → command_t → command_t × List Char
  | 0, _, command => (command, [])
  | fuel + 1, save, command =>
    match strtok splitters save with
    | none => (command, strtok_end splitters save)
    | some (pch, tail) =>
      let arg := trim_right (trim_left pch)
      if arg = [] then token_loop sub fuel (strtok_save tail) command
      else if arg = ['|'] then
        let r := sub (((pch ++ ' ' :: tail.tail).drop 1).dropWhile is_blank)
        token_loop sub fuel r.2 { command with next := some r.1 }
      else token_loop sub fuel (strtok_save tail) (process_arg command arg)

/-- Lines 122-130: a trimmed line that ends in `?` sets `auto_complete`, one that ends in
`&` sets `background`; neither flag is ever cleared. -/
def mark_flags (s : List Char) (command : command_t) : command_t :=
  { command with
    auto_complete := if s.getLast? = some '?' then true else command.auto_complete,
    background := if s.getLast? = some '&' then true else command.background }

/-- Lines 132-141: the first `strtok` result becomes the name (the empty string when there is
no token) and `args` is allocated anew. -/
def set_name (first : Option (List Char × List Char)) (command : command_t) : command_t :=
  { command with
    name := match first with
      | none => []
      | some (pch, _) => pch,
    args := [] }

/-- Lines 235-250: `arg_count` is the number of collected arguments plus two, and the vector
becomes a copy of the name, the collected arguments, and a closing `NULL`. -/
def finish_args (command : command_t) : command_t :=
  { command with
    arg_count := command.args.length + 2,
    args := some command.name :: command.args ++ [none] }

/-- The buffer after the two trimming loops of lines 111-120: the trimmed string, the
terminators written over the trailing blanks, the old terminator, and what lay behind. -/
def trimmed_mem (buf : List Char) : List Char :=
  trim_right (trim_left (c_str buf))
    ++ List.replicate ((trim_left (c_str buf)).length
        - (trim_right (trim_left (c_str buf))).length + 1) NUL
    ++ past_str buf

/-- The position `strtok` holds after the first call, `strtok(buf, splitters)`. -/
def first_save (mem : List Char) : List Char :=
  match strtok splitters mem with
  | none => strtok_end splitters mem
  | some (_, tail) => strtok_save tail

/-- The function `parse_command(buf, command)`, with the recursion bounded by `fuel`
(`parse_command` below supplies enough).  `depth` counts the enclosing pipes.  The
result is the struct as the call leaves it and the position `strtok` holds at return. -/
def parse_fuel (alloc : Nat → command_t) :
    Nat → Nat → List Char → command_t → command_t × List Char
  | 0, _, _, command => (command, [])
  | fuel + 1, depth, buf, command =>
    let r := token_loop (fun m => parse_fuel alloc fuel (depth + 1) m (alloc depth))
      ((trimmed_mem buf).length + 1) (first_save (trimmed_mem buf))
      (set_name (strtok splitters (trimmed_mem buf))
        (mark_flags (trim_right (trim_left (c_str buf))) command))
    (finish_args r.1, r.2)

/-- The function `parse_command(buf, command)`: `buf` is the memory at the pointer, `command`
the struct as the caller passes it. -/
def parse_command (alloc : Nat → command_t) (buf : List Char) (command : command_t) :
    command_t :=
  (parse_fuel alloc (buf.length + 1) 0 buf command).1

/-- The nodes of a chain, following `next`; at most `n` of them are listed. -/
def chain : Nat → command_t → List command_t
  | 0, _ => []
  | n + 1, c =>
    match c.next with
    | none => [c]
    | some c2 => c :: chain n c2


/-! ## Vocabulary of the statements -/

/-- The space/tab-separated tokens of a line, in the words of the specification: the line is
cut at every space or tab and the empty pieces are dropped. -/
def tokens (line : List Char) : List (List Char) :=
  (line.splitOnP is_splitter).filter (fun t => !t.isEmpty)

/-- The struct without its link to the next stage. -/
def head_of (c : command_t) : command_t := { c with next := none }

/-- The struct on which the token loop starts: the flags of lines 122-130 set from the
trimmed line, the name set to the first token (empty when there is none), `args` empty. -/
def start_command (line : List Char) (command : command_t) : command_t :=
  { mark_flags (trim_right (trim_left line)) command with
    name := (tokens line).headD [], args := [] }

/-- A redirection token: a token that starts with `<` or with `>`. -/
def is_redirection (t : List Char) : Bool :=
  t.head? == some '<' || t.head? == some '>'

/-- An ordinary argument token: a token after the command name that is not the pipe, not a
lone ampersand and not a redirection token. -/
def ordinary (t : List Char) : Bool :=
  t != ['|'] && t != ['&'] && !is_redirection t

/-- A token wrapped in matching quotes: longer than two characters, with the same quote
character (double or single) first and last. -/
def quote_wrapped (t : List Char) : Bool :=
  decide (2 < t.length) &&
    ((t.head? == some '"' && t.getLast? == some '"') ||
     (t.head? == some '\'' && t.getLast? == some '\''))

/-- The argument stored for an ordinary token: a token wrapped in matching quotes loses
exactly its first and its last character, any other token is kept as it is. -/
def stored_argument (t : List Char) : List Char :=
  if quote_wrapped t then (t.drop 1).take (t.length - 2) else t

/-- The tokens the head stage scans as arguments: those after the command name, up to the
first pipe token. -/
def stage_tokens (line : List Char) : List (List Char) :=
  (tokens line).tail.takeWhile (fun t => t != ['|'])

/-- A token that names redirection slot `i`: `<...` names slot 0, `>...` not followed by a
second `>` names slot 1, `>>...` names slot 2. -/
def names_slot (i : Fin 3) (t : List Char) : Bool :=
  (i == 0 && t.head? == some '<') ||
  (i == 1 && t.head? == some '>' && (t.drop 1).head? != some '>') ||
  (i == 2 && t.head? == some '>' && (t.drop 1).head? == some '>')

/-- A block as `malloc` may return it for a nested struct: not cleared, its `next` field
holding a stale non-`NULL` pointer (here one to a cleared struct). -/
def stale_block : command_t := { zeroed with next := some zeroed }

/-- The line `n1 | n2 | ... | nk`: the names joined by a pipe with one space on each side. -/
def pipeline (names : List (List Char)) : List Char :=
  [' ', '|', ' '].intercalate names

/-- A command name as it can stand in a line: not empty, free of spaces, tabs and
terminators. -/
def plain_name (n : List Char) : Prop :=
  n ≠ [] ∧ ∀ c ∈ n, is_splitter c = false ∧ c ≠ NUL

/-- A piece of text that the trimming loops leave as it is and that holds no terminator:
not empty, its first and its last character no space or tab. -/
def trimmed_text (l : List Char) : Prop :=
  (∀ c ∈ l, c ≠ NUL) ∧ (∃ x, l.head? = some x ∧ is_splitter x = false) ∧
    (∃ y, l.getLast? = some y ∧ is_splitter y = false)

/-! ## process_command -/

/-- How a redirection target is opened. -/
inductive open_how where
  | rdonly
  | creat
  | append
  deriving DecidableEq, Repr

/-- What a run of `process_command` does to the outside, in order.  The bodies of the
builtins (directory history, dice, line counter, rename, word search, process tree) are
each one `builtin` step. -/
inductive effect where
  | builtin (name : List Char)
  | fork
  | wait
  | open_file (file : List Char) (how : open_how)
  | dup2 (fd : Nat)
  | execv (path : List Char) (argv : List (Option (List Char)))
  | not_found (name : List Char)
  deriving DecidableEq

/-- How a run of `process_command` ends in the process that runs it: it returns a code to
its caller, the process ends in `exit(status)`, or `execv` replaced the process image. -/
inductive outcome where
  | returned (code : return_codes)
  | exited (status : Nat)
  | replaced
  deriving DecidableEq

/-- What `process_command` reads from its surroundings. -/
structure world where
  /-- the value of `getenv("PATH")` -/
  PATH : List Char
  /-- the test `access(path, F_OK) == 0` -/
  access : List Char → Bool
  /-- whether `execv` on this path replaces the process image (it returns otherwise) -/
  execv_ok : List Char → Bool
  /-- the value `fork()` returns at line 875 in the process that is followed -/
  fork_pid : Int
  /-- the value `fork()` returns at line 956 in the process that is followed -/
  fork_back_pid : Int
  /-- the bytes in `e_path[1024]` when it is declared (it is not initialised) -/
  e_path_init : List Char

/-- The text `sprintf(path, "%s/%s", token, command->name)` writes; a `NULL` token is
printed as `(null)`. -/
def sprintf_path (token : Option (List Char)) (name : List Char) : List Char :=
  token.getD "(null)".toList ++ '/' :: name

/-- The search loop of lines 907-920.  `token` is the directory at hand, `save` the position
`strtok` holds, `e_path` the content of `e_path[]`.  The result is the final content of
`path[]` and of `e_path[]`. -/
def resolve_loop (access : List Char → Bool) (name : List Char) :
    Nat → Option (List Char) → List Char → List Char → List Char × List Char
  | 0, token, _, e_path => (sprintf_path token name, e_path)
  | fuel + 1, token, save, e_path =>
    if access (sprintf_path token name) then
      (sprintf_path token name, sprintf_path token name)
    else
      match strtok [':'] save with
      | none => (sprintf_path token name, e_path)
      | some (tok, tail) => resolve_loop access name fuel (some tok) (strtok_save tail) e_path

/-- Lines 898-920: `PATH` is copied to `pathcpy`, cut at colons, and each directory is tried
in turn.  The result is the final content of `path[]` and of `e_path[]`.  The copies into
the three arrays of 1024 bytes are taken to fit here; `resolve_checked` carries the
bounds. -/
def resolve (w : world) (name : List Char) : List Char × List Char :=
  resolve_loop w.access name ((c_str w.PATH).length + 1)
    ((strtok [':'] (c_str w.PATH ++ [NUL])).map Prod.fst)
    (match strtok [':'] (c_str w.PATH ++ [NUL]) with
     | none => strtok_end [':'] (c_str w.PATH ++ [NUL])
     | some (_, tail) => strtok_save tail)
    w.e_path_init

/-- A call `execv(path, arr)` followed by `rest`, which runs only when the call returns. -/
def try_execv (w : world) (path : List Char) (arr : List (Option (List Char)))
    (rest : List effect × outcome) : List effect × outcome :=
  if w.execv_ok path then ([effect.execv path arr], outcome.replaced)
  else (effect.execv path arr :: rest.1, rest.2)

/-- Lines 954-964 of the child: the background branch with its nested `fork`, then the final
`execv(e_path, arr)`, the message and `exit(0)`. -/
def child_tail (w : world) (command : command_t) (arr : List (Option (List Char)))
    (path e_path : List Char) : List effect × outcome :=
  if command.background then
    if w.fork_back_pid = 0 then
      (effect.fork :: (try_execv w path arr ([], outcome.exited 0)).1,
       (try_execv w path arr ([], outcome.exited 0)).2)
    else ([effect.fork], outcome.exited 0)
  else
    try_execv w e_path arr ([effect.not_found command.name], outcome.exited 0)

/-- Lines 877-965: the child process. -/
def child (w : world) (command : command_t) : List effect × outcome :=
  let arr := command.args.take command.arg_count ++ [none]
  let path := (resolve w command.name).1
  let e_path := (resolve w command.name).2
  match command.redirects 0, command.redirects 1, command.redirects 2 with
  | some f, _, _ =>
    let r := try_execv w e_path arr (child_tail w command arr path e_path)
    (effect.open_file f open_how.rdonly :: effect.dup2 0 :: r.1, r.2)
  | none, some f, _ =>
    let r := try_execv w e_path arr ([], outcome.exited 0)
    (effect.open_file f open_how.creat :: effect.dup2 1 :: r.1, r.2)
  | none, none, some f =>
    let r := try_execv w e_path arr (child_tail w command arr path e_path)
    (effect.open_file f (if w.access f then open_how.append else open_how.creat)
      :: effect.dup2 1 :: r.1, r.2)
  | none, none, none => child_tail w command arr path e_path

/-- Lines 875-970: `fork`, then the child, or the parent that waits and returns `SUCCESS`. -/
def spawn (w : world) (command : command_t) : List effect × outcome :=
  if w.fork_pid = 0 then (effect.fork :: (child w command).1, (child w command).2)
  else ([effect.fork, effect.wait], outcome.returned return_codes.SUCCESS)

/-- The names handled inside the shell whatever the arguments are (lines 614-873); every
`return` of these blocks is `return SUCCESS`. -/
def builtin_names : List (List Char) :=
  ["cdh".toList, "roll".toList, "cloc".toList, "rename".toList, "mvsf".toList,
   "searchwords".toList, "psvis".toList]

/-- The function `process_command(command)` in the process that calls it: the effects in
order and how the call ends. -/
def process_command (w : world) (command : command_t) : List effect × outcome :=
  if command.name = [] then ([], outcome.returned return_codes.SUCCESS)
  else if command.name = "exit".toList then ([], outcome.returned return_codes.EXIT)
  else if command.name = "cd".toList ∧ command.arg_count > 0 then
    ([effect.builtin command.name], outcome.returned return_codes.SUCCESS)
  else if command.name ∈ builtin_names then
    ([effect.builtin command.name], outcome.returned return_codes.SUCCESS)
  else spawn w command

/-- The test of `main` after `process_command`: the loop goes on unless the code is `EXIT`. -/
def loop_continues (code : return_codes) : Bool := code != return_codes.EXIT

/-- A session in which no directory of `PATH` holds the command, followed in the shell
process itself (`fork` returns the child's id). -/
def lost_world : world :=
  { PATH := "/usr/bin:/bin".toList, access := fun _ => false, execv_ok := fun _ => false,
    fork_pid := 4242, fork_back_pid := 0, e_path_init := [] }

/-- A session in which `ls` is found in the second directory of `PATH`, followed in the
child (`fork` returns 0). -/
def found_world : world :=
  { PATH := "/usr/bin:/bin".toList, access := fun p => p == "/bin/ls".toList,
    execv_ok := fun _ => true, fork_pid := 0, fork_back_pid := 0, e_path_init := [] }

/-! ## prompt -/

/-- The part of `struct termios` that `prompt` changes, the local-mode flags `c_lflag`; the
other fields are carried along unread. -/
structure termios where
  c_lflag : Nat
  others : List Nat
  deriving DecidableEq

/-- The assignment `new_termios.c_lflag &= ~(ICANON | ECHO)` on the 32-bit flag word.  The
two masks come from `<termios.h>` and are parameters. -/
def raw_mode (ICANON ECHO : Nat) (t : termios) : termios :=
  { t with c_lflag := t.c_lflag &&& (0xFFFFFFFF ^^^ (ICANON ||| ECHO)) }

/-- The assignment `mem[i] = c` on a piece of memory. -/
def poke (mem : List Char) (i : Nat) (c : Char) : List Char :=
  mem.take i ++ List.replicate (i - mem.length) NUL ++ c :: mem.drop (i + 1)

/-- The call `strcpy(dst, src)`, as the memory at `dst` afterwards: the string at `src` and
its terminator, then what `dst` held behind them. -/
def strcpy (dst src : List Char) : List Char :=
  c_str src ++ NUL :: dst.drop ((c_str src).length + 1)

/-- The call `c = getchar()` on the keys still to come.  At the end of the input `getchar`
returns `EOF`, which the `char` variable `c` holds as the byte 255. -/
def getchar (keys : List Char) : Char × List Char :=
  match keys with
  | [] => (Char.ofNat 255, [])
  | k :: ks => (k, ks)

/-- The variables of one `prompt` call: the line buffer `buf[4096]`, the write position
`index`, and the static `oldbuf[4096]` that holds the last completed line. -/
structure editor where
  buf : List Char
  index : Nat
  oldbuf : List Char

/-- How the read loop of `prompt` ends: by `break`, or by the `return EXIT` of Ctrl-D. -/
structure loop_end where
  ctrl_d : Bool
  ed : editor
  keys : List Char

/-- The read loop of lines 291-338.  `none` stands for a loop still running when the fuel is
used up; `prompt` supplies enough. -/
def prompt_loop : Nat → List Char → editor → Option loop_end
  | 0, _, _ => none
  | fuel + 1, keys, ed =>
    if (getchar keys).1.toNat = 9 then
      some { ctrl_d := false,
             ed := { ed with buf := poke ed.buf ed.index '?', index := ed.index + 1 },
             keys := (getchar keys).2 }
    else if (getchar keys).1.toNat = 127 then
      prompt_loop fuel (getchar keys).2 { ed with index := ed.index - 1 }
    else if (getchar keys).1.toNat = 27 ∨ (getchar keys).1.toNat = 91 ∨
        (getchar keys).1.toNat = 66 ∨ (getchar keys).1.toNat = 67 ∨
        (getchar keys).1.toNat = 68 then
      prompt_loop fuel (getchar keys).2 ed
    else if (getchar keys).1.toNat = 65 then
      prompt_loop fuel (getchar keys).2
        { buf := strcpy ed.buf ed.oldbuf,
          index := (c_str (strcpy ed.buf ed.oldbuf)).length,
          oldbuf := strcpy ed.oldbuf (c_str ed.buf) }
    else if ed.index + 1 ≥ 4096 - 1 then
      some { ctrl_d := false,
             ed := { ed with buf := poke ed.buf ed.index (getchar keys).1,
                             index := ed.index + 1 },
             keys := (getchar keys).2 }
    else if (getchar keys).1 = '\n' then
      some { ctrl_d := false,
             ed := { ed with buf := poke ed.buf ed.index (getchar keys).1,
                             index := ed.index + 1 },
             keys := (getchar keys).2 }
    else if (getchar keys).1.toNat = 4 then
      some { ctrl_d := true,
             ed := { ed with buf := poke ed.buf ed.index (getchar keys).1,
                             index := ed.index + 1 },
             keys := (getchar keys).2 }
    else
      prompt_loop fuel (getchar keys).2
        { ed with buf := poke ed.buf ed.index (getchar keys).1, index := ed.index + 1 }

/-- What lasts from one `prompt` call to the next: the attributes of the terminal and the
static `oldbuf`. -/
structure session where
  tty : termios
  oldbuf : List Char

/-- What a `prompt` call leaves: the code it returns, the session, the struct `command`, and
the keys not yet read. -/
structure prompt_result where
  code : return_codes
  after : session
  command : command_t
  keys : List Char

/-- Lines 340-356, after the loop ended by `break`: the newline is trimmed, the line is
terminated, copied to `oldbuf` and parsed, and the saved terminal attributes are set. -/
def prompt_finish (alloc : Nat → command_t) (backup_termios : termios) (e : loop_end)
    (command : command_t) : prompt_result :=
  { code := return_codes.SUCCESS,
    after :=
      { tty := backup_termios,
        oldbuf := strcpy e.ed.oldbuf
          (poke e.ed.buf
            (if e.ed.index > 0 ∧ e.ed.buf.getD (e.ed.index - 1) NUL = '\n'
              then e.ed.index - 1 else e.ed.index) NUL) },
    command := parse_command alloc
      (poke e.ed.buf
        (if e.ed.index > 0 ∧ e.ed.buf.getD (e.ed.index - 1) NUL = '\n'
          then e.ed.index - 1 else e.ed.index) NUL) command,
    keys := e.keys }

/-- The function `prompt(command)`.  `stack` is what the array `buf` holds when the call
starts (it is not initialised), `s.tty` the attributes `tcgetattr` reads into
`backup_termios`, `keys` the input.  At the `return EXIT` of Ctrl-D the terminal
keeps the attributes of `new_termios`. -/
def prompt (ICANON ECHO : Nat) (alloc : Nat → command_t) (stack : List Char) (s : session)
    (keys : List Char) (command : command_t) : Option prompt_result :=
  match prompt_loop (keys.length + 4096) keys
      { buf := poke stack 0 NUL, index := 0, oldbuf := s.oldbuf } with
  | none => none
  | some e =>
    if e.ctrl_d then
      some { code := return_codes.EXIT,
             after := { tty := raw_mode ICANON ECHO s.tty, oldbuf := e.ed.oldbuf },
             command := command,
             keys := e.keys }
    else some (prompt_finish alloc s.tty e command)

/-- A terminal in its usual line mode on Linux (`ICANON` = 2 and `ECHO` = 8 among the flags
set), with an empty history slot. -/
def cooked_session : session :=
  { tty := { c_lflag := 0x8a3b, others := [] }, oldbuf := [] }

/-! ## Vocabulary of the statements about `prompt` -/

/-- One pass of the read loop of `prompt` (lines 300-331) for a key that does not end the
loop: backspace steps the write position back, the bytes 27, 91, 66, 67 and 68 change nothing,
byte 65 swaps the buffer with `oldbuf`, any other key is written at the write position. -/
def key_step (ed : editor) (c : Char) : editor :=
  if c.toNat = 127 then { ed with index := ed.index - 1 }
  else if c.toNat = 27 ∨ c.toNat = 91 ∨ c.toNat = 66 ∨ c.toNat = 67 ∨ c.toNat = 68 then ed
  else if c.toNat = 65 then
    { buf := strcpy ed.buf ed.oldbuf,
      index := (c_str (strcpy ed.buf ed.oldbuf)).length,
      oldbuf := strcpy ed.oldbuf (c_str ed.buf) }
  else { ed with buf := poke ed.buf ed.index c, index := ed.index + 1 }

/-- The variables of the read loop after the keys `keys`, none of which ended it. -/
def typed (ed : editor) (keys : List Char) : editor := keys.foldl key_step ed

/-- The variables with which the read loop of a `prompt` call starts: `buf[0] = 0`,
`index = 0`, and the `oldbuf` of the session. -/
def fresh_editor (stack : List Char) (s : session) : editor :=
  { buf := poke stack 0 NUL, index := 0, oldbuf := s.oldbuf }

/-- A session whose history slot holds the line `ls`. -/
def ls_session : session :=
  { tty := { c_lflag := 0x8a3b, others := [] }, oldbuf := ['l', 's'] }

/-! ## The directory history of `cd` -/

/-- The loop of lines 583-593 in the `cd` branch of `process_command`, from the entry
`ex_index` on: an entry of `history` that differs from `cwdpath` (`strcmp` is not 0) is
copied behind the entries already in `new_history`, an entry equal to it is skipped. -/
def copy_unique (cwdpath : List Char) :
    List (List Char) → List (List Char) → List (List Char)
  | [], new_history => new_history
  | entry :: rest, new_history =>
    if entry ≠ cwdpath then copy_unique cwdpath rest (new_history ++ [entry])
    else copy_unique cwdpath rest new_history

/-- The history update of the `cd` builtin, lines 571-607.  `history` is the list of paths
that the `fscanf` loop reads from the history file (empty when the file cannot be opened),
`cwdpath` the result of `getcwd`; the value is the list of lines written back, one
`fprintf` for each.  The entries other than `cwdpath` are copied to `new_history`, `cwdpath`
is put behind them, and when that makes `curr_index` 11 the ten entries `new_history[1]`
to `new_history[10]` are written, all entries otherwise. -/
def cd_history (history : List (List Char)) (cwdpath : List Char) : List (List Char) :=
  if (copy_unique cwdpath history [] ++ [cwdpath]).length = 11 then
    (List.range 10).map (fun c => (copy_unique cwdpath history [] ++ [cwdpath]).getD (c + 1) [])
  else copy_unique cwdpath history [] ++ [cwdpath]

/-- The tokens a stage scans as arguments, given the tokens from its command name on: those
after the name, up to the next pipe token. -/
def args_of (ts : List (List Char)) : List (List Char) :=
  ts.tail.takeWhile (fun t => t != ['|'])

/-- The tokens of the line from the command name of stage `j` on (stage 0 is the head): each
stage starts behind the first pipe token that follows the name of the stage before it.
There is no such stage when no pipe token follows, or when nothing follows the pipe
token. -/
def stage_line : Nat → List (List Char) → Option (List (List Char))
  | 0, ts => some ts
  | j + 1, ts =>
    match ts.tail.dropWhile (fun t => t != ['|']) with
    | [] => none
    | [_] => none
    | _ :: p :: post => stage_line j (p :: post)

/-- The six bytes that the read loop of `prompt` never writes to the buffer: 27 (ESC),
91 `[`, 66 `B`, 67 `C`, 68 `D`, which lines 310-312 skip, and 65 `A`, which recalls the
history line (lines 314-328). -/
def arrow_byte (c : Char) : Bool :=
  c.toNat == 27 || c.toNat == 91 || c.toNat == 66 || c.toNat == 67 || c.toNat == 68 ||
    c.toNat == 65

/-- A piece of memory, or a string, that holds none of the six bytes. -/
def arrow_free (mem : List Char) : Prop := ∀ c ∈ mem, arrow_byte c = false

/-- What the array `buf` of a `prompt` call can hold when the call starts: it is not
initialised, and here the bytes left by an earlier stack frame are `?`, `B` and zeroes. -/
def stale_stack : List Char := ['?', 'B', NUL, NUL]


/-! ## The scratch buffer of `parse_command` -/

/-- The copy `strcpy(arg, pch)` of lines 151-152, with `arg` at the start of
`char temp_buf[1024]`: the token and its terminator stay inside the array exactly when they
take at most 1024 bytes. -/
def fits_temp_buf (pch : List Char) : Bool := decide (pch.length + 1 ≤ 1024)

/-- The token loop of lines 147-234 with the bound of `temp_buf`.  `none` stands for a run in
which the copy of a token runs past the end of `temp_buf`, where the behaviour of the
program is undefined; in every other run the result is that of `token_loop`. -/
def token_loop_checked (sub : List Char → Option (command_t × List Char)) :
    Nat → List Char → command_t → Option (command_t × List Char)
  | 0, _, command => some (command, [])
  | fuel + 1, save, command =>
    match strtok splitters save with
    | none => some (command, strtok_end splitters save)
    | some (pch, tail) =>
      if fits_temp_buf pch then
        if trim_right (trim_left pch) = [] then
          token_loop_checked sub fuel (strtok_save tail) command
        else if trim_right (trim_left pch) = ['|'] then
          match sub (((pch ++ ' ' :: tail.tail).drop 1).dropWhile is_blank) with
          | none => none
          | some r => token_loop_checked sub fuel r.2 { command with next := some r.1 }
        else token_loop_checked sub fuel (strtok_save tail)
          (process_arg command (trim_right (trim_left pch)))
      else none

/-- The function `parse_command(buf, command)` with the bound of `temp_buf`, the recursion
bounded by `fuel` as in `parse_fuel`: `none` when a copy into `temp_buf` overruns it, in this
call or in a nested one. -/
def parse_fuel_checked (alloc : Nat → command_t) :
    Nat → Nat → List Char → command_t → Option (command_t × List Char)
  | 0, _, _, command => some (command, [])
  | fuel + 1, depth, buf, command =>
    match token_loop_checked
      (fun m => parse_fuel_checked alloc fuel (depth + 1) m (alloc depth))
      ((trimmed_mem buf).length + 1) (first_save (trimmed_mem buf))
      (set_name (strtok splitters (trimmed_mem buf))
        (mark_flags (trim_right (trim_left (c_str buf))) command)) with
    | none => none
    | some r => some (finish_args r.1, r.2)

/-- The function `parse_command(buf, command)` as the program runs it: the struct it leaves,
or `none` when a token of 1024 bytes or more is copied into `temp_buf[1024]`. -/
def parse_command_checked (alloc : Nat → command_t) (buf : List Char) (command : command_t) :
    Option command_t :=
  (parse_fuel_checked alloc (buf.length + 1) 0 buf command).map Prod.fst

/-! ## The path buffers of the child -/

/-- A text and its terminator stay inside an array of 1024 bytes; this is the size of
`pathcpy`, `path` and `e_path` (lines 898-903), which are filled by `strcpy` and `sprintf`
without a test. -/
def fits_path_buf (text : List Char) : Bool := decide (text.length + 1 ≤ 1024)

/-- The search loop of lines 907-920 with the bound of `path[1024]`: `none` stands for a run
in which `sprintf(path, "%s/%s", token, command->name)` writes past the array, where the
behaviour of the program is undefined.  The copy `strcpy(e_path, path)` fits whenever `path`
was filled within its bound.  Otherwise as `resolve_loop`. -/
def resolve_loop_checked (access : List Char → Bool) (name : List Char) :
    Nat → Option (List Char) → List Char → List Char → Option (List Char × List Char)
  | 0, token, _, e_path =>
    if fits_path_buf (sprintf_path token name) then some (sprintf_path token name, e_path)
    else none
  | fuel + 1, token, save, e_path =>
    if fits_path_buf (sprintf_path token name) then
      if access (sprintf_path token name) then
        some (sprintf_path token name, sprintf_path token name)
      else
        match strtok [':'] save with
        | none => some (sprintf_path token name, e_path)
        | some (tok, tail) =>
          resolve_loop_checked access name fuel (some tok) (strtok_save tail) e_path
    else none

/-- Lines 898-920 with the bounds of the buffers: `none` when `strcpy(pathcpy, shellPath)`
writes past `pathcpy[1024]` or the search loop writes past `path[1024]`. -/
def resolve_checked (w : world) (name : List Char) : Option (List Char × List Char) :=
  if fits_path_buf (c_str w.PATH) then
    resolve_loop_checked w.access name ((c_str w.PATH).length + 1)
      ((strtok [':'] (c_str w.PATH ++ [NUL])).map Prod.fst)
      (match strtok [':'] (c_str w.PATH ++ [NUL]) with
       | none => strtok_end [':'] (c_str w.PATH ++ [NUL])
       | some (_, tail) => strtok_save tail)
      w.e_path_init
  else none

/-- The child process of lines 877-965 as the program runs it: `none` when the path search
overruns one of its buffers, and the run of `child` otherwise. -/
def child_checked (w : world) (command : command_t) : Option (List effect × outcome) :=
  (resolve_checked w command.name).map (fun _ => child w command)

/-- A session whose `PATH` lists the directory `/usr/bin` 114 times (1025 bytes), in which
every file exists, followed in the child. -/
def long_path_world : world :=
  { PATH := [':'].intercalate (List.replicate 114 "/usr/bin".toList), access := fun _ => true,
    execv_ok := fun _ => true, fork_pid := 0, fork_back_pid := 0, e_path_init := [] }

/-- The struct that node `j` of the chain is built on: the struct of the caller for the head,
and for the `j`-th nested node the block that the `j`-th `malloc` of line 179 returned. -/
def node_block (alloc : Nat → command_t) (command : command_t) : Nat → command_t
  | 0 => command
  | j + 1 => alloc j

/-! ## The tokenizer and the token loop -/

theorem tokens_nil : tokens [] = [] := by
  simp [tokens]

theorem tokens_cons_splitter (x : Char) (xs : List Char) (h : is_splitter x = true) :
    tokens (x :: xs) = tokens xs := by
  simp [tokens, h]

theorem splitOnP_head_tail (p : Char → Bool) (xs : List Char) :
    xs.splitOnP p = xs.takeWhile (fun c => !p c) ::
      (match xs.dropWhile (fun c => !p c) with
       | [] => []
       | _ :: r => r.splitOnP p) := by
  induction xs with
  | nil => simp
  | cons x xs ih =>
    by_cases h : p x = true
    · simp [h]
    · simp only [Bool.not_eq_true] at h
      rw [List.splitOnP_cons, ih]
      simp [h]

theorem tokens_cons_word (x : Char) (xs : List Char) (h : is_splitter x = false) :
    tokens (x :: xs) =
      (x :: xs.takeWhile (fun c => !is_splitter c)) ::
        tokens (xs.dropWhile (fun c => !is_splitter c)) := by
  have e := splitOnP_head_tail is_splitter (x :: xs)
  unfold tokens
  rw [e]
  simp only [List.takeWhile_cons, h, Bool.not_false, ↓reduceIte, List.dropWhile_cons]
  simp only [List.filter_cons, List.isEmpty_cons, Bool.not_false, ↓reduceIte]
  congr 1
  rcases hd : xs.dropWhile (fun c => !is_splitter c) with _ | ⟨d, r⟩
  · simp
  · have hp : is_splitter d = true := by
      have := List.head_dropWhile_not (fun c => !is_splitter c) xs (by simp [hd])
      simpa [hd] using this
    simp [hp]


theorem is_splitter_NUL : is_splitter NUL = false := by decide

theorem strtok_splitters (save : List Char) :
    strtok splitters save =
      match save.dropWhile is_splitter with
      | [] => none
      | c :: cs =>
        if c = NUL then none
        else some ((c :: cs).takeWhile (fun x => !is_splitter x && x != NUL),
                   (c :: cs).dropWhile (fun x => !is_splitter x && x != NUL)) := rfl

theorem takeWhile_word_mem (l rest : List Char) (hl : ∀ c ∈ l, c ≠ NUL) :
    (l ++ NUL :: rest).takeWhile (fun x => !is_splitter x && x != NUL) =
      l.takeWhile (fun c => !is_splitter c) := by
  induction l with
  | nil => simp
  | cons a l ih =>
    have ha : a ≠ NUL := hl a (List.mem_cons_self _ _)
    have hl2 : ∀ c ∈ l, c ≠ NUL := fun c hc => hl c (List.mem_cons_of_mem _ hc)
    by_cases h : is_splitter a = true
    · simp [List.takeWhile_cons, h]
    · simp only [Bool.not_eq_true] at h
      simp [List.takeWhile_cons, h, ha, ih hl2]

theorem dropWhile_word_mem (l rest : List Char) (hl : ∀ c ∈ l, c ≠ NUL) :
    (l ++ NUL :: rest).dropWhile (fun x => !is_splitter x && x != NUL) =
      l.dropWhile (fun c => !is_splitter c) ++ NUL :: rest := by
  induction l with
  | nil => simp
  | cons a l ih =>
    have ha : a ≠ NUL := hl a (List.mem_cons_self _ _)
    have hl2 : ∀ c ∈ l, c ≠ NUL := fun c hc => hl c (List.mem_cons_of_mem _ hc)
    by_cases h : is_splitter a = true
    · simp [List.dropWhile_cons, h]
    · simp only [Bool.not_eq_true] at h
      simp [List.dropWhile_cons, h, ha, ih hl2]

theorem strtok_mem (s rest : List Char) (hs : ∀ c ∈ s, c ≠ NUL) :
    strtok splitters (s ++ NUL :: rest) =
      match s.dropWhile is_splitter with
      | [] => none
      | x :: xs => some (x :: xs.takeWhile (fun c => !is_splitter c),
          xs.dropWhile (fun c => !is_splitter c) ++ NUL :: rest) := by
  induction s with
  | nil =>
    simp [strtok_splitters, List.dropWhile_cons, is_splitter_NUL]
  | cons a s ih =>
    have ha : a ≠ NUL := hs a (List.mem_cons_self _ _)
    have hs2 : ∀ c ∈ s, c ≠ NUL := fun c hc => hs c (List.mem_cons_of_mem _ hc)
    by_cases h : is_splitter a = true
    · have e := ih hs2
      have d1 : (a :: s ++ NUL :: rest).dropWhile is_splitter
          = (s ++ NUL :: rest).dropWhile is_splitter := by
        simp [List.dropWhile_cons, h]
      have d2 : (a :: s).dropWhile is_splitter = s.dropWhile is_splitter := by
        simp [List.dropWhile_cons, h]
      rw [strtok_splitters] at e ⊢
      rw [d1, d2]
      exact e
    · simp only [Bool.not_eq_true] at h
      have e1 := takeWhile_word_mem (a :: s) rest hs
      have e2 := dropWhile_word_mem (a :: s) rest hs
      simp only [List.cons_append] at e1 e2
      rw [strtok_splitters]
      simp only [List.cons_append, List.dropWhile_cons, h, ↓reduceIte, ha,
        Bool.false_eq_true, e1, e2]
      simp [List.takeWhile_cons, List.dropWhile_cons, h]


theorem tokens_dropWhile (s : List Char) : tokens (s.dropWhile is_splitter) = tokens s := by
  induction s with
  | nil => rfl
  | cons a s ih =>
    by_cases h : is_splitter a = true
    · rw [List.dropWhile_cons_of_pos h, ih, tokens_cons_splitter a s h]
    · rw [List.dropWhile_cons_of_neg h]

theorem tokens_dropWhile_nil (s : List Char) (h : s.dropWhile is_splitter = []) :
    tokens s = [] := by
  rw [← tokens_dropWhile, h, tokens_nil]

theorem tokens_dropWhile_cons (s : List Char) (x : Char) (xs : List Char)
    (h : s.dropWhile is_splitter = x :: xs) :
    tokens s = (x :: xs.takeWhile (fun c => !is_splitter c)) ::
      tokens (xs.dropWhile (fun c => !is_splitter c)) := by
  have hx : is_splitter x = false := by
    have := List.head_dropWhile_not is_splitter s (by simp [h])
    simpa [h] using this
  rw [← tokens_dropWhile, h, tokens_cons_word x xs hx]

theorem word_tail_cases (xs : List Char) :
    xs.dropWhile (fun c => !is_splitter c) = [] ∨
      ∃ d w, xs.dropWhile (fun c => !is_splitter c) = d :: w ∧ is_splitter d = true := by
  rcases hd : xs.dropWhile (fun c => !is_splitter c) with _ | ⟨d, w⟩
  · exact Or.inl rfl
  · right
    refine ⟨d, w, rfl, ?_⟩
    have := List.head_dropWhile_not (fun c => !is_splitter c) xs (by simp [hd])
    simpa [hd] using this

theorem trim_word (l : List Char) (hl : ∀ c ∈ l, is_splitter c = false) :
    trim_right (trim_left l) = l := by
  have h1 : trim_left l = l := by
    unfold trim_left
    rw [List.dropWhile_eq_self_iff]
    intro h0
    simp [hl _ (List.getElem_mem h0)]
  rw [h1]
  unfold trim_right
  rw [List.rdropWhile_eq_self_iff]
  intro h0
  simp [hl _ (List.getLast_mem h0)]

theorem word_no_splitter (x : Char) (xs : List Char) (hx : is_splitter x = false) :
    ∀ c ∈ x :: xs.takeWhile (fun c => !is_splitter c), is_splitter c = false := by
  intro c hc
  rcases List.mem_cons.1 hc with rfl | hc
  · exact hx
  · simpa using List.mem_takeWhile_imp hc

theorem strtok_end_none (save : List Char) :
    strtok splitters (strtok_end splitters save) = strtok splitters save := by
  show strtok splitters (save.dropWhile is_splitter) = _
  rw [strtok_splitters, strtok_splitters, List.dropWhile_idempotent]

theorem token_loop_exhausted (sub : List Char → command_t × List Char) (fuel : Nat)
    (save : List Char) (c : command_t) (h : strtok splitters save = none) :
    (token_loop sub fuel save c).1 = c := by
  cases fuel with
  | zero => rfl
  | succ n => simp [token_loop, h]

theorem token_loop_save_exhausted (sub : List Char → command_t × List Char) :
    ∀ (fuel : Nat) (save : List Char) (c : command_t),
      strtok splitters (token_loop sub fuel save c).2 = none := by
  intro fuel
  induction fuel with
  | zero => intro save c; rfl
  | succ n ih =>
    intro save c
    rw [token_loop]
    rcases h : strtok splitters save with _ | ⟨pch, tail⟩
    · simp only [strtok_end_none, h]
    · simp only
      split
      · exact ih _ _
      · split
        · exact ih _ _
        · exact ih _ _

theorem parse_fuel_save_exhausted (alloc : Nat → command_t) (fuel depth : Nat)
    (buf : List Char) (c : command_t) :
    strtok splitters (parse_fuel alloc fuel depth buf c).2 = none := by
  cases fuel with
  | zero => rfl
  | succ n => exact token_loop_save_exhausted _ _ _ _


theorem strtok_save_word_tail (w rest : List Char)
    (hw : w = [] ∨ ∃ d w', w = d :: w' ∧ is_splitter d = true) :
    strtok_save (w ++ NUL :: rest) = w.tail ++ NUL :: rest := by
  rcases hw with rfl | ⟨d, w', rfl, hd⟩
  · simp [strtok_save]
  · have : d ≠ NUL := by
      intro h
      rw [h, is_splitter_NUL] at hd
      exact Bool.noConfusion hd
    simp [strtok_save, this]

theorem tokens_word_tail (w : List Char)
    (hw : w = [] ∨ ∃ d w', w = d :: w' ∧ is_splitter d = true) :
    tokens w.tail = tokens w := by
  rcases hw with rfl | ⟨d, w', rfl, hd⟩
  · rfl
  · rw [tokens_cons_splitter d w' hd]; rfl

theorem dropWhile_length_le (p : Char → Bool) (l : List Char) :
    (l.dropWhile p).length ≤ l.length := by
  induction l with
  | nil => simp
  | cons a l ih =>
    by_cases h : p a = true
    · rw [List.dropWhile_cons_of_pos h]; exact Nat.le_succ_of_le ih
    · rw [List.dropWhile_cons_of_neg h]

theorem mem_of_mem_dropWhile (p : Char → Bool) (l : List Char) (c : Char)
    (h : c ∈ l.dropWhile p) : c ∈ l :=
  (List.dropWhile_suffix p).subset h

/-- The head fields after the token loop: the arguments before the first pipe token, folded
with `process_arg`. -/
theorem token_loop_head (sub : List Char → command_t × List Char)
    (hsub : ∀ m, strtok splitters (sub m).2 = none) :
    ∀ (fuel : Nat) (s rest : List Char) (cmd : command_t),
      (∀ c ∈ s, c ≠ NUL) → s.length < fuel →
      head_of (token_loop sub fuel (s ++ NUL :: rest) cmd).1 =
        head_of (((tokens s).takeWhile (fun t => t != ['|'])).foldl process_arg cmd) := by
  intro fuel
  induction fuel with
  | zero => intro s rest cmd _ h; exact absurd h (Nat.not_lt_zero _)
  | succ n ih =>
    intro s rest cmd hs hlen
    rw [token_loop, strtok_mem s rest hs]
    rcases hd : s.dropWhile is_splitter with _ | ⟨x, xs⟩
    · simp [tokens_dropWhile_nil s hd]
    · have hx : is_splitter x = false := by
        have := List.head_dropWhile_not is_splitter s (by simp [hd])
        simpa [hd] using this
      have htok := tokens_dropWhile_cons s x xs hd
      have hw := word_tail_cases xs
      simp only
      rw [trim_word _ (word_no_splitter x xs hx), htok]
      rw [if_neg (List.cons_ne_nil _ _)]
      by_cases hp : (x :: xs.takeWhile (fun c => !is_splitter c)) = ['|']
      · rw [if_pos hp, token_loop_exhausted _ _ _ _ (hsub _)]
        simp [List.takeWhile_cons, hp, head_of]
      · rw [if_neg hp, strtok_save_word_tail _ _ hw]
        have hmem : ∀ c ∈ (xs.dropWhile (fun c => !is_splitter c)).tail, c ≠ NUL := by
          intro c hc
          apply hs c
          apply mem_of_mem_dropWhile is_splitter
          rw [hd]
          exact List.mem_cons_of_mem _ (mem_of_mem_dropWhile _ _ _ (List.mem_of_mem_tail hc))
        have hl : ((xs.dropWhile (fun c => !is_splitter c)).tail).length < n := by
          have h1 := dropWhile_length_le is_splitter s
          have h2 := dropWhile_length_le (fun c => !is_splitter c) xs
          have h3 : ((xs.dropWhile (fun c => !is_splitter c)).tail).length
              ≤ (xs.dropWhile (fun c => !is_splitter c)).length := by simp
          rw [hd] at h1
          simp only [List.length_cons] at h1
          omega
        rw [ih _ rest _ hmem hl, tokens_word_tail _ hw]
        simp [List.takeWhile_cons, hp]


theorem c_str_no_NUL (buf : List Char) : ∀ c ∈ c_str buf, c ≠ NUL := by
  intro c hc
  have := List.mem_takeWhile_imp hc
  simpa using this

theorem trim_no_NUL (s : List Char) (hs : ∀ c ∈ s, c ≠ NUL) :
    ∀ c ∈ trim_right (trim_left s), c ≠ NUL := by
  intro c hc
  apply hs c
  have h1 : c ∈ trim_left s := (List.rdropWhile_prefix is_splitter _).subset hc
  exact mem_of_mem_dropWhile is_splitter s c h1

theorem splitOnP_concat_splitter (l : List Char) (a : Char) (ha : is_splitter a = true) :
    (l ++ [a]).splitOnP is_splitter = l.splitOnP is_splitter ++ [[]] := by
  induction l with
  | nil => simp [ha]
  | cons x l ih =>
    rw [List.cons_append, List.splitOnP_cons, List.splitOnP_cons, ih]
    by_cases hx : is_splitter x = true
    · simp [hx]
    · simp only [hx, Bool.false_eq_true, ↓reduceIte]
      rcases h : l.splitOnP is_splitter with _ | ⟨y, ys⟩
      · exact absurd h (List.splitOnP_ne_nil _ _)
      · rfl

theorem tokens_concat_splitter (l : List Char) (a : Char) (ha : is_splitter a = true) :
    tokens (l ++ [a]) = tokens l := by
  simp [tokens, splitOnP_concat_splitter l a ha]

theorem tokens_trim_right (s : List Char) : tokens (trim_right s) = tokens s := by
  unfold trim_right
  induction s using List.reverseRecOn with
  | nil => rfl
  | append_singleton l a ih =>
    by_cases ha : is_splitter a = true
    · rw [List.rdropWhile_concat_pos _ _ _ ha, ih, tokens_concat_splitter l a ha]
    · rw [List.rdropWhile_concat_neg _ _ _ ha]

theorem tokens_trim (s : List Char) : tokens (trim_right (trim_left s)) = tokens s := by
  rw [tokens_trim_right]
  exact tokens_dropWhile s

theorem trimmed_mem_eq (buf : List Char) :
    trimmed_mem buf = trim_right (trim_left (c_str buf)) ++
      NUL :: (List.replicate ((trim_left (c_str buf)).length
        - (trim_right (trim_left (c_str buf))).length) NUL ++ past_str buf) := by
  simp [trimmed_mem, List.replicate_succ]

theorem head_of_finish_args (a b : command_t) (h : head_of a = head_of b) :
    head_of (finish_args a) = head_of (finish_args b) := by
  cases a; cases b
  simp only [head_of, finish_args, command_t.mk.injEq] at h ⊢
  obtain ⟨h1, h2, h3, h4, h5, h6, h7⟩ := h
  subst h1 h5
  simp [h2, h3, h6]

/-- Apart from `next`, the struct that `parse_command` leaves is fixed by the tokens of the
line: the arguments before the first pipe token are folded with `process_arg` and the
vector is closed by `finish_args`. -/
theorem parse_fuel_head (alloc : Nat → command_t) (fuel depth : Nat) (buf : List Char)
    (command : command_t) :
    head_of (parse_fuel alloc (fuel + 1) depth buf command).1 =
      head_of (finish_args
        (((tokens (c_str buf)).tail.takeWhile (fun t => t != ['|'])).foldl process_arg
          (start_command (c_str buf) command))) := by
  rw [parse_fuel]
  apply head_of_finish_args
  have hs := trim_no_NUL _ (c_str_no_NUL buf)
  have hsub : ∀ m, strtok splitters
      ((fun m => parse_fuel alloc fuel (depth + 1) m (alloc depth)) m).2 = none :=
    fun m => parse_fuel_save_exhausted _ _ _ _ _
  have htk := tokens_trim (c_str buf)
  rw [trimmed_mem_eq]
  generalize hrest : (List.replicate ((trim_left (c_str buf)).length
        - (trim_right (trim_left (c_str buf))).length) NUL ++ past_str buf) = rest
  generalize hs2 : trim_right (trim_left (c_str buf)) = s2 at hs htk
  have hstart : start_command (c_str buf) command =
      { mark_flags s2 command with name := (tokens (c_str buf)).headD [], args := [] } := by
    simp [start_command, hs2]
  rw [hstart]
  unfold first_save
  rw [strtok_mem s2 rest hs]
  rcases hd : s2.dropWhile is_splitter with _ | ⟨x, xs⟩
  · have ht : tokens (c_str buf) = [] := by rw [← htk]; exact tokens_dropWhile_nil s2 hd
    have he : strtok_end splitters (s2 ++ NUL :: rest) = [] ++ NUL :: rest := by
      show (s2 ++ NUL :: rest).dropWhile is_splitter = _
      rw [List.dropWhile_append_of_pos (List.dropWhile_eq_nil_iff.1 hd)]
      simp [List.dropWhile_cons, is_splitter_NUL]
    simp only [he]
    rw [token_loop_head _ hsub _ [] rest _ (by simp) (by simp)]
    simp [ht, tokens_nil, set_name]
  · have htok := tokens_dropWhile_cons s2 x xs hd
    have hw := word_tail_cases xs
    have ht : tokens (c_str buf) = (x :: xs.takeWhile (fun c => !is_splitter c)) ::
        tokens (xs.dropWhile (fun c => !is_splitter c)) := by rw [← htk]; exact htok
    simp only
    rw [strtok_save_word_tail _ _ hw]
    have hmem : ∀ c ∈ (xs.dropWhile (fun c => !is_splitter c)).tail, c ≠ NUL := by
      intro c hc
      apply hs c
      apply mem_of_mem_dropWhile is_splitter
      rw [hd]
      exact List.mem_cons_of_mem _ (mem_of_mem_dropWhile _ _ _ (List.mem_of_mem_tail hc))
    have hl : ((xs.dropWhile (fun c => !is_splitter c)).tail).length
        < (s2 ++ NUL :: rest).length + 1 := by
      have h1 := dropWhile_length_le is_splitter s2
      have h2 := dropWhile_length_le (fun c => !is_splitter c) xs
      have h3 : ((xs.dropWhile (fun c => !is_splitter c)).tail).length
          ≤ (xs.dropWhile (fun c => !is_splitter c)).length := by simp
      rw [hd] at h1
      simp only [List.length_cons, List.length_append] at h1 ⊢
      omega
    rw [token_loop_head _ hsub _ _ rest _ hmem hl, tokens_word_tail _ hw]
    simp [ht, set_name]


/-- Apart from `next`, the struct that `parse_command` leaves is fixed by the tokens of the
line. -/
theorem parse_command_head (alloc : Nat → command_t) (buf : List Char) (command : command_t) :
    head_of (parse_command alloc buf command) =
      head_of (finish_args
        (((tokens (c_str buf)).tail.takeWhile (fun t => t != ['|'])).foldl process_arg
          (start_command (c_str buf) command))) :=
  parse_fuel_head alloc buf.length 0 buf command

/-! ## What `process_arg` does to the fields -/

theorem strip_quotes_eq_stored (t : List Char) : strip_quotes t = stored_argument t := by
  unfold strip_quotes stored_argument quote_wrapped
  by_cases h : 2 < t.length ∧
      ((t.head? = some '"' ∧ t.getLast? = some '"') ∨
       (t.head? = some '\'' ∧ t.getLast? = some '\''))
  · rw [if_pos h, if_pos (by simpa using h)]
    rcases t with _ | ⟨a, t⟩
    · simp at h
    · simp [List.dropLast_eq_take, List.take_succ_cons]
      rcases t with _ | ⟨b, t⟩
      · simp at h
      · simp [List.take_succ_cons]
  · rw [if_neg h, if_neg (by simpa using h)]

theorem redirect_of_none_iff (t : List Char) :
    redirect_of t = none ↔ is_redirection t = false := by
  rcases t with _ | ⟨a, t⟩
  · simp [redirect_of, is_redirection]
  · by_cases h1 : a = '>'
    · subst h1
      rcases t with _ | ⟨b, t⟩
      · simp [redirect_of, is_redirection]
      · by_cases h2 : b = '>' <;> simp [redirect_of, is_redirection, h2]
    · by_cases h2 : a = '<'
      · subst h2; simp [redirect_of, is_redirection]
      · simp [redirect_of, is_redirection, h1, h2]

theorem redirect_of_names_slot (t : List Char) (i : Fin 3) (T : List Char)
    (h : redirect_of t = some (i, T)) : names_slot i t = true := by
  rcases t with _ | ⟨a, t⟩
  · simp [redirect_of] at h
  · by_cases h1 : a = '>'
    · subst h1
      rcases t with _ | ⟨b, t⟩
      · simp [redirect_of] at h
        simp [names_slot, ← h.1]
      · by_cases h2 : b = '>'
        · simp [redirect_of, h2] at h
          simp [names_slot, ← h.1, h2]
        · simp [redirect_of, h2] at h
          simp [names_slot, ← h.1, h2]
    · by_cases h2 : a = '<'
      · subst h2
        simp [redirect_of] at h
        simp [names_slot, ← h.1]
      · simp [redirect_of, h1, h2] at h

theorem process_arg_ordinary (c : command_t) (t : List Char) (h : ordinary t = true) :
    process_arg c t = { c with args := c.args ++ [some (stored_argument t)] } := by
  simp only [ordinary, Bool.and_eq_true, bne_iff_ne, ne_eq, Bool.not_eq_true'] at h
  obtain ⟨⟨_, h2⟩, h3⟩ := h
  simp [process_arg, h2, (redirect_of_none_iff t).2 h3, strip_quotes_eq_stored]

theorem process_arg_args_skip (c : command_t) (t : List Char) (hp : t ≠ ['|'])
    (h : ordinary t = false) : (process_arg c t).args = c.args := by
  unfold process_arg
  by_cases h2 : t = ['&']
  · simp [h2]
  · rw [if_neg h2]
    rcases hr : redirect_of t with _ | ⟨i, T⟩
    · have := (redirect_of_none_iff t).1 hr
      simp [ordinary, hp, h2, this] at h
    · rfl

theorem foldl_process_arg_args (l : List (List Char)) :
    ∀ (c : command_t), (∀ t ∈ l, t ≠ ['|']) →
      (l.foldl process_arg c).args =
        c.args ++ (l.filter ordinary).map (fun t => some (stored_argument t)) := by
  induction l with
  | nil => intro c _; simp
  | cons t l ih =>
    intro c hl
    have ht : t ≠ ['|'] := hl t (List.mem_cons_self _ _)
    have hl2 : ∀ u ∈ l, u ≠ ['|'] := fun u hu => hl u (List.mem_cons_of_mem _ hu)
    rw [List.foldl_cons, ih _ hl2]
    by_cases ho : ordinary t = true
    · rw [process_arg_ordinary c t ho]
      simp [List.filter_cons, ho]
    · simp only [Bool.not_eq_true] at ho
      rw [process_arg_args_skip c t ht ho]
      simp [List.filter_cons, ho]

theorem process_arg_keeps (c : command_t) (t : List Char) :
    (process_arg c t).name = c.name ∧ (process_arg c t).background = c.background ∧
    (process_arg c t).auto_complete = c.auto_complete ∧ (process_arg c t).next = c.next := by
  unfold process_arg
  by_cases h2 : t = ['&']
  · simp [h2]
  · rw [if_neg h2]
    rcases redirect_of t with _ | ⟨i, T⟩ <;> simp

theorem foldl_process_arg_keeps (l : List (List Char)) :
    ∀ (c : command_t), (l.foldl process_arg c).name = c.name ∧
      (l.foldl process_arg c).background = c.background ∧
      (l.foldl process_arg c).auto_complete = c.auto_complete ∧
      (l.foldl process_arg c).next = c.next := by
  induction l with
  | nil => intro c; simp
  | cons t l ih =>
    intro c
    rw [List.foldl_cons]
    obtain ⟨h1, h2, h3, h4⟩ := ih (process_arg c t)
    obtain ⟨k1, k2, k3, k4⟩ := process_arg_keeps c t
    exact ⟨h1.trans k1, h2.trans k2, h3.trans k3, h4.trans k4⟩

theorem process_arg_slot_kept (c : command_t) (t : List Char) (i : Fin 3)
    (h : names_slot i t = false) : (process_arg c t).redirects i = c.redirects i := by
  unfold process_arg
  by_cases h2 : t = ['&']
  · simp [h2]
  · rw [if_neg h2]
    rcases hr : redirect_of t with _ | ⟨j, T⟩
    · rfl
    · have hj := redirect_of_names_slot t j T hr
      have : i ≠ j := by
        intro e
        rw [e, hj] at h
        exact Bool.noConfusion h
      simp [set_redirect, this]

theorem foldl_process_arg_slot_kept (l : List (List Char)) (i : Fin 3) :
    ∀ (c : command_t), (∀ t ∈ l, names_slot i t = false) →
      (l.foldl process_arg c).redirects i = c.redirects i := by
  induction l with
  | nil => intro c _; rfl
  | cons t l ih =>
    intro c hl
    rw [List.foldl_cons, ih _ (fun u hu => hl u (List.mem_cons_of_mem _ hu)),
      process_arg_slot_kept c t i (hl t (List.mem_cons_self _ _))]

theorem process_arg_redirect (c : command_t) (t : List Char) (i : Fin 3) (T : List Char)
    (h : redirect_of t = some (i, T)) :
    process_arg c t = { c with redirects := set_redirect c.redirects i T } := by
  have h2 : t ≠ ['&'] := by
    intro e
    rw [e] at h
    simp [redirect_of] at h
  simp [process_arg, h2, h]

/-- The head fields of the parsed struct, read off the tokens of the line. -/
theorem parse_command_fields (alloc : Nat → command_t) (buf : List Char) (command : command_t) :
    (parse_command alloc buf command).name = (tokens (c_str buf)).headD [] ∧
    (parse_command alloc buf command).args =
      some ((tokens (c_str buf)).headD []) ::
        (((stage_tokens (c_str buf)).filter ordinary).map (fun t => some (stored_argument t))
          ++ [none]) ∧
    (parse_command alloc buf command).arg_count =
      ((stage_tokens (c_str buf)).filter ordinary).length + 2 ∧
    (parse_command alloc buf command).redirects =
      ((stage_tokens (c_str buf)).foldl process_arg (start_command (c_str buf) command)).redirects ∧
    (parse_command alloc buf command).background =
      (start_command (c_str buf) command).background ∧
    (parse_command alloc buf command).auto_complete =
      (start_command (c_str buf) command).auto_complete := by
  have h := parse_command_head alloc buf command
  have hnp : ∀ t ∈ stage_tokens (c_str buf), t ≠ ['|'] := by
    intro t ht
    have := List.mem_takeWhile_imp ht
    simpa using this
  have hargs := foldl_process_arg_args (stage_tokens (c_str buf))
    (start_command (c_str buf) command) hnp
  obtain ⟨k1, k2, k3, _⟩ := foldl_process_arg_keeps (stage_tokens (c_str buf))
    (start_command (c_str buf) command)
  have e1 := congrArg command_t.name h
  have e2 := congrArg command_t.args h
  have e3 := congrArg command_t.arg_count h
  have e4 := congrArg command_t.redirects h
  have e5 := congrArg command_t.background h
  have e6 := congrArg command_t.auto_complete h
  simp only [head_of, finish_args] at e1 e2 e3 e4 e5 e6
  change _ = (List.foldl process_arg (start_command (c_str buf) command)
    (stage_tokens (c_str buf))).name at e1
  change _ = some (List.foldl process_arg (start_command (c_str buf) command)
    (stage_tokens (c_str buf))).name :: ((List.foldl process_arg
      (start_command (c_str buf) command) (stage_tokens (c_str buf))).args ++ [none]) at e2
  change _ = (List.foldl process_arg (start_command (c_str buf) command)
    (stage_tokens (c_str buf))).args.length + 2 at e3
  change _ = (List.foldl process_arg (start_command (c_str buf) command)
    (stage_tokens (c_str buf))).redirects at e4
  change _ = (List.foldl process_arg (start_command (c_str buf) command)
    (stage_tokens (c_str buf))).background at e5
  change _ = (List.foldl process_arg (start_command (c_str buf) command)
    (stage_tokens (c_str buf))).auto_complete at e6
  rw [k1] at e1 e2
  rw [hargs] at e2 e3
  rw [k2] at e5
  rw [k3] at e6
  refine ⟨e1, ?_, ?_, e4, e5, e6⟩
  · rw [e2]; simp [start_command]
  · rw [e3]; simp [start_command]

theorem strtok_word_at (w : List Char) (e : Char) (rest : List Char) (hne : w ≠ [])
    (hw : ∀ c ∈ w, is_splitter c = false ∧ c ≠ NUL)
    (he : is_splitter e = true ∨ e = NUL) :
    strtok splitters (w ++ e :: rest) = some (w, e :: rest) := by
  rcases w with _ | ⟨x, xs⟩
  · exact absurd rfl hne
  · have hx := hw x (List.mem_cons_self _ _)
    have hstop : (!is_splitter e && e != NUL) = false := by
      rcases he with h | h
      · simp [h]
      · simp [h]
    have hall : ∀ c ∈ x :: xs, (!is_splitter c && c != NUL) = true := by
      intro c hc
      obtain ⟨h1, h2⟩ := hw c hc
      simp [h1, h2]
    have ht : ((x :: xs) ++ e :: rest).takeWhile (fun c => !is_splitter c && c != NUL)
        = x :: xs := by
      rw [List.takeWhile_append_of_pos hall, List.takeWhile_cons_of_neg (by simp [hstop])]
      simp
    have hd : ((x :: xs) ++ e :: rest).dropWhile (fun c => !is_splitter c && c != NUL)
        = e :: rest := by
      rw [List.dropWhile_append_of_pos hall, List.dropWhile_cons_of_neg (by simp [hstop])]
    rw [strtok_splitters]
    have h0 : ((x :: xs) ++ e :: rest).dropWhile is_splitter = (x :: xs) ++ e :: rest := by
      rw [List.cons_append, List.dropWhile_cons_of_neg (by simp [hx.1])]
    rw [h0]
    simp only [List.cons_append] at ht hd ⊢
    rw [if_neg hx.2, ht, hd]

theorem filter_ordinary_drop_amp (ts : List (List Char)) :
    ((ts.filter (fun t => t != ['&'])).takeWhile (fun t => t != ['|'])).filter ordinary =
      (ts.takeWhile (fun t => t != ['|'])).filter ordinary := by
  induction ts with
  | nil => rfl
  | cons t ts ih =>
    by_cases ha : t = ['&']
    · subst ha
      have h3 : ordinary ['&'] = false := by decide
      simp [List.filter_cons, List.takeWhile_cons, h3, ih]
    · by_cases hp : t = ['|']
      · subst hp
        simp [List.filter_cons, List.takeWhile_cons]
      · by_cases ho : ordinary t = true
        · simp [List.filter_cons, List.takeWhile_cons, ha, hp, ho, ih]
        · simp [List.filter_cons, List.takeWhile_cons, ha, hp, ho, ih]

theorem stored_argument_wrapped (q : Char) (body : List Char)
    (hq : q = '"' ∨ q = '\'') (hb : body ≠ []) :
    stored_argument (q :: (body ++ [q])) = body := by
  have hlen : 2 < (q :: (body ++ [q])).length := by
    rcases body with _ | ⟨b, body⟩
    · exact absurd rfl hb
    · simp
  have hw : quote_wrapped (q :: (body ++ [q])) = true := by
    have hl : (q :: (body ++ [q])).getLast? = some q := by
      rw [← List.cons_append, List.getLast?_append]
      simp
    unfold quote_wrapped
    rw [hl]
    have hpos : 0 < body.length := List.length_pos.2 hb
    rcases hq with rfl | rfl <;> simp [hpos]
  unfold stored_argument
  rw [if_pos hw]
  simp

theorem tokens_mem_chars : ∀ (n : Nat) (s : List Char), s.length ≤ n →
    ∀ t ∈ tokens s, ∀ c ∈ t, is_splitter c = false ∧ c ∈ s := by
  intro n
  induction n with
  | zero =>
    intro s hs t ht
    have : s = [] := List.length_eq_zero.1 (Nat.le_zero.1 hs)
    rw [this, tokens_nil] at ht
    exact absurd ht (List.not_mem_nil _)
  | succ n ih =>
    intro s hs t ht c hc
    rcases s with _ | ⟨x, xs⟩
    · rw [tokens_nil] at ht
      exact absurd ht (List.not_mem_nil _)
    · have hxs : xs.length ≤ n := by simpa using hs
      by_cases hx : is_splitter x = true
      · rw [tokens_cons_splitter x xs hx] at ht
        obtain ⟨h1, h2⟩ := ih xs hxs t ht c hc
        exact ⟨h1, List.mem_cons_of_mem _ h2⟩
      · simp only [Bool.not_eq_true] at hx
        rw [tokens_cons_word x xs hx] at ht
        rcases List.mem_cons.1 ht with rfl | ht
        · rcases List.mem_cons.1 hc with rfl | hc
          · exact ⟨hx, List.mem_cons_self _ _⟩
          · refine ⟨?_, List.mem_cons_of_mem _ ((List.takeWhile_prefix _).subset hc)⟩
            simpa using List.mem_takeWhile_imp hc
        · have hl := dropWhile_length_le (fun c => !is_splitter c) xs
          obtain ⟨h1, h2⟩ := ih _ (Nat.le_trans hl hxs) t ht c hc
          exact ⟨h1, List.mem_cons_of_mem _ (mem_of_mem_dropWhile _ _ _ h2)⟩

theorem token_chars (buf : List Char) (t : List Char) (ht : t ∈ tokens (c_str buf)) :
    ∀ c ∈ t, is_splitter c = false ∧ c ≠ NUL := by
  intro c hc
  obtain ⟨h1, h2⟩ := tokens_mem_chars _ _ (Nat.le_refl _) t ht c hc
  exact ⟨h1, c_str_no_NUL buf c h2⟩

/-! ## Lines without a pipe, and pipelines -/

theorem process_arg_next (c : command_t) (t : List Char) : (process_arg c t).next = c.next :=
  (process_arg_keeps c t).2.2.2

/-- The token loop leaves `next` alone when no token is the pipe. -/
theorem token_loop_next_no_pipe (sub : List Char → command_t × List Char) :
    ∀ (fuel : Nat) (s rest : List Char) (cmd : command_t),
      (∀ c ∈ s, c ≠ NUL) → (∀ t ∈ tokens s, t ≠ ['|']) →
      (token_loop sub fuel (s ++ NUL :: rest) cmd).1.next = cmd.next := by
  intro fuel
  induction fuel with
  | zero => intro s rest cmd _ _; rfl
  | succ n ih =>
    intro s rest cmd hs hnp
    rw [token_loop, strtok_mem s rest hs]
    rcases hd : s.dropWhile is_splitter with _ | ⟨x, xs⟩
    · rfl
    · have hx : is_splitter x = false := by
        have := List.head_dropWhile_not is_splitter s (by simp [hd])
        simpa [hd] using this
      have htok := tokens_dropWhile_cons s x xs hd
      have hw := word_tail_cases xs
      simp only
      rw [trim_word _ (word_no_splitter x xs hx), if_neg (List.cons_ne_nil _ _),
        if_neg (hnp _ (by rw [htok]; exact List.mem_cons_self _ _)),
        strtok_save_word_tail _ _ hw]
      have hmem : ∀ c ∈ (xs.dropWhile (fun c => !is_splitter c)).tail, c ≠ NUL := by
        intro c hc
        apply hs c
        apply mem_of_mem_dropWhile is_splitter
        rw [hd]
        exact List.mem_cons_of_mem _ (mem_of_mem_dropWhile _ _ _ (List.mem_of_mem_tail hc))
      rw [ih _ rest _ hmem (by
        intro t ht
        rw [tokens_word_tail _ hw] at ht
        exact hnp t (by rw [htok]; exact List.mem_cons_of_mem _ ht))]
      exact process_arg_next _ _

/-- A line with no pipe token after the command name leaves `next` as the caller passed it. -/
theorem parse_fuel_next_no_pipe (alloc : Nat → command_t) (fuel depth : Nat)
    (buf : List Char) (command : command_t)
    (hnp : ∀ t ∈ (tokens (c_str buf)).tail, t ≠ ['|']) :
    (parse_fuel alloc (fuel + 1) depth buf command).1.next = command.next := by
  rw [parse_fuel]
  have hs := trim_no_NUL _ (c_str_no_NUL buf)
  have htk := tokens_trim (c_str buf)
  rw [trimmed_mem_eq]
  generalize (List.replicate ((trim_left (c_str buf)).length
        - (trim_right (trim_left (c_str buf))).length) NUL ++ past_str buf) = rest
  generalize trim_right (trim_left (c_str buf)) = s2 at hs htk
  show (token_loop _ _ _ _).1.next = command.next
  unfold first_save
  rw [strtok_mem s2 rest hs]
  rcases hd : s2.dropWhile is_splitter with _ | ⟨x, xs⟩
  · have he : strtok_end splitters (s2 ++ NUL :: rest) = [] ++ NUL :: rest := by
      show (s2 ++ NUL :: rest).dropWhile is_splitter = _
      rw [List.dropWhile_append_of_pos (List.dropWhile_eq_nil_iff.1 hd)]
      simp [List.dropWhile_cons, is_splitter_NUL]
    simp only [he]
    rw [token_loop_next_no_pipe _ _ [] rest _ (by simp) (by simp [tokens_nil])]
    rfl
  · have htok := tokens_dropWhile_cons s2 x xs hd
    have hw := word_tail_cases xs
    simp only
    rw [strtok_save_word_tail _ _ hw]
    have hmem : ∀ c ∈ (xs.dropWhile (fun c => !is_splitter c)).tail, c ≠ NUL := by
      intro c hc
      apply hs c
      apply mem_of_mem_dropWhile is_splitter
      rw [hd]
      exact List.mem_cons_of_mem _ (mem_of_mem_dropWhile _ _ _ (List.mem_of_mem_tail hc))
    rw [token_loop_next_no_pipe _ _ _ rest _ hmem (by
      intro t ht
      rw [tokens_word_tail _ hw] at ht
      apply hnp t
      rw [← htk, htok]
      exact ht)]
    rfl

/-- The head of a line with no pipe token has no next stage: `main` passes a cleared struct. -/
theorem parse_command_next_no_pipe (alloc : Nat → command_t) (buf : List Char)
    (hnp : ∀ t ∈ (tokens (c_str buf)).tail, t ≠ ['|']) :
    (parse_command alloc buf zeroed).next = none :=
  parse_fuel_next_no_pipe alloc buf.length 0 buf zeroed hnp

theorem is_blank_eq_is_splitter (c : Char) : is_blank c = is_splitter c := by
  by_cases h1 : c = ' '
  · subst h1; decide
  · by_cases h2 : c = '\t'
    · subst h2; decide
    · simp [is_blank, is_splitter, splitters, h1, h2]

theorem c_str_append_past (line past : List Char) (hl : ∀ c ∈ line, c ≠ NUL)
    (hp : past = [] ∨ past.head? = some NUL) :
    c_str (line ++ past) = line ∧ past_str (line ++ past) = past.tail := by
  have hall : ∀ c ∈ line, (c != NUL) = true := fun c hc => by simpa using hl c hc
  unfold c_str past_str
  rw [List.takeWhile_append_of_pos hall, List.dropWhile_append_of_pos hall]
  rcases hp with rfl | hp
  · simp
  · rcases past with _ | ⟨p, ps⟩
    · simp at hp
    · simp only [List.head?_cons, Option.some.injEq] at hp
      subst hp
      simp [List.takeWhile_cons, List.dropWhile_cons]

theorem trimmed_text_trim (l : List Char) (h : trimmed_text l) :
    trim_right (trim_left l) = l := by
  obtain ⟨_, ⟨x, hx, hxs⟩, ⟨y, hy, hys⟩⟩ := h
  have h1 : trim_left l = l := by
    unfold trim_left
    rcases l with _ | ⟨a, l⟩
    · rfl
    · simp only [List.head?_cons, Option.some.injEq] at hx
      subst hx
      rw [List.dropWhile_cons_of_neg (by simp [hxs])]
  rw [h1]
  unfold trim_right
  rw [List.rdropWhile_eq_self_iff]
  intro hne
  have : l.getLast hne = y := by
    rw [List.getLast?_eq_getLast l hne] at hy
    exact Option.some.inj hy
  rw [this]
  simp [hys]

theorem trimmed_mem_of_trimmed_text (line past : List Char) (h : trimmed_text line)
    (hp : past = [] ∨ past.head? = some NUL) :
    trimmed_mem (line ++ past) = line ++ NUL :: past.tail ∧
    trim_right (trim_left (c_str (line ++ past))) = line := by
  obtain ⟨h1, h2⟩ := c_str_append_past line past h.1 hp
  have h3 := trimmed_text_trim line h
  constructor
  · rw [trimmed_mem_eq, h1, h2, h3]
    have : (trim_left line).length - line.length = 0 := by
      have : (trim_left line).length ≤ line.length := dropWhile_length_le _ _
      omega
    rw [this]
    simp
  · rw [h1, h3]

theorem plain_name_trimmed_text (n : List Char) (h : plain_name n) : trimmed_text n := by
  obtain ⟨hne, hc⟩ := h
  refine ⟨fun c hc2 => (hc c hc2).2, ?_, ?_⟩
  · rcases n with _ | ⟨x, xs⟩
    · exact absurd rfl hne
    · exact ⟨x, rfl, (hc x (List.mem_cons_self _ _)).1⟩
  · exact ⟨n.getLast hne, List.getLast?_eq_getLast n hne, (hc _ (List.getLast_mem hne)).1⟩

theorem pipe_line_trimmed_text (n L : List Char) (hn : plain_name n) (hL : trimmed_text L) :
    trimmed_text (n ++ ' ' :: '|' :: ' ' :: L) := by
  obtain ⟨hne, hc⟩ := hn
  obtain ⟨h1, ⟨x, hx, hxs⟩, ⟨y, hy, hys⟩⟩ := hL
  refine ⟨?_, ?_, ?_⟩
  · intro c hc2
    rcases List.mem_append.1 hc2 with h | h
    · exact (hc c h).2
    · rcases List.mem_cons.1 h with rfl | h
      · decide
      · rcases List.mem_cons.1 h with rfl | h
        · decide
        · rcases List.mem_cons.1 h with rfl | h
          · decide
          · exact h1 c h
  · rcases n with _ | ⟨a, n⟩
    · exact absurd rfl hne
    · exact ⟨a, rfl, (hc a (List.mem_cons_self _ _)).1⟩
  · refine ⟨y, ?_, hys⟩
    have hLne : L ≠ [] := by
      intro e
      rw [e] at hy
      simp at hy
    rw [List.getLast?_append_of_ne_nil _ (List.cons_ne_nil _ _)]
    rw [List.getLast?_cons_cons, List.getLast?_cons_cons]
    rcases L with _ | ⟨b, L⟩
    · exact absurd rfl hLne
    · rw [List.getLast?_cons_cons]
      exact hy

/-- A line that consists of one plain name: the struct gets the name and keeps the `next`
the caller passed. -/
theorem parse_fuel_single (alloc : Nat → command_t) (fuel depth : Nat) (n past : List Char)
    (command : command_t) (hn : plain_name n) (hp : past = [] ∨ past.head? = some NUL) :
    (parse_fuel alloc (fuel + 1) depth (n ++ past) command).1.name = n ∧
    (parse_fuel alloc (fuel + 1) depth (n ++ past) command).1.next = command.next := by
  have ht := plain_name_trimmed_text n hn
  obtain ⟨hm, _⟩ := trimmed_mem_of_trimmed_text n past ht hp
  have h1 : c_str (n ++ past) = n := (c_str_append_past n past ht.1 hp).1
  have hst : strtok splitters (n ++ NUL :: past.tail) = some (n, NUL :: past.tail) :=
    strtok_word_at n NUL past.tail hn.1 hn.2 (Or.inr rfl)
  constructor
  · rw [parse_fuel]
    show (token_loop _ _ _ _).1.name = n
    rw [hm, hst]
    unfold first_save
    rw [hst]
    simp only
    have hnone : strtok splitters (strtok_save (NUL :: past.tail)) = none := by
      rw [show strtok_save (NUL :: past.tail) = [] ++ NUL :: past.tail by simp [strtok_save]]
      rw [strtok_mem [] _ (by simp)]
      rfl
    rw [token_loop_exhausted _ _ _ _ hnone]
    rfl
  · apply parse_fuel_next_no_pipe
    rw [h1]
    have : tokens n = [n] := by
      rcases n with _ | ⟨x, xs⟩
      · exact absurd rfl hn.1
      · rw [tokens_cons_word x xs (hn.2 x (List.mem_cons_self _ _)).1]
        have hall : ∀ c ∈ xs, (!is_splitter c) = true := by
          intro c hc
          simp [(hn.2 c (List.mem_cons_of_mem _ hc)).1]
        rw [List.takeWhile_eq_self_iff.2 hall, List.dropWhile_eq_nil_iff.2 hall, tokens_nil]
    rw [this]
    simp

/-- A line `n | L`: the struct gets the name `n`, and its `next` is the struct that the
nested call leaves for the text `L` behind the pipe, on the block `alloc depth`. -/
theorem parse_fuel_pipe (alloc : Nat → command_t) (fuel depth : Nat) (n L past : List Char)
    (command : command_t) (hn : plain_name n) (hL : trimmed_text L)
    (hp : past = [] ∨ past.head? = some NUL) :
    (parse_fuel alloc (fuel + 1) depth (n ++ ' ' :: '|' :: ' ' :: L ++ past) command).1.name
      = n ∧
    (parse_fuel alloc (fuel + 1) depth (n ++ ' ' :: '|' :: ' ' :: L ++ past) command).1.next
      = some (parse_fuel alloc fuel (depth + 1) (L ++ NUL :: past.tail) (alloc depth)).1 := by
  have ht := pipe_line_trimmed_text n L hn hL
  have hm := (trimmed_mem_of_trimmed_text _ past ht hp).1
  have e0 : n ++ ' ' :: '|' :: ' ' :: L ++ past = (n ++ ' ' :: '|' :: ' ' :: L) ++ past := by
    simp
  have e1 : (n ++ ' ' :: '|' :: ' ' :: L) ++ NUL :: past.tail
      = n ++ ' ' :: (['|'] ++ ' ' :: (L ++ NUL :: past.tail)) := by simp
  have hst : strtok splitters (n ++ ' ' :: (['|'] ++ ' ' :: (L ++ NUL :: past.tail)))
      = some (n, ' ' :: (['|'] ++ ' ' :: (L ++ NUL :: past.tail))) :=
    strtok_word_at n ' ' _ hn.1 hn.2 (Or.inl (by decide))
  have hsv : strtok_save (' ' :: (['|'] ++ ' ' :: (L ++ NUL :: past.tail)))
      = ['|'] ++ ' ' :: (L ++ NUL :: past.tail) := by
    have : ' ' ≠ NUL := by decide
    simp [strtok_save, this]
  have hpipe : strtok splitters (['|'] ++ ' ' :: (L ++ NUL :: past.tail))
      = some (['|'], ' ' :: (L ++ NUL :: past.tail)) :=
    strtok_word_at ['|'] ' ' _ (by simp) (by decide) (Or.inl (by decide))
  have hinner : ((['|'] ++ ' ' :: (' ' :: (L ++ NUL :: past.tail)).tail).drop 1).dropWhile
      is_blank = L ++ NUL :: past.tail := by
    obtain ⟨_, ⟨x, hx, hxs⟩, _⟩ := hL
    rcases L with _ | ⟨a, L⟩
    · simp at hx
    · simp only [List.head?_cons, Option.some.injEq] at hx
      subst hx
      have hb : is_blank a = false := by rw [is_blank_eq_is_splitter]; exact hxs
      have hsp : is_blank ' ' = true := by decide
      simp [List.dropWhile_cons, hb, hsp]
  have hsub : ∀ m, strtok splitters
      ((fun m => parse_fuel alloc fuel (depth + 1) m (alloc depth)) m).2 = none :=
    fun m => parse_fuel_save_exhausted _ _ _ _ _
  have key : (parse_fuel alloc (fuel + 1) depth (n ++ ' ' :: '|' :: ' ' :: L ++ past)
      command).1 = finish_args { set_name (some (n, ' ' :: (['|'] ++ ' ' ::
        (L ++ NUL :: past.tail))))
        (mark_flags (trim_right (trim_left (c_str ((n ++ ' ' :: '|' :: ' ' :: L) ++ past))))
          command) with
        next := some (parse_fuel alloc fuel (depth + 1) (L ++ NUL :: past.tail)
          (alloc depth)).1 } := by
    rw [e0, parse_fuel]
    simp only
    rw [hm, e1]
    unfold first_save
    rw [hst]
    simp only
    rw [hsv, token_loop, hpipe]
    simp only
    have htrim : trim_right (trim_left ['|']) = ['|'] := by decide
    rw [htrim, if_neg (by simp), if_pos rfl, hinner]
    rw [token_loop_exhausted _ _ _ _ (hsub _)]
  rw [key]
  exact ⟨rfl, rfl⟩

theorem pipeline_single (n : List Char) : pipeline [n] = n := by
  simp [pipeline, List.intercalate]

theorem pipeline_cons_cons (n m : List Char) (ns : List (List Char)) :
    pipeline (n :: m :: ns) = n ++ ' ' :: '|' :: ' ' :: pipeline (m :: ns) := by
  simp [pipeline, List.intercalate]

theorem pipeline_trimmed_text : ∀ (ns : List (List Char)) (n : List Char),
    plain_name n → (∀ m ∈ ns, plain_name m) → trimmed_text (pipeline (n :: ns)) := by
  intro ns
  induction ns with
  | nil =>
    intro n hn _
    rw [pipeline_single]
    exact plain_name_trimmed_text n hn
  | cons m ns ih =>
    intro n hn hns
    rw [pipeline_cons_cons]
    exact pipe_line_trimmed_text n _ hn
      (ih m (hns m (List.mem_cons_self _ _)) (fun x hx => hns x (List.mem_cons_of_mem _ hx)))

theorem pipeline_length : ∀ (ns : List (List Char)) (n : List Char),
    ns.length ≤ (pipeline (n :: ns)).length := by
  intro ns
  induction ns with
  | nil => intro n; simp
  | cons m ns ih =>
    intro n
    rw [pipeline_cons_cons]
    have := ih m
    simp only [List.length_cons, List.length_append]
    omega

theorem chain_one (c : command_t) : chain 1 c = [c] := by
  unfold chain
  rcases c.next with _ | c2
  · rfl
  · rfl

theorem chain_ne_nil (k : Nat) (c : command_t) : chain (k + 1) c ≠ [] := by
  unfold chain
  rcases c.next with _ | c2 <;> simp

theorem chain_of_next (k : Nat) (c c2 : command_t) (h : c.next = some c2) :
    chain (k + 1) c = c :: chain k c2 := by
  rw [chain, h]

theorem chain_stable : ∀ (k : Nat) (c : command_t) (extra : Nat),
    (chain (k + 1) c).getLast?.bind command_t.next = none →
    chain (k + 1 + extra) c = chain (k + 1) c := by
  intro k
  induction k with
  | zero =>
    intro c extra h
    rw [chain_one] at h
    simp only [List.getLast?_singleton, Option.some_bind] at h
    rw [chain_one, show 0 + 1 + extra = extra + 1 by omega, chain, h]
  | succ k ih =>
    intro c extra h
    rcases hn : c.next with _ | c2
    · rw [show k + 1 + 1 + extra = (k + 1 + extra) + 1 by omega, chain, chain, hn]
    · rw [chain_of_next _ c c2 hn] at h ⊢
      rw [show k + 1 + 1 + extra = (k + 1 + extra) + 1 by omega, chain_of_next _ c c2 hn]
      rcases hc : chain (k + 1) c2 with _ | ⟨y, ys⟩
      · exact absurd hc (chain_ne_nil k c2)
      · rw [hc, List.getLast?_cons_cons, ← hc] at h
        rw [ih c2 extra h, hc]

/-- The pipeline `n | n1 | ... | nk`, parsed with enough fuel: the first k + 1 nodes carry
the names in order, and `next` of the last of them is what its struct held before the
call (the caller's value for a single name, the content of the block from `malloc`
otherwise). -/
theorem parse_fuel_pipeline (alloc : Nat → command_t) :
    ∀ (ns : List (List Char)) (n : List Char) (fuel depth : Nat) (past : List Char)
      (command : command_t),
      plain_name n → (∀ m ∈ ns, plain_name m) → (past = [] ∨ past.head? = some NUL) →
      ns.length ≤ fuel →
      (chain (ns.length + 1)
          (parse_fuel alloc (fuel + 1) depth (pipeline (n :: ns) ++ past) command).1).map
        command_t.name = n :: ns ∧
      (chain (ns.length + 1)
          (parse_fuel alloc (fuel + 1) depth (pipeline (n :: ns) ++ past) command).1).getLast?.bind
        command_t.next = if ns = [] then command.next
                         else (alloc (depth + ns.length - 1)).next := by
  intro ns
  induction ns with
  | nil =>
    intro n fuel depth past command hn _ hp _
    obtain ⟨h1, h2⟩ := parse_fuel_single alloc fuel depth n past command hn hp
    rw [pipeline_single]
    simp only [List.length_nil, Nat.zero_add, chain_one, List.map_cons, List.map_nil,
      List.getLast?_singleton, Option.some_bind, ↓reduceIte]
    exact ⟨by rw [h1], h2⟩
  | cons m ns ih =>
    intro n fuel depth past command hn hns hp hf
    cases fuel with
    | zero => simp at hf
    | succ f =>
      have hm := hns m (List.mem_cons_self _ _)
      have hns2 : ∀ x ∈ ns, plain_name x := fun x hx => hns x (List.mem_cons_of_mem _ hx)
      have hL := pipeline_trimmed_text ns m hm hns2
      obtain ⟨h1, h2⟩ := parse_fuel_pipe alloc (f + 1) depth n (pipeline (m :: ns)) past
        command hn hL hp
      have e : pipeline (n :: m :: ns) ++ past
          = n ++ ' ' :: '|' :: ' ' :: pipeline (m :: ns) ++ past := by
        rw [pipeline_cons_cons]
      rw [e]
      obtain ⟨i1, i2⟩ := ih m f (depth + 1) (NUL :: past.tail) (alloc depth) hm hns2
        (Or.inr rfl) (by simpa using hf)
      rw [List.length_cons, chain_of_next _ _ _ h2]
      constructor
      · rw [List.map_cons, h1, i1]
      · rcases hc : chain (ns.length + 1) (parse_fuel alloc (f + 1) (depth + 1)
            (pipeline (m :: ns) ++ NUL :: past.tail) (alloc depth)).1 with _ | ⟨y, ys⟩
        · exact absurd hc (chain_ne_nil _ _)
        · rw [List.getLast?_cons_cons, ← hc, i2]
          simp only [List.cons_ne_nil, ↓reduceIte]
          by_cases hnil : ns = []
          · subst hnil; simp
          · rw [if_neg hnil]
            have : 0 < ns.length := List.length_pos.2 hnil
            congr 2
            omega

/-! ## The fuel of `parse_command` is enough -/

theorem strtok_some_facts (save pch tail : List Char)
    (h : strtok splitters save = some (pch, tail)) :
    pch ≠ [] ∧ (∀ c ∈ pch, is_splitter c = false) ∧ pch.length + tail.length ≤ save.length := by
  rw [strtok_splitters] at h
  rcases hd : save.dropWhile is_splitter with _ | ⟨c, cs⟩
  · rw [hd] at h; exact Option.noConfusion h
  · rw [hd] at h
    simp only at h
    have hc : is_splitter c = false := by
      have := List.head_dropWhile_not is_splitter save (by simp [hd])
      simpa [hd] using this
    by_cases hn : c = NUL
    · rw [if_pos hn] at h; exact Option.noConfusion h
    · rw [if_neg hn] at h
      simp only [Option.some.injEq, Prod.mk.injEq] at h
      obtain ⟨h1, h2⟩ := h
      have hq : (!is_splitter c && c != NUL) = true := by simp [hc, hn]
      refine ⟨?_, ?_, ?_⟩
      · rw [← h1, List.takeWhile_cons]
        simp only [hq, ↓reduceIte]
        exact List.cons_ne_nil _ _
      · intro x hx
        rw [← h1] at hx
        have := List.mem_takeWhile_imp hx
        simp only [Bool.and_eq_true, Bool.not_eq_true', bne_iff_ne, ne_eq] at this
        exact this.1
      · have hsum : pch.length + tail.length = (c :: cs).length := by
          rw [← h1, ← h2, ← List.length_append, List.takeWhile_append_dropWhile]
        have hle := dropWhile_length_le is_splitter save
        rw [hd] at hle
        omega

theorem strtok_save_length_le (tail : List Char) : (strtok_save tail).length ≤ tail.length := by
  rcases tail with _ | ⟨d, rest⟩
  · simp [strtok_save]
  · by_cases h : d = NUL <;> simp [strtok_save, h]

/-- The token loop on a position from which `strtok` finds no token does not call the
nested parser. -/
theorem token_loop_of_exhausted (sub1 sub2 : List Char → command_t × List Char) (fuel : Nat)
    (save : List Char) (c : command_t) (h : strtok splitters save = none) :
    token_loop sub1 fuel save c = token_loop sub2 fuel save c := by
  cases fuel with
  | zero => rfl
  | succ n => simp [token_loop, h]

/-- The token loop only calls the nested parser on memory shorter than its own position. -/
theorem token_loop_congr (sub1 sub2 : List Char → command_t × List Char)
    (hex : ∀ m, strtok splitters (sub1 m).2 = none) :
    ∀ (fuel : Nat) (save : List Char) (c : command_t),
      (∀ m : List Char, m.length < save.length → sub1 m = sub2 m) →
      token_loop sub1 fuel save c = token_loop sub2 fuel save c := by
  intro fuel
  induction fuel with
  | zero => intro save c _; rfl
  | succ n ih =>
    intro save c hsub
    rw [token_loop, token_loop]
    rcases hst : strtok splitters save with _ | ⟨pch, tail⟩
    · rfl
    · obtain ⟨hne, hchars, hlen⟩ := strtok_some_facts save pch tail hst
      have hpos : 0 < pch.length := List.length_pos.2 hne
      have hnext : ∀ m : List Char, m.length < (strtok_save tail).length → sub1 m = sub2 m := by
        intro m hm
        apply hsub
        have := strtok_save_length_le tail
        omega
      simp only
      rw [trim_word pch hchars, if_neg hne, if_neg hne]
      by_cases hp : pch = ['|']
      · rw [if_pos hp, if_pos hp]
        have hm : (((pch ++ ' ' :: tail.tail).drop 1).dropWhile is_blank).length
            < save.length := by
          subst hp
          have h1 := dropWhile_length_le is_blank (' ' :: tail.tail)
          have h2 : tail.tail.length ≤ tail.length := by simp
          have hb : is_blank ' ' = true := by decide
          have h3 : ((' ' :: tail.tail).dropWhile is_blank).length ≤ tail.tail.length := by
            rw [List.dropWhile_cons_of_pos hb]
            exact dropWhile_length_le _ _
          simp only [List.singleton_append, List.drop_succ_cons, List.drop_zero,
            List.length_singleton] at hlen ⊢
          omega
        rw [← hsub _ hm]
        exact token_loop_of_exhausted _ _ _ _ _ (hex _)
      · rw [if_neg hp, if_neg hp]
        exact ih _ _ hnext

theorem trimmed_mem_length (buf : List Char) : (trimmed_mem buf).length ≤ buf.length + 1 := by
  rw [trimmed_mem_eq]
  have h1 : (trim_right (trim_left (c_str buf))).length ≤ (trim_left (c_str buf)).length :=
    (List.rdropWhile_prefix is_splitter _).length_le
  have h2 : (trim_left (c_str buf)).length ≤ (c_str buf).length := dropWhile_length_le _ _
  have h3 : (c_str buf).length + (past_str buf).length ≤ buf.length := by
    unfold c_str past_str
    have := List.takeWhile_append_dropWhile (fun c => c != NUL) buf
    have hl : (buf.takeWhile (fun c => c != NUL)).length
        + (buf.dropWhile (fun c => c != NUL)).length = buf.length := by
      rw [← List.length_append, this]
    simp only [List.length_drop]
    omega
  simp only [List.length_append, List.length_cons, List.length_replicate]
  omega

/-- Any fuel above the length of the buffer gives the same result: the recursion of
`parse_command` never runs out of it. -/
theorem parse_fuel_enough (alloc : Nat → command_t) :
    ∀ (n : Nat) (buf : List Char), buf.length ≤ n →
      ∀ (f1 f2 depth : Nat) (command : command_t), n < f1 → n < f2 →
        parse_fuel alloc f1 depth buf command = parse_fuel alloc f2 depth buf command := by
  intro n
  induction n using Nat.strong_induction_on with
  | _ n ih =>
    intro buf hbuf f1 f2 depth command h1 h2
    obtain ⟨g1, rfl⟩ : ∃ g, f1 = g + 1 := ⟨f1 - 1, by omega⟩
    obtain ⟨g2, rfl⟩ : ∃ g, f2 = g + 1 := ⟨f2 - 1, by omega⟩
    rw [parse_fuel, parse_fuel]
    have hloop : token_loop (fun m => parse_fuel alloc g1 (depth + 1) m (alloc depth))
          ((trimmed_mem buf).length + 1) (first_save (trimmed_mem buf))
          (set_name (strtok splitters (trimmed_mem buf))
            (mark_flags (trim_right (trim_left (c_str buf))) command))
        = token_loop (fun m => parse_fuel alloc g2 (depth + 1) m (alloc depth))
          ((trimmed_mem buf).length + 1) (first_save (trimmed_mem buf))
          (set_name (strtok splitters (trimmed_mem buf))
            (mark_flags (trim_right (trim_left (c_str buf))) command)) := by
      rcases hst : strtok splitters (trimmed_mem buf) with _ | ⟨pch, tail⟩
      · apply token_loop_of_exhausted
        unfold first_save
        rw [hst]
        simp only
        rw [strtok_end_none]
        exact hst
      · apply token_loop_congr _ _ (fun m => parse_fuel_save_exhausted _ _ _ _ _)
        intro m hm
        obtain ⟨hne, _, hlen⟩ := strtok_some_facts _ pch tail hst
        have hpos : 0 < pch.length := List.length_pos.2 hne
        have hfs : (first_save (trimmed_mem buf)).length ≤ tail.length := by
          unfold first_save
          rw [hst]
          exact strtok_save_length_le tail
        have hmem := trimmed_mem_length buf
        have hmlt : m.length < n := by omega
        exact ih m.length hmlt m (Nat.le_refl _) g1 g2 (depth + 1) (alloc depth)
          (by omega) (by omega)
    rw [hloop]

/-- `parse_command` is `parse_fuel` with any fuel above the length of the buffer. -/
theorem parse_command_fuel (alloc : Nat → command_t) (buf : List Char) (command : command_t)
    (extra : Nat) :
    parse_command alloc buf command
      = (parse_fuel alloc (buf.length + 1 + extra) 0 buf command).1 := by
  unfold parse_command
  rw [parse_fuel_enough alloc buf.length buf (Nat.le_refl _) (buf.length + 1)
    (buf.length + 1 + extra) 0 command (by omega) (by omega)]

/-! ## Redirection slots, stage by stage -/

theorem c_str_terminated (w rest : List Char) (hw : ∀ c ∈ w, c ≠ NUL) :
    c_str (w ++ NUL :: rest) = w :=
  (c_str_append_past w (NUL :: rest) hw (Or.inr rfl)).1

theorem c_str_of_no_NUL (s : List Char) (hs : ∀ c ∈ s, c ≠ NUL) : c_str s = s := by
  unfold c_str
  rw [List.takeWhile_eq_self_iff]
  intro c hc
  simpa using hs c hc

theorem names_slot_amp : ∀ i : Fin 3, names_slot i ['&'] = false := by decide

theorem names_slot_is_redirection (i : Fin 3) (t : List Char) (h : names_slot i t = true) :
    is_redirection t = true := by
  unfold names_slot at h
  unfold is_redirection
  simp only [Bool.or_eq_true, Bool.and_eq_true] at h ⊢
  rcases h with (h | h) | h
  · exact Or.inl h.2
  · exact Or.inr h.1.2
  · exact Or.inr h.1.2

theorem names_slot_unique (i j : Fin 3) (t : List Char) (hi : names_slot i t = true)
    (hj : names_slot j t = true) : i = j := by
  unfold names_slot at hi hj
  rcases t with _ | ⟨a, t⟩
  · simp at hi
  · simp only [List.head?_cons, List.drop_succ_cons, List.drop_zero, Bool.or_eq_true,
      Bool.and_eq_true, beq_iff_eq, Option.some.injEq, bne_iff_ne, ne_eq] at hi hj
    rcases hi with (⟨h1, h2⟩ | ⟨⟨h1, h2⟩, h3⟩) | ⟨⟨h1, h2⟩, h3⟩ <;>
      rcases hj with (⟨k1, k2⟩ | ⟨⟨k1, k2⟩, k3⟩) | ⟨⟨k1, k2⟩, k3⟩ <;>
      first
      | (exfalso; rw [h2] at k2; revert k2; decide)
      | (exfalso; exact h3 k3)
      | (exfalso; exact k3 h3)
      | (rw [h1, k1])

theorem process_arg_slot_isSome (c : command_t) (t : List Char) (i : Fin 3) :
    ((process_arg c t).redirects i).isSome = ((c.redirects i).isSome || names_slot i t) := by
  rcases hn : names_slot i t with _ | _
  · rw [process_arg_slot_kept c t i hn, Bool.or_false]
  · rw [Bool.or_true]
    have h2 : t ≠ ['&'] := by
      intro h
      rw [h, names_slot_amp] at hn
      exact Bool.noConfusion hn
    unfold process_arg
    rw [if_neg h2]
    rcases hr : redirect_of t with _ | ⟨j, T⟩
    · have h3 := (redirect_of_none_iff t).1 hr
      rw [names_slot_is_redirection i t hn] at h3
      exact Bool.noConfusion h3
    · have hij := names_slot_unique i j t hn (redirect_of_names_slot t j T hr)
      simp [set_redirect, hij]

theorem foldl_process_arg_slot_isSome (l : List (List Char)) (i : Fin 3) :
    ∀ (c : command_t), ((l.foldl process_arg c).redirects i).isSome =
      ((c.redirects i).isSome || l.any (names_slot i)) := by
  induction l with
  | nil => intro c; simp
  | cons t l ih =>
    intro c
    rw [List.foldl_cons, ih, process_arg_slot_isSome, List.any_cons, Bool.or_assoc]

theorem dropWhile_blank_mem (w rest : List Char) :
    (w ++ NUL :: rest).dropWhile is_blank = w.dropWhile is_splitter ++ NUL :: rest := by
  induction w with
  | nil =>
    have : is_blank NUL = false := by decide
    simp [List.dropWhile_cons, this]
  | cons a w ih =>
    by_cases h : is_splitter a = true
    · have hb : is_blank a = true := by rw [is_blank_eq_is_splitter]; exact h
      rw [List.cons_append, List.dropWhile_cons_of_pos hb, List.dropWhile_cons_of_pos h, ih]
    · have hb : ¬ is_blank a = true := by rw [is_blank_eq_is_splitter]; exact h
      rw [List.cons_append, List.dropWhile_cons_of_neg hb, List.dropWhile_cons_of_neg h]
      rfl

/-- The token loop on a line whose first pipe token is followed by more tokens: `next`
becomes the struct that the nested call fills from the text behind that pipe. -/
theorem token_loop_next_pipe (sub : List Char → command_t × List Char)
    (hsub : ∀ m, strtok splitters (sub m).2 = none) :
    ∀ (fuel : Nat) (s rest : List Char) (cmd : command_t) (pre post : List (List Char)),
      (∀ c ∈ s, c ≠ NUL) → s.length < fuel → tokens s = pre ++ ['|'] :: post →
      (∀ t ∈ pre, t ≠ ['|']) → post ≠ [] →
      ∃ s2, (token_loop sub fuel (s ++ NUL :: rest) cmd).1.next
          = some (sub (s2 ++ NUL :: rest)).1 ∧
        (∀ c ∈ s2, c ≠ NUL) ∧ tokens s2 = post ∧ s2.length < s.length := by
  intro fuel
  induction fuel with
  | zero => intro s rest cmd pre post _ h; exact absurd h (Nat.not_lt_zero _)
  | succ n ih =>
    intro s rest cmd pre post hs hlen htok hpre hpost
    rw [token_loop, strtok_mem s rest hs]
    rcases hd : s.dropWhile is_splitter with _ | ⟨x, xs⟩
    · rw [tokens_dropWhile_nil s hd] at htok
      exact absurd htok (by simp)
    · have hx : is_splitter x = false := by
        have := List.head_dropWhile_not is_splitter s (by simp [hd])
        simpa [hd] using this
      have htk := tokens_dropWhile_cons s x xs hd
      have hw := word_tail_cases xs
      have h1 := dropWhile_length_le is_splitter s
      have h2 := dropWhile_length_le (fun c => !is_splitter c) xs
      rw [hd] at h1
      simp only [List.length_cons] at h1
      have hxs : ∀ c ∈ xs.dropWhile (fun c => !is_splitter c), c ≠ NUL := by
        intro c hc
        apply hs c
        apply mem_of_mem_dropWhile is_splitter
        rw [hd]
        exact List.mem_cons_of_mem _ (mem_of_mem_dropWhile _ _ _ hc)
      simp only
      rw [trim_word _ (word_no_splitter x xs hx), if_neg (List.cons_ne_nil _ _)]
      rw [htk] at htok
      rcases pre with _ | ⟨p, pre2⟩
      · rw [List.nil_append] at htok
        obtain ⟨hp, hrest⟩ := List.cons.inj htok
        rw [if_pos hp, token_loop_exhausted _ _ _ _ (hsub _)]
        rcases hw with hnil | ⟨d, w, hdw, hdsp⟩
        · rw [hnil, tokens_nil] at hrest
          exact absurd hrest.symm hpost
        · rw [hdw] at hrest hxs h2
          rw [hp, hdw]
          refine ⟨w.dropWhile is_splitter, ?_, ?_, ?_, ?_⟩
          · have hb : is_blank ' ' = true := by decide
            simp only [List.cons_append, List.nil_append, List.tail_cons, List.drop_succ_cons,
              List.drop_zero, List.dropWhile_cons_of_pos hb, dropWhile_blank_mem]
          · intro c hc
            exact hxs c (List.mem_cons_of_mem _ (mem_of_mem_dropWhile _ _ _ hc))
          · rw [tokens_dropWhile, ← hrest, tokens_cons_splitter d w hdsp]
          · have h3 := dropWhile_length_le is_splitter w
            simp only [List.length_cons] at h2
            omega
      · rw [List.cons_append] at htok
        obtain ⟨hp, hrest⟩ := List.cons.inj htok
        have hne : x :: xs.takeWhile (fun c => !is_splitter c) ≠ ['|'] := by
          rw [hp]; exact hpre p (List.mem_cons_self _ _)
        rw [if_neg hne, strtok_save_word_tail _ _ hw]
        have hmem : ∀ c ∈ (xs.dropWhile (fun c => !is_splitter c)).tail, c ≠ NUL :=
          fun c hc => hxs c (List.mem_of_mem_tail hc)
        have hl : ((xs.dropWhile (fun c => !is_splitter c)).tail).length < n := by
          have h3 : ((xs.dropWhile (fun c => !is_splitter c)).tail).length
              ≤ (xs.dropWhile (fun c => !is_splitter c)).length := by simp
          omega
        obtain ⟨s2, e1, e2, e3, e4⟩ := ih _ rest (process_arg cmd
          (x :: xs.takeWhile (fun c => !is_splitter c))) pre2 post hmem hl
          (by rw [tokens_word_tail _ hw]; exact hrest)
          (fun t ht => hpre t (List.mem_cons_of_mem _ ht)) hpost
        refine ⟨s2, e1, e2, e3, ?_⟩
        have h3 : ((xs.dropWhile (fun c => !is_splitter c)).tail).length
            ≤ (xs.dropWhile (fun c => !is_splitter c)).length := by simp
        omega

/-- A line with a pipe token behind the command name, and more tokens behind that pipe: `next`
is the struct that the nested call fills, from memory whose string holds exactly the
tokens behind the pipe. -/
theorem parse_fuel_next_pipe (alloc : Nat → command_t) (fuel depth : Nat)
    (buf : List Char) (command : command_t) (pre post : List (List Char))
    (htok : (tokens (c_str buf)).tail = pre ++ ['|'] :: post)
    (hpre : ∀ t ∈ pre, t ≠ ['|']) (hpost : post ≠ []) :
    ∃ m, (parse_fuel alloc (fuel + 1) depth buf command).1.next
        = some (parse_fuel alloc fuel (depth + 1) m (alloc depth)).1 ∧
      tokens (c_str m) = post ∧ m.length < buf.length := by
  rw [parse_fuel]
  have hs := trim_no_NUL _ (c_str_no_NUL buf)
  have htk := tokens_trim (c_str buf)
  have hlenm := trimmed_mem_length buf
  rw [trimmed_mem_eq] at hlenm ⊢
  generalize (List.replicate ((trim_left (c_str buf)).length
        - (trim_right (trim_left (c_str buf))).length) NUL ++ past_str buf) = rest at hlenm ⊢
  generalize trim_right (trim_left (c_str buf)) = s2 at hs htk hlenm ⊢
  show ∃ m, (token_loop _ _ _ _).1.next = _ ∧ _
  unfold first_save
  rw [strtok_mem s2 rest hs]
  rcases hd : s2.dropWhile is_splitter with _ | ⟨x, xs⟩
  · rw [← htk, tokens_dropWhile_nil s2 hd] at htok
    exact absurd htok (by simp)
  · have htok2 := tokens_dropWhile_cons s2 x xs hd
    have hw := word_tail_cases xs
    have h1 := dropWhile_length_le is_splitter s2
    have h2 := dropWhile_length_le (fun c => !is_splitter c) xs
    rw [hd] at h1
    simp only [List.length_cons, List.length_append] at h1 hlenm
    have h3 : ((xs.dropWhile (fun c => !is_splitter c)).tail).length
        ≤ (xs.dropWhile (fun c => !is_splitter c)).length := by simp
    simp only
    rw [strtok_save_word_tail _ _ hw]
    have hmem : ∀ c ∈ (xs.dropWhile (fun c => !is_splitter c)).tail, c ≠ NUL := by
      intro c hc
      apply hs c
      apply mem_of_mem_dropWhile is_splitter
      rw [hd]
      exact List.mem_cons_of_mem _ (mem_of_mem_dropWhile _ _ _ (List.mem_of_mem_tail hc))
    have hsub : ∀ m, strtok splitters
        ((fun m => parse_fuel alloc fuel (depth + 1) m (alloc depth)) m).2 = none :=
      fun m => parse_fuel_save_exhausted _ _ _ _ _
    obtain ⟨s3, e1, e2, e3, e4⟩ := token_loop_next_pipe
      (fun m => parse_fuel alloc fuel (depth + 1) m (alloc depth)) hsub
      ((s2 ++ NUL :: rest).length + 1) ((xs.dropWhile (fun c => !is_splitter c)).tail) rest
      (set_name (some (x :: xs.takeWhile (fun c => !is_splitter c),
          xs.dropWhile (fun c => !is_splitter c) ++ NUL :: rest))
        (mark_flags s2 command)) pre post hmem
      (by simp only [List.length_append, List.length_cons]; omega)
      (by rw [tokens_word_tail _ hw, ← htok, ← htk, htok2]; rfl) hpre hpost
    refine ⟨s3 ++ NUL :: rest, e1, ?_, ?_⟩
    · rw [c_str_terminated _ _ e2, e3]
    · simp only [List.length_append, List.length_cons]
      omega

/-- Slot `i` of the struct a `parse_command` call leaves is set exactly when the caller passed
it set or a token of the stage names it. -/
theorem parse_fuel_slot_isSome (alloc : Nat → command_t) (fuel depth : Nat) (buf : List Char)
    (command : command_t) (i : Fin 3) :
    ((parse_fuel alloc (fuel + 1) depth buf command).1.redirects i).isSome =
      ((command.redirects i).isSome || (args_of (tokens (c_str buf))).any (names_slot i)) := by
  have h := congrArg (fun c => c.redirects) (parse_fuel_head alloc fuel depth buf command)
  simp only [head_of, finish_args] at h
  rw [h, foldl_process_arg_slot_isSome]
  rfl

theorem stage_line_succ (j : Nat) (toks ts : List (List Char))
    (h : stage_line (j + 1) toks = some ts) :
    ∃ pre p post, toks.tail = pre ++ ['|'] :: p :: post ∧ (∀ t ∈ pre, t ≠ ['|']) ∧
      stage_line j (p :: post) = some ts := by
  unfold stage_line at h
  have hsplit := List.takeWhile_append_dropWhile (fun t => t != ['|']) toks.tail
  have hpre : ∀ t ∈ toks.tail.takeWhile (fun t => t != ['|']), t ≠ ['|'] := by
    intro t ht
    simpa using List.mem_takeWhile_imp ht
  rcases hd : toks.tail.dropWhile (fun t => t != ['|']) with _ | ⟨q, _ | ⟨p, post⟩⟩
  · rw [hd] at h; exact Option.noConfusion h
  · rw [hd] at h; exact Option.noConfusion h
  · rw [hd] at h hsplit
    have hq : q = ['|'] := by
      have := List.head_dropWhile_not (fun t => t != ['|']) toks.tail (by simp [hd])
      simpa [hd] using this
    rw [hq] at hsplit
    exact ⟨_, p, post, hsplit.symm, hpre, h⟩

/-- Slot `i` of every node of the chain that parses a stage of the line: it is set exactly
when the struct the node is built on came with it set or a token of the node's own stage
names it. -/
theorem chain_slot_isSome (alloc : Nat → command_t) (i : Fin 3) :
    ∀ (n : Nat) (buf : List Char), buf.length ≤ n →
      ∀ (fuel depth : Nat) (command : command_t) (k j : Nat) (c : command_t)
        (ts : List (List Char)), n < fuel →
        (chain k (parse_fuel alloc fuel depth buf command).1)[j]? = some c →
        stage_line j (tokens (c_str buf)) = some ts →
        (c.redirects i).isSome =
          (((node_block (fun d => alloc (depth + d)) command j).redirects i).isSome ||
            (args_of ts).any (names_slot i)) := by
  intro n
  induction n using Nat.strong_induction_on with
  | _ n ih =>
    intro buf hbuf fuel depth command k j c ts hfuel hc hst
    obtain ⟨g, rfl⟩ : ∃ g, fuel = g + 1 := ⟨fuel - 1, by omega⟩
    rcases k with _ | k
    · simp [chain] at hc
    · rcases j with _ | j
      · have hc0 : c = (parse_fuel alloc (g + 1) depth buf command).1 := by
          unfold chain at hc
          split at hc <;> simpa using hc.symm
        have hts : ts = tokens (c_str buf) := by
          simpa [stage_line] using hst.symm
        rw [hc0, hts, parse_fuel_slot_isSome]
        rfl
      · obtain ⟨pre, p, post, htail, hpre, hst2⟩ := stage_line_succ j _ ts hst
        obtain ⟨m, hnext, hmt, hml⟩ := parse_fuel_next_pipe alloc g depth buf command pre
          (p :: post) htail hpre (List.cons_ne_nil _ _)
        rw [chain_of_next k _ _ hnext, List.getElem?_cons_succ] at hc
        rw [← hmt] at hst2
        rw [ih m.length (by omega) m (Nat.le_refl _) g (depth + 1) (alloc depth) k j c ts
          (by omega) hc hst2]
        congr 3
        rcases j with _ | j
        · rfl
        · show alloc (depth + 1 + j) = alloc (depth + (j + 1))
          congr 1
          omega

/-- Every stage of the line has its node in the chain. -/
theorem chain_has_stage_node (alloc : Nat → command_t) :
    ∀ (n : Nat) (buf : List Char), buf.length ≤ n →
      ∀ (fuel depth : Nat) (command : command_t) (j : Nat) (ts : List (List Char)),
        n < fuel → stage_line j (tokens (c_str buf)) = some ts →
        ∃ c, (chain (j + 1) (parse_fuel alloc fuel depth buf command).1)[j]? = some c := by
  intro n
  induction n using Nat.strong_induction_on with
  | _ n ih =>
    intro buf hbuf fuel depth command j ts hfuel hst
    obtain ⟨g, rfl⟩ : ∃ g, fuel = g + 1 := ⟨fuel - 1, by omega⟩
    rcases j with _ | j
    · exact ⟨_, by rw [chain_one]; rfl⟩
    · obtain ⟨pre, p, post, htail, hpre, hst2⟩ := stage_line_succ j _ ts hst
      obtain ⟨m, hnext, hmt, hml⟩ := parse_fuel_next_pipe alloc g depth buf command pre
        (p :: post) htail hpre (List.cons_ne_nil _ _)
      rw [chain_of_next (j + 1) _ _ hnext]
      rw [← hmt] at hst2
      obtain ⟨c, hc⟩ := ih m.length (by omega) m (Nat.le_refl _) g (depth + 1) (alloc depth)
        j ts (by omega) hst2
      exact ⟨c, by rw [List.getElem?_cons_succ]; exact hc⟩

/-! ## `parse_command` within the bound of `temp_buf` -/

theorem token_loop_checked_eq (sub2 : List Char → Option (command_t × List Char))
    (sub : List Char → command_t × List Char)
    (hsub : ∀ m r, sub2 m = some r → r = sub m) :
    ∀ (fuel : Nat) (save : List Char) (cmd : command_t) (r : command_t × List Char),
      token_loop_checked sub2 fuel save cmd = some r → r = token_loop sub fuel save cmd := by
  intro fuel
  induction fuel with
  | zero =>
    intro save cmd r h
    exact (Option.some.inj h).symm
  | succ n ih =>
    intro save cmd r h
    rw [token_loop_checked] at h
    rw [token_loop]
    rcases hst : strtok splitters save with _ | ⟨pch, tail⟩
    · rw [hst] at h
      exact (Option.some.inj h).symm
    · rw [hst] at h
      simp only at h ⊢
      by_cases hfit : fits_temp_buf pch = true
      · rw [if_pos hfit] at h
        by_cases he : trim_right (trim_left pch) = []
        · rw [if_pos he] at h
          rw [if_pos he]
          exact ih _ _ _ h
        · rw [if_neg he] at h
          rw [if_neg he]
          by_cases hp : trim_right (trim_left pch) = ['|']
          · rw [if_pos hp] at h
            rw [if_pos hp]
            rcases hs : sub2 (((pch ++ ' ' :: tail.tail).drop 1).dropWhile is_blank) with _ | r2
            · rw [hs] at h
              exact Option.noConfusion h
            · rw [hs] at h
              simp only at h
              have := hsub _ _ hs
              rw [← this]
              exact ih _ _ _ h
          · rw [if_neg hp] at h
            rw [if_neg hp]
            exact ih _ _ _ h
      · rw [if_neg hfit] at h
        exact Option.noConfusion h

/-- A run of `parse_command` that stays within `temp_buf` leaves what `parse_fuel` gives. -/
theorem parse_fuel_checked_eq (alloc : Nat → command_t) :
    ∀ (fuel depth : Nat) (buf : List Char) (cmd : command_t) (r : command_t × List Char),
      parse_fuel_checked alloc fuel depth buf cmd = some r →
      r = parse_fuel alloc fuel depth buf cmd := by
  intro fuel
  induction fuel with
  | zero =>
    intro depth buf cmd r h
    exact (Option.some.inj h).symm
  | succ n ih =>
    intro depth buf cmd r h
    rw [parse_fuel_checked] at h
    rw [parse_fuel]
    split at h
    · exact Option.noConfusion h
    · rename_i r2 hr2
      have e := token_loop_checked_eq _
        (fun m => parse_fuel alloc n (depth + 1) m (alloc depth))
        (fun m r3 h3 => ih (depth + 1) m (alloc depth) r3 h3) _ _ _ _ hr2
      rw [← Option.some.inj h, e]

theorem parse_command_checked_eq (alloc : Nat → command_t) (buf : List Char)
    (command c : command_t) (h : parse_command_checked alloc buf command = some c) :
    c = parse_command alloc buf command := by
  unfold parse_command_checked at h
  rcases hr : parse_fuel_checked alloc (buf.length + 1) 0 buf command with _ | r
  · rw [hr] at h
    exact Option.noConfusion h
  · rw [hr] at h
    have e := parse_fuel_checked_eq alloc _ _ _ _ r hr
    unfold parse_command
    rw [← e]
    exact (Option.some.inj h).symm

theorem fits_temp_buf_iff (pch : List Char) : fits_temp_buf pch = true ↔ pch.length < 1024 := by
  unfold fits_temp_buf
  rw [decide_eq_true_iff]
  omega

/-- Tokens shorter than 1024 bytes, none of them a pipe: the loop stays within `temp_buf`. -/
theorem token_loop_checked_no_pipe (sub2 : List Char → Option (command_t × List Char)) :
    ∀ (fuel : Nat) (s rest : List Char) (cmd : command_t),
      (∀ c ∈ s, c ≠ NUL) → (∀ t ∈ tokens s, t ≠ ['|'] ∧ t.length < 1024) →
      (token_loop_checked sub2 fuel (s ++ NUL :: rest) cmd).isSome = true := by
  intro fuel
  induction fuel with
  | zero => intro s rest cmd _ _; rfl
  | succ n ih =>
    intro s rest cmd hs hok
    rw [token_loop_checked, strtok_mem s rest hs]
    rcases hd : s.dropWhile is_splitter with _ | ⟨x, xs⟩
    · rfl
    · have hx : is_splitter x = false := by
        have := List.head_dropWhile_not is_splitter s (by simp [hd])
        simpa [hd] using this
      have htok := tokens_dropWhile_cons s x xs hd
      have hw := word_tail_cases xs
      have h0 := hok _ (by rw [htok]; exact List.mem_cons_self _ _)
      simp only
      rw [if_pos ((fits_temp_buf_iff _).2 h0.2), trim_word _ (word_no_splitter x xs hx),
        if_neg (List.cons_ne_nil _ _), if_neg h0.1, strtok_save_word_tail _ _ hw]
      have hmem : ∀ c ∈ (xs.dropWhile (fun c => !is_splitter c)).tail, c ≠ NUL := by
        intro c hc
        apply hs c
        apply mem_of_mem_dropWhile is_splitter
        rw [hd]
        exact List.mem_cons_of_mem _ (mem_of_mem_dropWhile _ _ _ (List.mem_of_mem_tail hc))
      exact ih _ rest _ hmem (by
        intro t ht
        rw [tokens_word_tail _ hw] at ht
        exact hok t (by rw [htok]; exact List.mem_cons_of_mem _ ht))

/-- A token of 1024 bytes or more behind tokens that fit, with no pipe before it: its copy
overruns `temp_buf`. -/
theorem token_loop_checked_long (sub2 : List Char → Option (command_t × List Char)) :
    ∀ (fuel : Nat) (s rest : List Char) (cmd : command_t) (pre : List (List Char))
      (t : List Char) (post : List (List Char)),
      (∀ c ∈ s, c ≠ NUL) → s.length < fuel → tokens s = pre ++ t :: post →
      (∀ u ∈ pre, u ≠ ['|'] ∧ u.length < 1024) → 1024 ≤ t.length →
      token_loop_checked sub2 fuel (s ++ NUL :: rest) cmd = none := by
  intro fuel
  induction fuel with
  | zero => intro s rest cmd pre t post _ h; exact absurd h (Nat.not_lt_zero _)
  | succ n ih =>
    intro s rest cmd pre t post hs hlen htok hpre ht
    rw [token_loop_checked, strtok_mem s rest hs]
    rcases hd : s.dropWhile is_splitter with _ | ⟨x, xs⟩
    · rw [tokens_dropWhile_nil s hd] at htok
      exact absurd htok (by simp)
    · have hx : is_splitter x = false := by
        have := List.head_dropWhile_not is_splitter s (by simp [hd])
        simpa [hd] using this
      have htk := tokens_dropWhile_cons s x xs hd
      have hw := word_tail_cases xs
      have h1 := dropWhile_length_le is_splitter s
      have h2 := dropWhile_length_le (fun c => !is_splitter c) xs
      rw [hd] at h1
      simp only [List.length_cons] at h1
      simp only
      rw [htk] at htok
      rcases pre with _ | ⟨p, pre2⟩
      · rw [List.nil_append] at htok
        obtain ⟨hp, _⟩ := List.cons.inj htok
        have hnf : ¬ fits_temp_buf (x :: xs.takeWhile (fun c => !is_splitter c)) = true := by
          rw [fits_temp_buf_iff, hp]
          omega
        rw [if_neg hnf]
      · rw [List.cons_append] at htok
        obtain ⟨hp, hrest⟩ := List.cons.inj htok
        have h0 := hpre p (List.mem_cons_self _ _)
        rw [← hp] at h0
        rw [if_pos ((fits_temp_buf_iff _).2 h0.2), trim_word _ (word_no_splitter x xs hx),
          if_neg (List.cons_ne_nil _ _), if_neg h0.1, strtok_save_word_tail _ _ hw]
        have hmem : ∀ c ∈ (xs.dropWhile (fun c => !is_splitter c)).tail, c ≠ NUL := by
          intro c hc
          apply hs c
          apply mem_of_mem_dropWhile is_splitter
          rw [hd]
          exact List.mem_cons_of_mem _ (mem_of_mem_dropWhile _ _ _ (List.mem_of_mem_tail hc))
        have hl : ((xs.dropWhile (fun c => !is_splitter c)).tail).length < n := by
          have h3 : ((xs.dropWhile (fun c => !is_splitter c)).tail).length
              ≤ (xs.dropWhile (fun c => !is_splitter c)).length := by simp
          omega
        exact ih _ rest _ pre2 t post hmem hl
          (by rw [tokens_word_tail _ hw]; exact hrest)
          (fun u hu => hpre u (List.mem_cons_of_mem _ hu)) ht

/-- The tokens before the first pipe fit and the nested call behind it stays within
`temp_buf`: so does the loop. -/
theorem token_loop_checked_pipe (sub2 : List Char → Option (command_t × List Char)) :
    ∀ (fuel : Nat) (s rest : List Char) (cmd : command_t) (pre post : List (List Char)),
      (∀ c ∈ s, c ≠ NUL) → s.length < fuel → tokens s = pre ++ ['|'] :: post →
      (∀ u ∈ pre, u ≠ ['|'] ∧ u.length < 1024) → post ≠ [] →
      (∀ s2, (∀ c ∈ s2, c ≠ NUL) → tokens s2 = post → s2.length < s.length →
        ∃ r, sub2 (s2 ++ NUL :: rest) = some r ∧ strtok splitters r.2 = none) →
      (token_loop_checked sub2 fuel (s ++ NUL :: rest) cmd).isSome = true := by
  intro fuel
  induction fuel with
  | zero => intro s rest cmd pre post _ h; exact absurd h (Nat.not_lt_zero _)
  | succ n ih =>
    intro s rest cmd pre post hs hlen htok hpre hpost hsub
    rw [token_loop_checked, strtok_mem s rest hs]
    rcases hd : s.dropWhile is_splitter with _ | ⟨x, xs⟩
    · rw [tokens_dropWhile_nil s hd] at htok
      exact absurd htok (by simp)
    · have hx : is_splitter x = false := by
        have := List.head_dropWhile_not is_splitter s (by simp [hd])
        simpa [hd] using this
      have htk := tokens_dropWhile_cons s x xs hd
      have hw := word_tail_cases xs
      have h1 := dropWhile_length_le is_splitter s
      have h2 := dropWhile_length_le (fun c => !is_splitter c) xs
      rw [hd] at h1
      simp only [List.length_cons] at h1
      have hxs : ∀ c ∈ xs.dropWhile (fun c => !is_splitter c), c ≠ NUL := by
        intro c hc
        apply hs c
        apply mem_of_mem_dropWhile is_splitter
        rw [hd]
        exact List.mem_cons_of_mem _ (mem_of_mem_dropWhile _ _ _ hc)
      simp only
      rw [htk] at htok
      rcases pre with _ | ⟨p, pre2⟩
      · rw [List.nil_append] at htok
        obtain ⟨hp, hrest⟩ := List.cons.inj htok
        have hfit : fits_temp_buf (x :: xs.takeWhile (fun c => !is_splitter c)) = true := by
          rw [hp]; decide
        rw [if_pos hfit, trim_word _ (word_no_splitter x xs hx),
          if_neg (List.cons_ne_nil _ _), if_pos hp]
        rcases hw with hnil | ⟨d, w, hdw, hdsp⟩
        · rw [hnil, tokens_nil] at hrest
          exact absurd hrest.symm hpost
        · rw [hdw] at hrest hxs h2
          have hb : is_blank ' ' = true := by decide
          have hm : ((x :: xs.takeWhile (fun c => !is_splitter c) ++ ' ' ::
              (xs.dropWhile (fun c => !is_splitter c) ++ NUL :: rest).tail).drop 1).dropWhile
                is_blank = w.dropWhile is_splitter ++ NUL :: rest := by
            rw [hp, hdw]
            simp only [List.cons_append, List.nil_append, List.tail_cons, List.drop_succ_cons,
              List.drop_zero, List.dropWhile_cons_of_pos hb, dropWhile_blank_mem]
          rw [hm]
          obtain ⟨r, hr, hend⟩ := hsub (w.dropWhile is_splitter)
            (fun c hc => hxs c (List.mem_cons_of_mem _ (mem_of_mem_dropWhile _ _ _ hc)))
            (by rw [tokens_dropWhile, ← hrest, tokens_cons_splitter d w hdsp])
            (by
              have h3 := dropWhile_length_le is_splitter w
              simp only [List.length_cons] at h2
              omega)
          rw [hr]
          simp only
          cases n with
          | zero => rfl
          | succ k =>
            rw [token_loop_checked, hend]
            rfl
      · rw [List.cons_append] at htok
        obtain ⟨hp, hrest⟩ := List.cons.inj htok
        have h0 := hpre p (List.mem_cons_self _ _)
        rw [← hp] at h0
        rw [if_pos ((fits_temp_buf_iff _).2 h0.2), trim_word _ (word_no_splitter x xs hx),
          if_neg (List.cons_ne_nil _ _), if_neg h0.1, strtok_save_word_tail _ _ hw]
        have hmem : ∀ c ∈ (xs.dropWhile (fun c => !is_splitter c)).tail, c ≠ NUL :=
          fun c hc => hxs c (List.mem_of_mem_tail hc)
        have h3 : ((xs.dropWhile (fun c => !is_splitter c)).tail).length
            ≤ (xs.dropWhile (fun c => !is_splitter c)).length := by simp
        exact ih _ rest _ pre2 post hmem (by omega)
          (by rw [tokens_word_tail _ hw]; exact hrest)
          (fun u hu => hpre u (List.mem_cons_of_mem _ hu)) hpost
          (fun s2 a b c => hsub s2 a b (by omega))

/-- Where the token loop starts: behind the command name, on memory whose string holds the
tokens after the name. -/
theorem first_save_tokens (buf : List Char) :
    ∃ s rest, first_save (trimmed_mem buf) = s ++ NUL :: rest ∧ (∀ c ∈ s, c ≠ NUL) ∧
      tokens s = (tokens (c_str buf)).tail ∧ s.length < (trimmed_mem buf).length + 1 ∧
      ((tokens (c_str buf)).tail ≠ [] → (s ++ NUL :: rest).length ≤ buf.length) := by
  have hs := trim_no_NUL _ (c_str_no_NUL buf)
  have htk := tokens_trim (c_str buf)
  have hlenm := trimmed_mem_length buf
  rw [trimmed_mem_eq] at hlenm ⊢
  generalize (List.replicate ((trim_left (c_str buf)).length
        - (trim_right (trim_left (c_str buf))).length) NUL ++ past_str buf) = rest at hlenm ⊢
  generalize trim_right (trim_left (c_str buf)) = s2 at hs htk hlenm ⊢
  unfold first_save
  rw [strtok_mem s2 rest hs]
  rcases hd : s2.dropWhile is_splitter with _ | ⟨x, xs⟩
  · refine ⟨[], rest, ?_, by simp, ?_, by simp, ?_⟩
    · show (s2 ++ NUL :: rest).dropWhile is_splitter = _
      rw [List.dropWhile_append_of_pos (List.dropWhile_eq_nil_iff.1 hd)]
      simp [List.dropWhile_cons, is_splitter_NUL]
    · rw [← htk, tokens_dropWhile_nil s2 hd]; rfl
    · intro h
      rw [← htk, tokens_dropWhile_nil s2 hd] at h
      exact absurd rfl h
  · have htok2 := tokens_dropWhile_cons s2 x xs hd
    have hw := word_tail_cases xs
    have h1 := dropWhile_length_le is_splitter s2
    have h2 := dropWhile_length_le (fun c => !is_splitter c) xs
    rw [hd] at h1
    simp only [List.length_cons, List.length_append] at h1 hlenm
    have h3 : ((xs.dropWhile (fun c => !is_splitter c)).tail).length
        ≤ (xs.dropWhile (fun c => !is_splitter c)).length := by simp
    simp only
    rw [strtok_save_word_tail _ _ hw]
    refine ⟨(xs.dropWhile (fun c => !is_splitter c)).tail, rest, rfl, ?_, ?_, ?_, ?_⟩
    · intro c hc
      apply hs c
      apply mem_of_mem_dropWhile is_splitter
      rw [hd]
      exact List.mem_cons_of_mem _ (mem_of_mem_dropWhile _ _ _ (List.mem_of_mem_tail hc))
    · rw [tokens_word_tail _ hw, ← htk, htok2]; rfl
    · simp only [List.length_append, List.length_cons]; omega
    · intro _
      simp only [List.length_append, List.length_cons]
      omega

theorem parse_fuel_checked_save_exhausted (alloc : Nat → command_t) (fuel depth : Nat)
    (buf : List Char) (cmd : command_t) (r : command_t × List Char)
    (h : parse_fuel_checked alloc fuel depth buf cmd = some r) :
    strtok splitters r.2 = none := by
  rw [parse_fuel_checked_eq alloc fuel depth buf cmd r h]
  exact parse_fuel_save_exhausted _ _ _ _ _

theorem parse_fuel_checked_of_isSome (alloc : Nat → command_t) (fuel depth : Nat)
    (buf : List Char) (cmd : command_t)
    (h : (parse_fuel_checked alloc fuel depth buf cmd).isSome = true) :
    parse_fuel_checked alloc fuel depth buf cmd = some (parse_fuel alloc fuel depth buf cmd) := by
  obtain ⟨r, hr⟩ := Option.isSome_iff_exists.1 h
  rw [hr, parse_fuel_checked_eq alloc fuel depth buf cmd r hr]

theorem parse_fuel_checked_isSome_of_loop (alloc : Nat → command_t) (fuel depth : Nat)
    (buf : List Char) (cmd : command_t)
    (h : (token_loop_checked
      (fun m => parse_fuel_checked alloc fuel (depth + 1) m (alloc depth))
      ((trimmed_mem buf).length + 1) (first_save (trimmed_mem buf))
      (set_name (strtok splitters (trimmed_mem buf))
        (mark_flags (trim_right (trim_left (c_str buf))) cmd))).isSome = true) :
    (parse_fuel_checked alloc (fuel + 1) depth buf cmd).isSome = true := by
  rw [parse_fuel_checked]
  obtain ⟨r, hr⟩ := Option.isSome_iff_exists.1 h
  rw [hr]
  rfl

/-- A line whose tokens after the first are shorter than 1024 bytes, the last of them not a
pipe: `parse_command` and its nested calls stay within `temp_buf`. -/
theorem parse_fuel_checked_some (alloc : Nat → command_t) :
    ∀ (n : Nat) (buf : List Char), buf.length ≤ n →
      ∀ (fuel depth : Nat) (cmd : command_t), n < fuel →
        (∀ t ∈ (tokens (c_str buf)).tail, t.length < 1024) →
        (tokens (c_str buf)).tail.getLast? ≠ some ['|'] →
        (parse_fuel_checked alloc fuel depth buf cmd).isSome = true := by
  intro n
  induction n using Nat.strong_induction_on with
  | _ n ih =>
    intro buf hbuf fuel depth cmd hfuel hfit hlast
    obtain ⟨g, rfl⟩ : ∃ g, fuel = g + 1 := ⟨fuel - 1, by omega⟩
    apply parse_fuel_checked_isSome_of_loop
    obtain ⟨s, rest, hfs, hs, hts, hsl, hml⟩ := first_save_tokens buf
    rw [hfs]
    have hsplit := List.takeWhile_append_dropWhile (fun t => t != ['|']) (tokens s)
    have hpre : ∀ t ∈ (tokens s).takeWhile (fun t => t != ['|']),
        t ≠ ['|'] ∧ t.length < 1024 := by
      intro t ht
      refine ⟨by simpa using List.mem_takeWhile_imp ht, ?_⟩
      apply hfit t
      rw [← hts]
      exact (List.takeWhile_prefix _).subset ht
    rcases hd : (tokens s).dropWhile (fun t => t != ['|']) with _ | ⟨q, post⟩
    · rw [hd, List.append_nil] at hsplit
      rw [hsplit] at hpre
      exact token_loop_checked_no_pipe _ _ s rest _ hs hpre
    · rw [hd] at hsplit
      have hq : q = ['|'] := by
        have := List.head_dropWhile_not (fun t => t != ['|']) (tokens s) (by simp [hd])
        simpa [hd] using this
      rw [hq] at hsplit
      have hpost : post ≠ [] := by
        intro e
        apply hlast
        rw [← hts, ← hsplit, e]
        simp
      have hne : (tokens (c_str buf)).tail ≠ [] := by
        rw [← hts, ← hsplit]; simp
      have hlen := hml hne
      simp only [List.length_append, List.length_cons] at hlen
      apply token_loop_checked_pipe _ _ s rest _ _ post hs hsl hsplit.symm hpre hpost
      intro s2 hs2 htok2 hlt
      have hsome := ih (s2 ++ NUL :: rest).length
        (by simp only [List.length_append, List.length_cons]; omega)
        (s2 ++ NUL :: rest) (Nat.le_refl _) g (depth + 1) (alloc depth)
        (by simp only [List.length_append, List.length_cons]; omega)
        (by
          rw [c_str_terminated _ _ hs2, htok2]
          intro t ht
          apply hfit t
          rw [← hts, ← hsplit]
          exact List.mem_append_right _ (List.mem_cons_of_mem _ (List.mem_of_mem_tail ht)))
        (by
          rw [c_str_terminated _ _ hs2, htok2]
          intro e
          apply hlast
          rw [← hts, ← hsplit]
          rcases post with _ | ⟨p, post2⟩
          · exact absurd rfl hpost
          · rcases post2 with _ | ⟨p2, post3⟩
            · simp at e
            · simp only [List.tail_cons] at e
              rw [List.getLast?_append_of_ne_nil _ (by simp),
                List.getLast?_cons_cons, List.getLast?_cons_cons]
              exact e)
      obtain ⟨r, hr⟩ := Option.isSome_iff_exists.1 hsome
      exact ⟨r, hr, parse_fuel_checked_save_exhausted _ _ _ _ _ _ hr⟩

theorem parse_command_checked_some (alloc : Nat → command_t) (buf : List Char)
    (command : command_t)
    (hfit : ∀ t ∈ (tokens (c_str buf)).tail, t.length < 1024)
    (hlast : (tokens (c_str buf)).tail.getLast? ≠ some ['|']) :
    parse_command_checked alloc buf command = some (parse_command alloc buf command) := by
  unfold parse_command_checked parse_command
  rw [parse_fuel_checked_of_isSome alloc _ _ _ _
    (parse_fuel_checked_some alloc buf.length buf (Nat.le_refl _) (buf.length + 1) 0 command
      (Nat.lt_succ_self _) hfit hlast)]
  rfl

/-- A line with a token of 1024 bytes or more in its head stage, behind tokens that fit:
`parse_command` overruns `temp_buf`. -/
theorem parse_command_checked_long (alloc : Nat → command_t) (buf : List Char)
    (command : command_t) (t0 : List Char) (pre : List (List Char)) (t : List Char)
    (post : List (List Char))
    (htok : tokens (c_str buf) = t0 :: (pre ++ t :: post))
    (hpre : ∀ u ∈ pre, u ≠ ['|'] ∧ u.length < 1024) (ht : 1024 ≤ t.length) :
    parse_command_checked alloc buf command = none := by
  unfold parse_command_checked
  rw [parse_fuel_checked]
  obtain ⟨s, rest, hfs, hs, hts, hsl, _⟩ := first_save_tokens buf
  rw [hfs, token_loop_checked_long _ _ s rest _ pre t post hs hsl
    (by rw [hts, htok]; rfl) hpre ht]
  rfl

theorem tokens_word (w : List Char) (hne : w ≠ []) (hw : ∀ c ∈ w, is_splitter c = false) :
    tokens w = [w] := by
  rcases w with _ | ⟨x, xs⟩
  · exact absurd rfl hne
  · have hx := hw x (List.mem_cons_self _ _)
    have hall : ∀ c ∈ xs, (!is_splitter c) = true := by
      intro c hc
      simp [hw c (List.mem_cons_of_mem _ hc)]
    rw [tokens_cons_word x xs hx, List.takeWhile_eq_self_iff.2 hall,
      List.dropWhile_eq_nil_iff.2 hall, tokens_nil]

theorem tokens_word_blank (w rest : List Char) (hne : w ≠ [])
    (hw : ∀ c ∈ w, is_splitter c = false) :
    tokens (w ++ ' ' :: rest) = w :: tokens rest := by
  rcases w with _ | ⟨x, xs⟩
  · exact absurd rfl hne
  · have hx := hw x (List.mem_cons_self _ _)
    have hall : ∀ c ∈ xs, (!is_splitter c) = true := by
      intro c hc
      simp [hw c (List.mem_cons_of_mem _ hc)]
    have hsp : is_splitter ' ' = true := by decide
    rw [List.cons_append, tokens_cons_word x _ hx, List.takeWhile_append_of_pos hall,
      List.dropWhile_append_of_pos hall, List.takeWhile_cons_of_neg (by simp [hsp]),
      List.dropWhile_cons_of_neg (by simp [hsp]), List.append_nil,
      tokens_cons_splitter ' ' rest hsp]

theorem c_str_replicate_a (w : List Char) (n : Nat) (hw : ∀ c ∈ w, c ≠ NUL) :
    c_str (w ++ List.replicate n 'a') = w ++ List.replicate n 'a' := by
  apply c_str_of_no_NUL
  intro c hc
  rcases List.mem_append.1 hc with h | h
  · exact hw c h
  · rw [List.eq_of_mem_replicate h]; decide

/-- The line `ls` followed by a blank and 1024 times the letter `a`: two tokens, the second of
1024 bytes. -/
theorem tokens_ls_long :
    tokens (c_str ("ls ".toList ++ List.replicate 1024 'a'))
      = ["ls".toList, List.replicate 1024 'a'] := by
  rw [c_str_replicate_a _ _ (by decide)]
  show tokens ("ls".toList ++ ' ' :: List.replicate 1024 'a') = _
  rw [tokens_word_blank _ _ (by decide) (by decide),
    tokens_word _ (List.ne_nil_of_length_pos (by rw [List.length_replicate]; omega))
      (fun c hc => by rw [List.eq_of_mem_replicate hc]; decide)]

theorem parse_ls_long_overruns (alloc : Nat → command_t) (command : command_t) :
    parse_command_checked alloc ("ls ".toList ++ List.replicate 1024 'a') command = none :=
  parse_command_checked_long alloc _ command "ls".toList [] (List.replicate 1024 'a') []
    tokens_ls_long (fun u hu => absurd hu (List.not_mem_nil u))
    (by rw [List.length_replicate])

theorem first_long : ∀ (ts : List (List Char)), (∃ t ∈ ts, 1024 ≤ t.length) →
    ∃ pre t post, ts = pre ++ t :: post ∧ (∀ u ∈ pre, u.length < 1024) ∧ 1024 ≤ t.length := by
  intro ts
  induction ts with
  | nil => intro h; simp at h
  | cons a l ih =>
    intro h
    by_cases ha : 1024 ≤ a.length
    · exact ⟨[], a, l, rfl, by simp, ha⟩
    · obtain ⟨t, ht, hl⟩ := h
      have htl : t ∈ l := by
        rcases List.mem_cons.1 ht with h1 | h1
        · exact absurd (h1 ▸ hl) ha
        · exact h1
      obtain ⟨pre, u, post, he, hp, hu⟩ := ih ⟨t, htl, hl⟩
      refine ⟨a :: pre, u, post, by rw [he]; rfl, ?_, hu⟩
      intro x hx
      rcases List.mem_cons.1 hx with h1 | h1
      · rw [h1]; omega
      · exact hp x h1

/-- A run of `parse_command` that stays within `temp_buf` has copied only tokens shorter
than 1024 bytes in its head stage. -/
theorem parse_command_checked_stage_fits (alloc : Nat → command_t) (buf : List Char)
    (command c : command_t) (h : parse_command_checked alloc buf command = some c) :
    ∀ t ∈ stage_tokens (c_str buf), t.length < 1024 := by
  intro t ht
  by_contra hlong
  obtain ⟨pre, u, post, he, hp, hu⟩ := first_long (stage_tokens (c_str buf))
    ⟨t, ht, by omega⟩
  have hsplit := List.takeWhile_append_dropWhile (fun t => t != ['|']) (tokens (c_str buf)).tail
  unfold stage_tokens at he
  rw [he] at hsplit
  have hnp : ∀ x ∈ pre, x ≠ ['|'] := by
    intro x hx
    have hm : x ∈ (tokens (c_str buf)).tail.takeWhile (fun t => t != ['|']) := by
      rw [he]; exact List.mem_append_left _ hx
    simpa using List.mem_takeWhile_imp hm
  rcases htk : tokens (c_str buf) with _ | ⟨t0, ts⟩
  · rw [htk] at hsplit
    simp at hsplit
  · rw [htk, List.tail_cons] at hsplit
    have h2 : ts = pre ++ u :: (post ++ ts.dropWhile (fun t => t != ['|'])) := by
      rw [List.append_assoc, List.cons_append] at hsplit
      exact hsplit.symm
    have hnone := parse_command_checked_long alloc buf command t0 pre u
      (post ++ ts.dropWhile (fun t => t != ['|']))
      (by rw [htk]; exact congrArg _ h2) (fun x hx => ⟨hnp x hx, hp x hx⟩) hu
    rw [hnone] at h
    exact Option.noConfusion h

theorem parse_short_line (alloc : Nat → command_t) (buf : List Char) (command : command_t)
    (hfit : ∀ t ∈ (tokens (c_str buf)).tail, t.length < 1024)
    (hlast : (tokens (c_str buf)).tail.getLast? ≠ some ['|'])
    (f : command_t → α) :
    (parse_command_checked alloc buf command).map f
      = some (f (parse_command alloc buf command)) := by
  rw [parse_command_checked_some alloc buf command hfit hlast]
  rfl

/-- A pass of the checked loop that stays within `temp_buf` on a string with a pipe token
and tokens behind it: the nested call made at the first pipe stayed within it too. -/
theorem token_loop_checked_next_pipe (sub2 : List Char → Option (command_t × List Char)) :
    ∀ (fuel : Nat) (s rest : List Char) (cmd : command_t) (pre post : List (List Char)),
      (∀ c ∈ s, c ≠ NUL) → s.length < fuel → tokens s = pre ++ ['|'] :: post →
      (∀ t ∈ pre, t ≠ ['|']) → post ≠ [] →
      (token_loop_checked sub2 fuel (s ++ NUL :: rest) cmd).isSome = true →
      ∃ s2, (sub2 (s2 ++ NUL :: rest)).isSome = true ∧
        (∀ c ∈ s2, c ≠ NUL) ∧ tokens s2 = post ∧ s2.length < s.length := by
  intro fuel
  induction fuel with
  | zero => intro s rest cmd pre post _ h; exact absurd h (Nat.not_lt_zero _)
  | succ n ih =>
    intro s rest cmd pre post hs hlen htok hpre hpost hsome
    rw [token_loop_checked, strtok_mem s rest hs] at hsome
    rcases hd : s.dropWhile is_splitter with _ | ⟨x, xs⟩
    · rw [tokens_dropWhile_nil s hd] at htok
      exact absurd htok (by simp)
    · have hx : is_splitter x = false := by
        have := List.head_dropWhile_not is_splitter s (by simp [hd])
        simpa [hd] using this
      have htk := tokens_dropWhile_cons s x xs hd
      have hw := word_tail_cases xs
      have h1 := dropWhile_length_le is_splitter s
      have h2 := dropWhile_length_le (fun c => !is_splitter c) xs
      rw [hd] at h1 hsome
      simp only [List.length_cons] at h1
      have hxs : ∀ c ∈ xs.dropWhile (fun c => !is_splitter c), c ≠ NUL := by
        intro c hc
        apply hs c
        apply mem_of_mem_dropWhile is_splitter
        rw [hd]
        exact List.mem_cons_of_mem _ (mem_of_mem_dropWhile _ _ _ hc)
      simp only at hsome
      rw [htk] at htok
      rcases pre with _ | ⟨p, pre2⟩
      · rw [List.nil_append] at htok
        obtain ⟨hp, hrest⟩ := List.cons.inj htok
        have hfit : fits_temp_buf (x :: xs.takeWhile (fun c => !is_splitter c)) = true := by
          rw [hp]; decide
        rw [if_pos hfit, trim_word _ (word_no_splitter x xs hx),
          if_neg (List.cons_ne_nil _ _), if_pos hp] at hsome
        rcases hw with hnil | ⟨d, w, hdw, hdsp⟩
        · rw [hnil, tokens_nil] at hrest
          exact absurd hrest.symm hpost
        · rw [hdw] at hrest hxs h2
          have hb : is_blank ' ' = true := by decide
          have hm : ((x :: xs.takeWhile (fun c => !is_splitter c) ++ ' ' ::
              (xs.dropWhile (fun c => !is_splitter c) ++ NUL :: rest).tail).drop 1).dropWhile
                is_blank = w.dropWhile is_splitter ++ NUL :: rest := by
            rw [hp, hdw]
            simp only [List.cons_append, List.nil_append, List.tail_cons, List.drop_succ_cons,
              List.drop_zero, List.dropWhile_cons_of_pos hb, dropWhile_blank_mem]
          rw [hm] at hsome
          refine ⟨w.dropWhile is_splitter, ?_,
            fun c hc => hxs c (List.mem_cons_of_mem _ (mem_of_mem_dropWhile _ _ _ hc)),
            by rw [tokens_dropWhile, ← hrest, tokens_cons_splitter d w hdsp], ?_⟩
          · rcases hr : sub2 (w.dropWhile is_splitter ++ NUL :: rest) with _ | r
            · rw [hr] at hsome
              exact absurd hsome (by simp)
            · rfl
          · have h3 := dropWhile_length_le is_splitter w
            simp only [List.length_cons] at h2
            omega
      · rw [List.cons_append] at htok
        obtain ⟨hp, hrest⟩ := List.cons.inj htok
        have hne : x :: xs.takeWhile (fun c => !is_splitter c) ≠ ['|'] := by
          rw [hp]; exact hpre p (List.mem_cons_self _ _)
        by_cases hfit : fits_temp_buf (x :: xs.takeWhile (fun c => !is_splitter c)) = true
        · rw [if_pos hfit, trim_word _ (word_no_splitter x xs hx),
            if_neg (List.cons_ne_nil _ _), if_neg hne, strtok_save_word_tail _ _ hw] at hsome
          have hmem : ∀ c ∈ (xs.dropWhile (fun c => !is_splitter c)).tail, c ≠ NUL :=
            fun c hc => hxs c (List.mem_of_mem_tail hc)
          have h3 : ((xs.dropWhile (fun c => !is_splitter c)).tail).length
              ≤ (xs.dropWhile (fun c => !is_splitter c)).length := by simp
          obtain ⟨s2, e1, e2, e3, e4⟩ := ih _ rest _ pre2 post hmem (by omega)
            (by rw [tokens_word_tail _ hw]; exact hrest)
            (fun u hu => hpre u (List.mem_cons_of_mem _ hu)) hpost hsome
          exact ⟨s2, e1, e2, e3, by omega⟩
        · rw [if_neg hfit] at hsome
          exact absurd hsome (by simp)

theorem parse_fuel_checked_loop_of_isSome (alloc : Nat → command_t) (fuel depth : Nat)
    (buf : List Char) (cmd : command_t)
    (h : (parse_fuel_checked alloc (fuel + 1) depth buf cmd).isSome = true) :
    (token_loop_checked
      (fun m => parse_fuel_checked alloc fuel (depth + 1) m (alloc depth))
      ((trimmed_mem buf).length + 1) (first_save (trimmed_mem buf))
      (set_name (strtok splitters (trimmed_mem buf))
        (mark_flags (trim_right (trim_left (c_str buf))) cmd))).isSome = true := by
  rw [parse_fuel_checked] at h
  rcases hr : token_loop_checked
      (fun m => parse_fuel_checked alloc fuel (depth + 1) m (alloc depth))
      ((trimmed_mem buf).length + 1) (first_save (trimmed_mem buf))
      (set_name (strtok splitters (trimmed_mem buf))
        (mark_flags (trim_right (trim_left (c_str buf))) cmd)) with _ | r
  · rw [hr] at h
    exact absurd h (by simp)
  · rfl

/-- A call that stays within `temp_buf` on a line with a pipe token behind the command name
and tokens behind that pipe: the nested call, on memory whose string holds exactly the
tokens behind the pipe, stays within `temp_buf` too. -/
theorem parse_fuel_checked_next_pipe (alloc : Nat → command_t) (fuel depth : Nat)
    (buf : List Char) (command : command_t) (pre post : List (List Char))
    (h : (parse_fuel_checked alloc (fuel + 1) depth buf command).isSome = true)
    (htok : (tokens (c_str buf)).tail = pre ++ ['|'] :: post)
    (hpre : ∀ t ∈ pre, t ≠ ['|']) (hpost : post ≠ []) :
    ∃ m, (parse_fuel_checked alloc fuel (depth + 1) m (alloc depth)).isSome = true ∧
      tokens (c_str m) = post ∧ m.length < buf.length := by
  have hl := parse_fuel_checked_loop_of_isSome alloc fuel depth buf command h
  obtain ⟨s, rest, hfs, hs, hts, hsl, hml⟩ := first_save_tokens buf
  rw [hfs] at hl
  obtain ⟨s2, e1, e2, e3, e4⟩ := token_loop_checked_next_pipe _ _ s rest _ pre post hs hsl
    (by rw [hts]; exact htok) hpre hpost hl
  have hlen := hml (by rw [htok]; simp)
  simp only [List.length_append, List.length_cons] at hlen
  refine ⟨s2 ++ NUL :: rest, e1, ?_, ?_⟩
  · rw [c_str_terminated _ _ e2, e3]
  · simp only [List.length_append, List.length_cons]
    omega

/-- A call that stays within `temp_buf` has copied only tokens shorter than 1024 bytes in
its own stage. -/
theorem parse_fuel_checked_stage_fits (alloc : Nat → command_t) (fuel depth : Nat)
    (buf : List Char) (command : command_t)
    (h : (parse_fuel_checked alloc (fuel + 1) depth buf command).isSome = true) :
    ∀ t ∈ stage_tokens (c_str buf), t.length < 1024 := by
  intro t ht
  by_contra hlong
  obtain ⟨pre, u, post, he, hp, hu⟩ := first_long (stage_tokens (c_str buf))
    ⟨t, ht, by omega⟩
  have hsplit := List.takeWhile_append_dropWhile (fun t => t != ['|']) (tokens (c_str buf)).tail
  unfold stage_tokens at he
  rw [he] at hsplit
  have hnp : ∀ x ∈ pre, x ≠ ['|'] := by
    intro x hx
    have hm : x ∈ (tokens (c_str buf)).tail.takeWhile (fun t => t != ['|']) := by
      rw [he]; exact List.mem_append_left _ hx
    simpa using List.mem_takeWhile_imp hm
  have hl := parse_fuel_checked_loop_of_isSome alloc fuel depth buf command h
  obtain ⟨s, rest, hfs, hs, hts, hsl, _⟩ := first_save_tokens buf
  rw [hfs, token_loop_checked_long _ _ s rest _ pre u
    (post ++ (tokens (c_str buf)).tail.dropWhile (fun t => t != ['|'])) hs hsl
    (by rw [hts]; rw [List.append_assoc, List.cons_append] at hsplit; exact hsplit.symm)
    (fun x hx => ⟨hnp x hx, hp x hx⟩) hu] at hl
  exact absurd hl (by simp)

/-- A call that stays within `temp_buf` has copied only tokens shorter than 1024 bytes, in
every stage of the line. -/
theorem chain_stage_fits (alloc : Nat → command_t) :
    ∀ (n : Nat) (buf : List Char), buf.length ≤ n →
      ∀ (fuel depth : Nat) (command : command_t) (j : Nat) (ts : List (List Char)),
        n < fuel → (parse_fuel_checked alloc fuel depth buf command).isSome = true →
        stage_line j (tokens (c_str buf)) = some ts →
        ∀ t ∈ args_of ts, t.length < 1024 := by
  intro n
  induction n using Nat.strong_induction_on with
  | _ n ih =>
    intro buf hbuf fuel depth command j ts hfuel hsome hst
    obtain ⟨g, rfl⟩ : ∃ g, fuel = g + 1 := ⟨fuel - 1, by omega⟩
    rcases j with _ | j
    · have hts : ts = tokens (c_str buf) := by
        simpa [stage_line] using hst.symm
      rw [hts]
      exact parse_fuel_checked_stage_fits alloc g depth buf command hsome
    · obtain ⟨pre, p, post, htail, hpre, hst2⟩ := stage_line_succ j _ ts hst
      obtain ⟨m, hm, hmt, hml⟩ := parse_fuel_checked_next_pipe alloc g depth buf command pre
        (p :: post) hsome htail hpre (List.cons_ne_nil _ _)
      rw [← hmt] at hst2
      exact ih m.length (by omega) m (Nat.le_refl _) g (depth + 1) (alloc depth) j ts
        (by omega) hm hst2

/-- A run of `parse_command` that stays within `temp_buf` has copied only tokens shorter
than 1024 bytes, in every stage of the line. -/
theorem parse_command_checked_fits (alloc : Nat → command_t) (buf : List Char)
    (command c0 : command_t) (j : Nat) (ts : List (List Char))
    (hrun : parse_command_checked alloc buf command = some c0)
    (hst : stage_line j (tokens (c_str buf)) = some ts) :
    ∀ t ∈ args_of ts, t.length < 1024 := by
  apply chain_stage_fits alloc buf.length buf (Nat.le_refl _) (buf.length + 1) 0 command j ts
    (Nat.lt_succ_self _) _ hst
  unfold parse_command_checked at hrun
  rcases hr : parse_fuel_checked alloc (buf.length + 1) 0 buf command with _ | r
  · rw [hr] at hrun
    exact absurd hrun (by simp)
  · rfl

/-- Every node of the chain that parses a stage of the line carries, apart from `next`, what
a `parse_command` call on memory holding the tokens of that stage leaves in the struct the
node is built on. -/
theorem chain_node_parse (alloc : Nat → command_t) :
    ∀ (n : Nat) (buf : List Char), buf.length ≤ n →
      ∀ (fuel depth : Nat) (command : command_t) (k j : Nat) (c : command_t)
        (ts : List (List Char)), n < fuel →
        (chain k (parse_fuel alloc fuel depth buf command).1)[j]? = some c →
        stage_line j (tokens (c_str buf)) = some ts →
        ∃ m, head_of c = head_of (parse_command alloc m
            (node_block (fun d => alloc (depth + d)) command j)) ∧
          tokens (c_str m) = ts := by
  intro n
  induction n using Nat.strong_induction_on with
  | _ n ih =>
    intro buf hbuf fuel depth command k j c ts hfuel hc hst
    obtain ⟨g, rfl⟩ : ∃ g, fuel = g + 1 := ⟨fuel - 1, by omega⟩
    rcases k with _ | k
    · simp [chain] at hc
    · rcases j with _ | j
      · have hc0 : c = (parse_fuel alloc (g + 1) depth buf command).1 := by
          unfold chain at hc
          split at hc <;> simpa using hc.symm
        have hts : ts = tokens (c_str buf) := by
          simpa [stage_line] using hst.symm
        refine ⟨buf, ?_, hts.symm⟩
        rw [hc0, parse_fuel_head, parse_command_head]
        rfl
      · obtain ⟨pre, p, post, htail, hpre, hst2⟩ := stage_line_succ j _ ts hst
        obtain ⟨m, hnext, hmt, hml⟩ := parse_fuel_next_pipe alloc g depth buf command pre
          (p :: post) htail hpre (List.cons_ne_nil _ _)
        rw [chain_of_next k _ _ hnext, List.getElem?_cons_succ] at hc
        rw [← hmt] at hst2
        obtain ⟨m2, h1, h2⟩ := ih m.length (by omega) m (Nat.le_refl _) g (depth + 1)
          (alloc depth) k j c ts (by omega) hc hst2
        refine ⟨m2, ?_, h2⟩
        rw [h1]
        congr 2
        rcases j with _ | j
        · rfl
        · show alloc (depth + 1 + j) = alloc (depth + (j + 1))
          congr 1
          omega

/-- The node of a stage, read off the tokens of the stage. -/
theorem stage_node_fields (alloc : Nat → command_t) (buf : List Char)
    (command c0 : command_t) (j : Nat) (ts : List (List Char))
    (hrun : parse_command_checked alloc buf command = some c0)
    (hst : stage_line j (tokens (c_str buf)) = some ts) :
    ∃ c m, (chain (j + 1) c0)[j]? = some c ∧ tokens (c_str m) = ts ∧
      c.name = ts.headD [] ∧
      c.args = some (ts.headD []) ::
        (((args_of ts).filter ordinary).map (fun t => some (stored_argument t)) ++ [none]) ∧
      c.redirects = ((args_of ts).foldl process_arg
        (start_command (c_str m) (node_block alloc command j))).redirects := by
  have e0 := parse_command_checked_eq alloc buf command c0 hrun
  obtain ⟨c, hc⟩ := chain_has_stage_node alloc buf.length buf (Nat.le_refl _)
    (buf.length + 1) 0 command j ts (Nat.lt_succ_self _) hst
  obtain ⟨m, hm, hts⟩ := chain_node_parse alloc buf.length buf (Nat.le_refl _)
    (buf.length + 1) 0 command (j + 1) j c ts (Nat.lt_succ_self _) hc hst
  have hnb : node_block (fun d => alloc (0 + d)) command j = node_block alloc command j := by
    congr 1
    funext d
    rw [Nat.zero_add]
  rw [hnb] at hm
  obtain ⟨f1, f2, _, f4, _, _⟩ := parse_command_fields alloc m (node_block alloc command j)
  have g1 := congrArg command_t.name hm
  have g2 := congrArg command_t.args hm
  have g4 := congrArg command_t.redirects hm
  simp only [head_of] at g1 g2 g4
  refine ⟨c, m, by rw [e0]; exact hc, hts, ?_, ?_, ?_⟩
  · rw [g1, f1, hts]
  · rw [g2, f2]
    unfold stage_tokens args_of
    rw [hts]
  · rw [g4, f4]
    unfold stage_tokens args_of
    rw [hts]

/-! ## Claims about `parse_command` -/

theorem takeWhile_no_pipe (l : List (List Char)) (h : ∀ t ∈ l, t ≠ ['|']) :
    l.takeWhile (fun t => t != ['|']) = l := by
  rw [List.takeWhile_eq_self_iff]
  intro t ht
  simpa using h t ht

theorem takeWhile_pipe_append (l1 l2 : List (List Char)) (h : ∀ t ∈ l1, t ≠ ['|']) :
    (l1 ++ l2).takeWhile (fun t => t != ['|']) = l1 ++ l2.takeWhile (fun t => t != ['|']) := by
  rw [List.takeWhile_append_of_pos]
  intro t ht
  simpa using h t ht

/-- C1 (the code, and the failing input). For every pipeline `n | n1 | ... | nk` of plain
names, the first k + 1 nodes of the chain that `parse_command` builds carry the names in
order.  The `next` field of the last of them is `NULL` for a single name (the head is
cleared by `main`), but for a longer pipeline it is whatever the block from `malloc`
held, since `parse_command` never assigns it: the chain ends after the named nodes
when the allocator hands out cleared blocks, and on `a | b` with a stale block it runs
on into a third node. -/
theorem parse_pipe_chain_stale_next (alloc : Nat → command_t) (n : List Char)
    (ns : List (List Char)) (hn : plain_name n) (hns : ∀ m ∈ ns, plain_name m) :
    (chain (ns.length + 1) (parse_command alloc (pipeline (n :: ns)) zeroed)).map
      command_t.name = n :: ns ∧
    (chain (ns.length + 1) (parse_command alloc (pipeline (n :: ns)) zeroed)).getLast?.bind
      command_t.next = (if ns = [] then none else (alloc (ns.length - 1)).next) ∧
    ((∀ i, (alloc i).next = none) → ∀ extra,
      (chain (ns.length + 1 + extra) (parse_command alloc (pipeline (n :: ns)) zeroed)).map
        command_t.name = n :: ns) ∧
    (chain 8 (parse_command (fun _ => stale_block) "a | b".toList zeroed)).map command_t.name
      = [['a'], ['b'], []] := by
  have h := parse_fuel_pipeline alloc ns n (pipeline (n :: ns)).length 0 [] zeroed hn hns
    (Or.inl rfl) (pipeline_length ns n)
  rw [List.append_nil] at h
  have h2 : (chain (ns.length + 1) (parse_command alloc (pipeline (n :: ns)) zeroed)).getLast?.bind
      command_t.next = (if ns = [] then none else (alloc (ns.length - 1)).next) := by
    have := h.2
    simp only [Nat.zero_add] at this
    exact this
  refine ⟨h.1, h2, ?_, by decide⟩
  intro hz extra
  have hend : (chain (ns.length + 1)
      (parse_command alloc (pipeline (n :: ns)) zeroed)).getLast?.bind command_t.next = none := by
    rw [h2]
    split
    · rfl
    · exact hz _
  rw [chain_stable _ _ extra hend]
  exact h.1

/-- C1 at the pipeline `a | b | c` with cleared blocks. -/
theorem parse_pipe_chain_stale_next_witness :
    (chain (["b".toList, "c".toList].length + 1)
      (parse_command (fun _ => zeroed) (pipeline ("a".toList :: ["b".toList, "c".toList]))
        zeroed)).map command_t.name = "a".toList :: ["b".toList, "c".toList] ∧
    (chain (["b".toList, "c".toList].length + 1)
      (parse_command (fun _ => zeroed) (pipeline ("a".toList :: ["b".toList, "c".toList]))
        zeroed)).getLast?.bind command_t.next
      = (if ["b".toList, "c".toList] = [] then none
         else ((fun _ => zeroed) (["b".toList, "c".toList].length - 1) : command_t).next) ∧
    ((∀ i : Nat, ((fun _ => zeroed) i : command_t).next = none) → ∀ extra,
      (chain (["b".toList, "c".toList].length + 1 + extra)
        (parse_command (fun _ => zeroed) (pipeline ("a".toList :: ["b".toList, "c".toList]))
          zeroed)).map command_t.name = "a".toList :: ["b".toList, "c".toList]) ∧
    (chain 8 (parse_command (fun _ => stale_block) "a | b".toList zeroed)).map command_t.name
      = [['a'], ['b'], []] :=
  parse_pipe_chain_stale_next (fun _ => zeroed) "a".toList ["b".toList, "c".toList]
    ⟨by decide, by decide⟩ (by
      intro m hm
      simp only [List.mem_cons, List.mem_singleton, List.not_mem_nil, or_false] at hm
      rcases hm with rfl | rfl
      · exact ⟨by decide, by decide⟩
      · exact ⟨by decide, by decide⟩)

/-! ## Claims about `parse_command` on lines of any length -/

/-- C2 (the code, and the failing input). For every line whose space/tab-separated tokens
are t0, t1, ..., tk, where none of t1..tk is `|` or `&`, starts with `<` or `>`, or is wrapped
in matching quotes: when each of t1..tk is shorter than 1024 bytes, `parse_command` leaves
the name t0, `arg_count` k + 2 and the argument vector [t0, t1, ..., tk, NULL]; when one of
them has 1024 bytes or more, its copy into `temp_buf[1024]` runs past the array.  The line
`ls` followed by 1024 times `a` is of the second kind. -/
theorem parse_command_plain_line (alloc : Nat → command_t) (buf : List Char)
    (command : command_t) (t0 : List Char) (ts : List (List Char))
    (htok : tokens (c_str buf) = t0 :: ts)
    (hts : ∀ t ∈ ts, t ≠ ['|'] ∧ t ≠ ['&'] ∧ t.head? ≠ some '<' ∧ t.head? ≠ some '>' ∧
      quote_wrapped t = false) :
    ((∀ t ∈ ts, t.length < 1024) →
      ∃ c, parse_command_checked alloc buf command = some c ∧
        c.name = t0 ∧ c.arg_count = ts.length + 2 ∧
        c.args = some t0 :: (ts.map some ++ [none])) ∧
    ((∃ t ∈ ts, 1024 ≤ t.length) → parse_command_checked alloc buf command = none) ∧
    (tokens (c_str ("ls ".toList ++ List.replicate 1024 'a'))
        = ["ls".toList, List.replicate 1024 'a'] ∧
      parse_command_checked alloc ("ls ".toList ++ List.replicate 1024 'a') command = none) := by
  refine ⟨?_, ?_, tokens_ls_long, parse_ls_long_overruns alloc command⟩
  · intro hfit
    have hrun := parse_command_checked_some alloc buf command
      (by rw [htok]; exact hfit)
      (by
        rw [htok, List.tail_cons]
        intro e
        exact (hts _ (List.mem_of_mem_getLast? e)).1 rfl)
    refine ⟨_, hrun, ?_⟩
    obtain ⟨h1, h2, h3, _, _, _⟩ := parse_command_fields alloc buf command
    have hst : stage_tokens (c_str buf) = ts := by
      rw [stage_tokens, htok, List.tail_cons]
      exact takeWhile_no_pipe ts (fun t ht => (hts t ht).1)
    have hord : ts.filter ordinary = ts := by
      rw [List.filter_eq_self]
      intro t ht
      obtain ⟨a1, a2, a3, a4, _⟩ := hts t ht
      simp [ordinary, is_redirection, a1, a2, a3, a4]
    have hmap : ts.map (fun t => some (stored_argument t)) = ts.map some := by
      apply List.map_congr_left
      intro t ht
      simp [stored_argument, (hts t ht).2.2.2.2]
    rw [hst, hord] at h2 h3
    rw [htok, List.headD_cons] at h1 h2
    rw [hmap] at h2
    exact ⟨h1, h3, h2⟩
  · intro hlong
    obtain ⟨pre, u, post, he, hp, hu⟩ := first_long ts hlong
    exact parse_command_checked_long alloc buf command t0 pre u post (by rw [htok, he])
      (fun x hx => ⟨(hts x (by rw [he]; exact List.mem_append_left _ hx)).1, hp x hx⟩) hu

/-- C2 at the line `ls -l /tmp`, whose tokens fit. -/
theorem parse_command_plain_line_witness :
    ∃ c, parse_command_checked (fun _ => zeroed) "ls -l /tmp".toList zeroed = some c ∧
      c.name = "ls".toList ∧ c.arg_count = 2 + 2 ∧
      c.args = some "ls".toList :: (["-l".toList, "/tmp".toList].map some ++ [none]) :=
  (parse_command_plain_line (fun _ => zeroed) "ls -l /tmp".toList zeroed "ls".toList
    ["-l".toList, "/tmp".toList] (by decide) (by decide)).1 (by decide)

/-- C3 (counterexample). On `ls > out.txt` the truncate-output target is the empty string,
not `out.txt`, and `out.txt` is in the argument vector. -/
theorem parse_ls_gt_out_separate :
    (parse_command (fun _ => zeroed) "ls > out.txt".toList zeroed).redirects 1 = some [] ∧
    (parse_command (fun _ => zeroed) "ls > out.txt".toList zeroed).redirects 1
      ≠ some "out.txt".toList ∧
    (parse_command (fun _ => zeroed) "ls > out.txt".toList zeroed).args
      = [some "ls".toList, some "out.txt".toList, none] ∧
    (parse_command (fun _ => zeroed) "ls > out.txt".toList zeroed).args
      ≠ [some "ls".toList, none] ∧
    (parse_command_checked (fun _ => zeroed) "ls > out.txt".toList zeroed).map
        (fun r => (r.redirects 1, r.args))
      = some (some [], [some "ls".toList, some "out.txt".toList, none]) := by
  decide

/-- C3 (amended). For a line that `parse_command` parses without overrunning `temp_buf`:
when `>` stands alone as a token of the head stage and the token after it is an ordinary
token, the truncate-output target is the empty string (unless a later token of the stage
names that slot) and the token after `>` stays an argument; the target is taken, and kept
out of the arguments, only when it is attached to the operator: `ls > out.txt` gives the
empty target and [ls, out.txt, NULL], `ls >out.txt` gives the target `out.txt` and
[ls, NULL]. -/
theorem parse_command_lone_gt (alloc : Nat → command_t) (buf : List Char)
    (command c : command_t) (t0 tgt : List Char) (pre post : List (List Char))
    (hrun : parse_command_checked alloc buf command = some c)
    (htok : tokens (c_str buf) = t0 :: (pre ++ ['>'] :: tgt :: post))
    (hpre : ∀ t ∈ pre, t ≠ ['|'])
    (htgt : ordinary tgt = true)
    (hpost : ∀ t ∈ post.takeWhile (fun t => t != ['|']), names_slot 1 t = false) :
    (c.redirects 1 = some [] ∧
     c.args =
       some t0 :: (((pre ++ tgt :: post.takeWhile (fun t => t != ['|'])).filter ordinary).map
         (fun t => some (stored_argument t)) ++ [none])) ∧
    (parse_command_checked alloc "ls > out.txt".toList zeroed).map
        (fun r => (r.redirects 1, r.args))
      = some (some [], [some "ls".toList, some "out.txt".toList, none]) ∧
    (parse_command_checked alloc "ls >out.txt".toList zeroed).map
        (fun r => (r.redirects 1, r.args))
      = some (some "out.txt".toList, [some "ls".toList, none]) := by
  have key : ∀ (b : List Char) (c : command_t) (u0 v : List Char) (p q : List (List Char)),
      tokens (c_str b) = u0 :: (p ++ ['>'] :: v :: q) → (∀ t ∈ p, t ≠ ['|']) →
      ordinary v = true → (∀ t ∈ q.takeWhile (fun t => t != ['|']), names_slot 1 t = false) →
      (parse_command alloc b c).redirects 1 = some [] ∧
      (parse_command alloc b c).args =
        some u0 :: (((p ++ v :: q.takeWhile (fun t => t != ['|'])).filter ordinary).map
          (fun t => some (stored_argument t)) ++ [none]) := by
    intro b c u0 v p q hb hp hv hq
    obtain ⟨_, h2, _, h4, _, _⟩ := parse_command_fields alloc b c
    have hvp : v ≠ ['|'] := by
      intro e; rw [e] at hv; exact absurd hv (by decide)
    have hst : stage_tokens (c_str b) = p ++ ['>'] :: v :: q.takeWhile (fun t => t != ['|']) := by
      rw [stage_tokens, hb, List.tail_cons, takeWhile_pipe_append _ _ hp,
        List.takeWhile_cons_of_pos (by decide), List.takeWhile_cons_of_pos (by simpa using hvp)]
    constructor
    · rw [h4, hst, List.foldl_append, List.foldl_cons,
        process_arg_redirect _ ['>'] 1 [] (by decide), List.foldl_cons]
      rw [foldl_process_arg_slot_kept _ 1 _ hq, process_arg_ordinary _ _ hv]
      simp [set_redirect]
    · rw [h2, hst, hb]
      have hgt : ordinary ['>'] = false := by decide
      simp [List.filter_append, List.filter_cons, hgt, hv]
  refine ⟨?_, ?_, ?_⟩
  · rw [parse_command_checked_eq alloc buf command c hrun]
    exact key buf command t0 tgt pre post htok hpre htgt hpost
  · rw [parse_short_line alloc _ zeroed (by decide) (by decide)]
    have h := key "ls > out.txt".toList zeroed "ls".toList "out.txt".toList [] []
      (by decide) (by decide) (by decide) (by decide)
    rw [h.1, h.2]
    decide
  · rw [parse_short_line alloc _ zeroed (by decide) (by decide)]
    obtain ⟨_, h2, _, h4, _, _⟩ := parse_command_fields alloc "ls >out.txt".toList zeroed
    have hst : stage_tokens (c_str "ls >out.txt".toList) = [">out.txt".toList] := by decide
    have htk : tokens (c_str "ls >out.txt".toList) = ["ls".toList, ">out.txt".toList] := by
      decide
    rw [h4, h2, hst, htk]
    decide

/-- C3 (amended) at the line `cp > a b`. -/
theorem parse_command_lone_gt_witness :
    ((parse_command (fun _ => stale_block) "cp > a b".toList zeroed).redirects 1 = some [] ∧
     (parse_command (fun _ => stale_block) "cp > a b".toList zeroed).args =
       some "cp".toList :: ((([] ++ "a".toList ::
         ["b".toList].takeWhile (fun t => t != ['|'])).filter ordinary).map
         (fun t => some (stored_argument t)) ++ [none])) ∧
    (parse_command_checked (fun _ => stale_block) "ls > out.txt".toList zeroed).map
        (fun r => (r.redirects 1, r.args))
      = some (some [], [some "ls".toList, some "out.txt".toList, none]) ∧
    (parse_command_checked (fun _ => stale_block) "ls >out.txt".toList zeroed).map
        (fun r => (r.redirects 1, r.args))
      = some (some "out.txt".toList, [some "ls".toList, none]) :=
  parse_command_lone_gt (fun _ => stale_block) "cp > a b".toList zeroed
    (parse_command (fun _ => stale_block) "cp > a b".toList zeroed) "cp".toList
    "a".toList [] ["b".toList] rfl (by decide) (by decide) (by decide) (by decide)

/-- C4 (counterexample). On `cmd >a >b` the token `>a` stands after the command name and has
the form `>T` with T = `a`, and the returned struct holds `b` in `redirects[1]`, not `a`: the
later token `>b` replaced the target.  On `a | >x b` the token `>x` stands first behind the
pipe: it is the command name of the second node, and no slot of that node is set. -/
theorem parse_two_truncate_tokens :
    tokens (c_str "cmd >a >b".toList) = ["cmd".toList, ">a".toList, ">b".toList] ∧
    (parse_command_checked (fun _ => zeroed) "cmd >a >b".toList zeroed).map
        (fun r => r.redirects 1) = some (some "b".toList) ∧
    (parse_command_checked (fun _ => zeroed) "cmd >a >b".toList zeroed).map
        (fun r => r.redirects 1) ≠ some (some "a".toList) ∧
    tokens (c_str "a | >x b".toList) = ["a".toList, "|".toList, ">x".toList, "b".toList] ∧
    ((parse_command_checked (fun _ => zeroed) "a | >x b".toList zeroed).bind
        command_t.next).map (fun r => (r.name, r.redirects 0, r.redirects 1, r.redirects 2,
          r.args)) =
      some (">x".toList, none, none, none, [some ">x".toList, some "b".toList, none]) := by
  refine ⟨by decide, by decide, by decide, by decide, ?_⟩
  rfl

/-- C4 (amended). For a line that `parse_command` parses without overrunning `temp_buf`, and
a token of the form `<T`, `>T` (T not starting with `>`) or `>>T` among the tokens that
follow the command name of a stage of the line, before the next pipe token (the first token
of the line and the first token behind a pipe are command names, whatever their form): the
token names slot 0, 1 or 2 and is shorter than 1024 bytes; one pass of the token loop over it
stores exactly T in that slot and changes nothing else, so the token adds no argument; the
chain has a node for the stage, the argument vector of that node is the one of the stage
without the token, and the slot of that node holds exactly T when no later token of the
stage names the same slot (a later token that names the slot replaces the target). -/
theorem parse_command_redirection_token (alloc : Nat → command_t) (buf : List Char)
    (command c0 : command_t) (j : Nat) (n0 : List Char) (pre post : List (List Char))
    (i : Fin 3) (tok T : List Char)
    (hrun : parse_command_checked alloc buf command = some c0)
    (hform : (i = 0 ∧ tok = '<' :: T) ∨ (i = 1 ∧ tok = '>' :: T ∧ T.head? ≠ some '>') ∨
      (i = 2 ∧ tok = '>' :: '>' :: T))
    (hst : stage_line j (tokens (c_str buf)) = some (n0 :: (pre ++ tok :: post)))
    (hpre : ∀ t ∈ pre, t ≠ ['|'])
    (sub : List Char → Option (command_t × List Char)) (fuel : Nat) (e : Char)
    (rest : List Char) (cmd : command_t) (he : is_splitter e = true ∨ e = NUL) :
    tok.length < 1024 ∧
    token_loop_checked sub (fuel + 1) (tok ++ e :: rest) cmd =
      token_loop_checked sub fuel (strtok_save (e :: rest))
        { cmd with redirects := fun k => if k = i then some T else cmd.redirects k } ∧
    ∃ c, (chain (j + 1) c0)[j]? = some c ∧
      c.name = n0 ∧
      c.args =
        some n0 :: (((pre ++ post.takeWhile (fun t => t != ['|'])).filter ordinary).map
          (fun t => some (stored_argument t)) ++ [none]) ∧
      ((∀ t ∈ post.takeWhile (fun t => t != ['|']), names_slot i t = false) →
        c.redirects i = some T) := by
  have hred : redirect_of tok = some (i, T) := by
    rcases hform with ⟨rfl, rfl⟩ | ⟨rfl, rfl, h⟩ | ⟨rfl, rfl⟩
    · simp [redirect_of]
    · rcases T with _ | ⟨a, T⟩
      · simp [redirect_of]
      · have : a ≠ '>' := by simpa using h
        simp [redirect_of, this]
    · simp [redirect_of]
  have hno : ordinary tok = false := by
    have := redirect_of_none_iff tok
    rw [hred] at this
    have h2 : is_redirection tok = true := by
      by_contra h
      simp only [Bool.not_eq_true] at h
      exact Option.noConfusion (this.2 h)
    simp [ordinary, h2]
  have hpipe : tok ≠ ['|'] := by
    intro e
    rw [e] at hred
    simp [redirect_of] at hred
  have hne : tok ≠ [] := by
    intro e
    rw [e] at hred
    simp [redirect_of] at hred
  have hargs : args_of (n0 :: (pre ++ tok :: post))
      = pre ++ tok :: post.takeWhile (fun t => t != ['|']) := by
    rw [args_of, List.tail_cons, takeWhile_pipe_append _ _ hpre,
      List.takeWhile_cons_of_pos (by simpa using hpipe)]
  have hshort : tok.length < 1024 :=
    parse_command_checked_fits alloc buf command c0 j _ hrun hst tok (by rw [hargs]; simp)
  obtain ⟨c, m, hc, hm, f1, f2, f4⟩ := stage_node_fields alloc buf command c0 j _ hrun hst
  have hw : ∀ c ∈ tok, is_splitter c = false ∧ c ≠ NUL :=
    token_chars m tok (by rw [hm]; simp)
  refine ⟨hshort, ?_, c, hc, ?_, ?_, ?_⟩
  · rw [token_loop_checked, strtok_word_at tok e rest hne hw he]
    simp only
    rw [if_pos ((fits_temp_buf_iff tok).2 hshort), trim_word tok (fun c hc => (hw c hc).1),
      if_neg hne, if_neg hpipe, process_arg_redirect cmd tok i T hred]
    rfl
  · rw [f1]; rfl
  · rw [f2, hargs]
    simp [List.filter_append, List.filter_cons, hno]
  · intro hpost
    rw [f4, hargs, List.foldl_append, List.foldl_cons, process_arg_redirect _ tok i T hred,
      foldl_process_arg_slot_kept _ i _ hpost]
    simp [set_redirect]

/-- C4 (amended) at the token `>>log` of the second stage of the line
`cat f | run -v >>log x`. -/
theorem parse_command_redirection_token_witness :
    ">>log".toList.length < 1024 ∧
    token_loop_checked (fun m => some (zeroed, m)) (0 + 1)
        (">>log".toList ++ ' ' :: "x".toList) zeroed =
      token_loop_checked (fun m => some (zeroed, m)) 0 (strtok_save (' ' :: "x".toList))
        { zeroed with redirects := fun k => if k = 2 then some "log".toList
                                            else zeroed.redirects k } ∧
    ∃ c, (chain (1 + 1)
        (parse_command (fun _ => zeroed) "cat f | run -v >>log x".toList zeroed))[1]? = some c ∧
      c.name = "run".toList ∧
      c.args =
        some "run".toList :: (((["-v".toList] ++
          ["x".toList].takeWhile (fun t => t != ['|'])).filter ordinary).map
          (fun t => some (stored_argument t)) ++ [none]) ∧
      ((∀ t ∈ ["x".toList].takeWhile (fun t => t != ['|']), names_slot 2 t = false) →
        c.redirects 2 = some "log".toList) :=
  parse_command_redirection_token (fun _ => zeroed) "cat f | run -v >>log x".toList zeroed
    (parse_command (fun _ => zeroed) "cat f | run -v >>log x".toList zeroed) 1
    "run".toList ["-v".toList] ["x".toList] 2 ">>log".toList "log".toList rfl
    (Or.inr (Or.inr ⟨rfl, rfl⟩)) (by decide) (by decide)
    (fun m => some (zeroed, m)) 0 ' ' "x".toList zeroed (Or.inl (by decide))

/-- C5 (the code, and the failing input). Whenever `parse_command` stays within `temp_buf`
(as it does when the tokens after the first are shorter than 1024 bytes and the last is not
a pipe), the argument vector of the head stage, and of the node of every further stage of
the line, is the name, then, for every ordinary argument token of the stage in order, its
stored form, then `NULL`; the stored form of a token longer than two
characters whose first and last character are the same quote character is the token without
exactly these two characters (one layer only), and the stored form of any other token is
the token itself.  An argument token of 1024 bytes or more in the head stage, behind tokens
that fit, is copied past the end of `temp_buf[1024]`; so it is on the line `ls` followed by
1024 times `a`, whose second token is an ordinary argument token. -/
theorem parse_command_stored_arguments (alloc : Nat → command_t) (buf : List Char)
    (command : command_t) :
    (∀ c, parse_command_checked alloc buf command = some c →
      c.args = some ((tokens (c_str buf)).headD []) ::
        (((stage_tokens (c_str buf)).filter ordinary).map (fun t => some (stored_argument t))
          ++ [none])) ∧
    (∀ (c0 : command_t) (j : Nat) (ts : List (List Char)),
      parse_command_checked alloc buf command = some c0 →
      stage_line j (tokens (c_str buf)) = some ts →
      ∃ c, (chain (j + 1) c0)[j]? = some c ∧
        c.args = some (ts.headD []) ::
          (((args_of ts).filter ordinary).map (fun t => some (stored_argument t)) ++ [none])) ∧
    ((∀ t ∈ (tokens (c_str buf)).tail, t.length < 1024) →
      (tokens (c_str buf)).tail.getLast? ≠ some ['|'] →
      ∃ c, parse_command_checked alloc buf command = some c) ∧
    (∀ (q : Char) (body : List Char), (q = '"' ∨ q = '\'') → body ≠ [] →
      stored_argument (q :: (body ++ [q])) = body) ∧
    (∀ t : List Char, t.length ≤ 2 → stored_argument t = t) ∧
    (∀ t : List Char, t.head? ≠ t.getLast? → stored_argument t = t) ∧
    (∀ t : List Char, t.head? ≠ some '"' → t.head? ≠ some '\'' → stored_argument t = t) ∧
    (parse_command_checked alloc "echo \"\"a\"\" \"b c\" 'd' \"\" \"e'".toList zeroed).map
        (fun r => r.args) =
      some [some "echo".toList, some "\"a\"".toList, some "\"b".toList, some "c\"".toList,
       some "d".toList, some "\"\"".toList, some "\"e'".toList, none] ∧
    (∀ (t0 : List Char) (pre : List (List Char)) (t : List Char) (post : List (List Char)),
      tokens (c_str buf) = t0 :: (pre ++ t :: post) →
      (∀ u ∈ pre, u ≠ ['|'] ∧ u.length < 1024) → 1024 ≤ t.length →
      parse_command_checked alloc buf command = none) ∧
    (stage_tokens (c_str ("ls ".toList ++ List.replicate 1024 'a')) = [List.replicate 1024 'a'] ∧
      ordinary (List.replicate 1024 'a') = true ∧
      parse_command_checked alloc ("ls ".toList ++ List.replicate 1024 'a') command = none) := by
  refine ⟨?_, ?_, ?_, stored_argument_wrapped, ?_, ?_, ?_, ?_, ?_, ?_, ?_,
    parse_ls_long_overruns alloc command⟩
  · intro c hc
    rw [parse_command_checked_eq alloc buf command c hc]
    exact (parse_command_fields alloc buf command).2.1
  · intro c0 j ts hrun hst
    obtain ⟨c, _, hc, _, _, f2, _⟩ := stage_node_fields alloc buf command c0 j ts hrun hst
    exact ⟨c, hc, f2⟩
  · intro hfit hlast
    exact ⟨_, parse_command_checked_some alloc buf command hfit hlast⟩
  · intro t ht
    have : ¬ 2 < t.length := by omega
    simp [stored_argument, quote_wrapped, this]
  · intro t ht
    unfold stored_argument quote_wrapped
    rw [if_neg]
    intro h
    simp only [Bool.and_eq_true, Bool.or_eq_true, beq_iff_eq, decide_eq_true_eq] at h
    rcases h.2 with ⟨h1, h2⟩ | ⟨h1, h2⟩
    · exact ht (h1.trans h2.symm)
    · exact ht (h1.trans h2.symm)
  · intro t h1 h2
    simp [stored_argument, quote_wrapped, h1, h2]
  · rw [parse_short_line alloc _ zeroed (by decide) (by decide),
      (parse_command_fields alloc _ zeroed).2.1]
    decide
  · intro t0 pre t post htok hpre ht
    exact parse_command_checked_long alloc buf command t0 pre t post htok hpre ht
  · rw [stage_tokens, tokens_ls_long]
    rfl
  · rfl

/-- C6 (counterexample). The line `&` has the single token `&`, and that token is in the
argument vector: it is the command name, which is copied to `args[0]`. -/
theorem parse_lone_ampersand_in_args :
    tokens (c_str "&".toList) = [['&']] ∧
    (parse_command (fun _ => zeroed) "&".toList zeroed).args = [some ['&'], none] ∧
    some ['&'] ∈ (parse_command (fun _ => zeroed) "&".toList zeroed).args ∧
    (parse_command_checked (fun _ => zeroed) "&".toList zeroed).map (fun r => r.args)
      = some [some ['&'], none] := by
  decide

/-- C6 (amended). For lines that `parse_command` parses without overrunning `temp_buf`: the
head command has `background` set exactly when the last character of the line after trimming
spaces and tabs is `&`; a token after the command name that is exactly `&` contributes
nothing to the argument vector, that is, deleting all such tokens from the line leaves the
vector unchanged; and `cmd &` yields `background` set with the arguments [cmd, NULL]. -/
theorem parse_command_ampersand (alloc : Nat → command_t) (line buf buf2 : List Char)
    (cl c c2 : command_t) (t0 : List Char) (ts : List (List Char))
    (hl : parse_command_checked alloc line zeroed = some cl)
    (hb : parse_command_checked alloc buf zeroed = some c)
    (hb2 : parse_command_checked alloc buf2 zeroed = some c2)
    (h1 : tokens (c_str buf) = t0 :: ts)
    (h2 : tokens (c_str buf2) = t0 :: ts.filter (fun t => t != ['&'])) :
    (cl.background = true ↔ (trim_right (trim_left (c_str line))).getLast? = some '&') ∧
    c.args = c2.args ∧
    (parse_command_checked alloc "cmd &".toList zeroed).map
        (fun r => (r.background, r.args)) = some (true, [some "cmd".toList, none]) := by
  rw [parse_command_checked_eq alloc line zeroed cl hl,
    parse_command_checked_eq alloc buf zeroed c hb,
    parse_command_checked_eq alloc buf2 zeroed c2 hb2]
  refine ⟨?_, ?_, ?_⟩
  · rw [(parse_command_fields alloc line zeroed).2.2.2.2.1]
    simp [start_command, mark_flags, zeroed]
  · rw [(parse_command_fields alloc buf zeroed).2.1,
      (parse_command_fields alloc buf2 zeroed).2.1, h1, h2]
    simp only [stage_tokens, h1, h2, List.tail_cons, List.headD_cons]
    rw [filter_ordinary_drop_amp]
  · rw [parse_short_line alloc _ zeroed (by decide) (by decide),
      (parse_command_fields alloc _ zeroed).2.2.2.2.1,
      (parse_command_fields alloc _ zeroed).2.1]
    decide

/-- C6 (amended) at the lines `sleep 5 &`, `cmd & x &` and `cmd x`. -/
theorem parse_command_ampersand_witness :
    ((parse_command (fun _ => stale_block) "sleep 5 &".toList zeroed).background = true ↔
      (trim_right (trim_left (c_str "sleep 5 &".toList))).getLast? = some '&') ∧
    (parse_command (fun _ => stale_block) "cmd & x &".toList zeroed).args
      = (parse_command (fun _ => stale_block) "cmd x".toList zeroed).args ∧
    (parse_command_checked (fun _ => stale_block) "cmd &".toList zeroed).map
        (fun r => (r.background, r.args)) = some (true, [some "cmd".toList, none]) :=
  parse_command_ampersand (fun _ => stale_block) "sleep 5 &".toList "cmd & x &".toList
    "cmd x".toList (parse_command (fun _ => stale_block) "sleep 5 &".toList zeroed)
    (parse_command (fun _ => stale_block) "cmd & x &".toList zeroed)
    (parse_command (fun _ => stale_block) "cmd x".toList zeroed)
    "cmd".toList [['&'], ['x'], ['&']] rfl rfl rfl (by decide) (by decide)

/-! ## Claims about `process_command` -/

theorem try_execv_not_returned (w : world) (path : List Char)
    (arr : List (Option (List Char))) (rest : List effect × outcome) (code : return_codes)
    (h : rest.2 ≠ outcome.returned code) :
    (try_execv w path arr rest).2 ≠ outcome.returned code := by
  unfold try_execv
  split
  · simp
  · exact h

theorem child_tail_not_returned (w : world) (command : command_t)
    (arr : List (Option (List Char))) (path e_path : List Char) (code : return_codes) :
    (child_tail w command arr path e_path).2 ≠ outcome.returned code := by
  unfold child_tail
  split
  · split
    · exact try_execv_not_returned _ _ _ _ _ (by simp)
    · simp
  · exact try_execv_not_returned _ _ _ _ _ (by simp)

/-- The child never returns from `process_command`: it ends in `exit` or in a new image. -/
theorem child_not_returned (w : world) (command : command_t) (code : return_codes) :
    (child w command).2 ≠ outcome.returned code := by
  unfold child
  split
  · exact try_execv_not_returned _ _ _ _ _ (child_tail_not_returned _ _ _ _ _ _)
  · exact try_execv_not_returned _ _ _ _ _ (by simp)
  · exact try_execv_not_returned _ _ _ _ _ (child_tail_not_returned _ _ _ _ _ _)
  · exact child_tail_not_returned _ _ _ _ _ _

theorem process_command_returned (w : world) (command : command_t) (code : return_codes)
    (h : (process_command w command).2 = outcome.returned code) :
    code = return_codes.SUCCESS ∨ (code = return_codes.EXIT ∧ command.name = "exit".toList) := by
  unfold process_command at h
  split at h
  · left; simpa using h.symm
  · split at h
    · right
      refine ⟨by simpa using h.symm, by assumption⟩
    · split at h
      · left; simpa using h.symm
      · split at h
        · left; simpa using h.symm
        · unfold spawn at h
          split at h
          · exact absurd h (child_not_returned w command code)
          · left; simpa using h.symm

/-- C7. `process_command` returns `SUCCESS` for every command with the empty name and `EXIT`
for every command named `exit`, in both cases with no effect at all (no builtin has run
and no process was spawned); and for every command it returns `EXIT` only when the name
is exactly `exit`. -/
theorem process_command_exit_only_for_exit (w : world) (command : command_t) :
    process_command w { command with name := [] }
      = ([], outcome.returned return_codes.SUCCESS) ∧
    process_command w { command with name := "exit".toList }
      = ([], outcome.returned return_codes.EXIT) ∧
    ((process_command w command).2 = outcome.returned return_codes.EXIT →
      command.name = "exit".toList) := by
  refine ⟨?_, ?_, ?_⟩
  · simp [process_command]
  · simp [process_command]
  · intro h
    rcases process_command_returned w command _ h with h1 | ⟨_, h2⟩
    · exact absurd h1 (by decide)
    · exact h2

/-- C8 (the code at the failing input). `process_command` never returns `UNKNOWN`: for
`nonexistent_cmd`, found in no directory of `PATH`, the shell process forks, waits and
returns `SUCCESS` (0, not 2), while the child prints the message and ends in `exit(0)`;
the loop of `main` goes on after `SUCCESS` as it would after `UNKNOWN`. -/
theorem process_command_unknown_unreachable (w : world) (command : command_t) :
    (process_command w command).2 ≠ outcome.returned return_codes.UNKNOWN ∧
    process_command lost_world
        (parse_command (fun _ => zeroed) "nonexistent_cmd".toList zeroed)
      = ([effect.fork, effect.wait], outcome.returned return_codes.SUCCESS) ∧
    process_command { lost_world with fork_pid := 0 }
        (parse_command (fun _ => zeroed) "nonexistent_cmd".toList zeroed)
      = ([effect.fork, effect.execv [] [some "nonexistent_cmd".toList, none, none],
          effect.not_found "nonexistent_cmd".toList], outcome.exited 0) ∧
    return_codes.SUCCESS.val = 0 ∧ return_codes.UNKNOWN.val = 2 ∧
    loop_continues return_codes.SUCCESS = true ∧
    loop_continues return_codes.UNKNOWN = true := by
  refine ⟨?_, by decide, by decide, rfl, rfl, rfl, rfl⟩
  intro h
  rcases process_command_returned w command _ h with h1 | ⟨h1, _⟩
  · exact absurd h1 (by decide)
  · exact absurd h1 (by decide)

theorem word_split (p : Char → Bool) (w : List Char) (e : Char) (rest : List Char)
    (hne : w ≠ []) (hw : ∀ c ∈ w, p c = false ∧ c ≠ NUL) (he : p e = true ∨ e = NUL) :
    (match (w ++ e :: rest).dropWhile p with
     | [] => none
     | c :: cs =>
       if c = NUL then none
       else some ((c :: cs).takeWhile (fun x => !p x && x != NUL),
                  (c :: cs).dropWhile (fun x => !p x && x != NUL))) = some (w, e :: rest) := by
  rcases w with _ | ⟨x, xs⟩
  · exact absurd rfl hne
  · have hx := hw x (List.mem_cons_self _ _)
    have hstop : (!p e && e != NUL) = false := by
      rcases he with h | h
      · simp [h]
      · simp [h]
    have hall : ∀ c ∈ x :: xs, (!p c && c != NUL) = true := by
      intro c hc
      obtain ⟨h1, h2⟩ := hw c hc
      simp [h1, h2]
    have ht : ((x :: xs) ++ e :: rest).takeWhile (fun c => !p c && c != NUL) = x :: xs := by
      rw [List.takeWhile_append_of_pos hall, List.takeWhile_cons_of_neg (by simp [hstop])]
      simp
    have hd : ((x :: xs) ++ e :: rest).dropWhile (fun c => !p c && c != NUL) = e :: rest := by
      rw [List.dropWhile_append_of_pos hall, List.dropWhile_cons_of_neg (by simp [hstop])]
    have h0 : ((x :: xs) ++ e :: rest).dropWhile p = (x :: xs) ++ e :: rest := by
      rw [List.cons_append, List.dropWhile_cons_of_neg (by simp [hx.1])]
    rw [h0]
    simp only [List.cons_append] at ht hd ⊢
    rw [if_neg hx.2, ht, hd]

theorem strtok_colon_word (w : List Char) (e : Char) (rest : List Char) (hne : w ≠ [])
    (hw : ∀ c ∈ w, c ≠ ':' ∧ c ≠ NUL) (he : e = ':' ∨ e = NUL) :
    strtok [':'] (w ++ e :: rest) = some (w, e :: rest) := by
  apply word_split (fun c => [':'].contains c) w e rest hne
  · intro c hc
    obtain ⟨h1, h2⟩ := hw c hc
    exact ⟨by simp [h1], h2⟩
  · rcases he with h | h
    · left; simp [h]
    · right; exact h

theorem strtok_colon_end (rest : List Char) : strtok [':'] (NUL :: rest) = none := by
  have h : (NUL :: rest).dropWhile (fun c => [':'].contains c) = NUL :: rest :=
    List.dropWhile_cons_of_neg (by decide)
  unfold strtok
  rw [h]
  simp

theorem intercalate_colon_cons (d : List Char) (ds : List (List Char)) :
    ∃ e rest, [':'].intercalate (d :: ds) ++ [NUL] = d ++ e :: rest ∧ (e = ':' ∨ e = NUL) ∧
      strtok_save (e :: rest) = [':'].intercalate ds ++ [NUL] := by
  rcases ds with _ | ⟨d2, ds⟩
  · refine ⟨NUL, [], ?_, Or.inr rfl, ?_⟩
    · simp [List.intercalate]
    · simp [strtok_save, List.intercalate]
  · refine ⟨':', [':'].intercalate (d2 :: ds) ++ [NUL], ?_, Or.inl rfl, ?_⟩
    · simp [List.intercalate]
    · have : ':' ≠ NUL := by decide
      simp [strtok_save, this]

/-- The search loop over the directories of `PATH`: the first directory that holds the
command gives both `path` and `e_path`. -/
theorem resolve_loop_dirs (access : List Char → Bool) (name : List Char) :
    ∀ (ds : List (List Char)) (d0 : List Char) (fuel : Nat) (e0 d : List Char),
      (∀ x ∈ ds, x ≠ [] ∧ ∀ c ∈ x, c ≠ ':' ∧ c ≠ NUL) → ds.length < fuel →
      (d0 :: ds).find? (fun x => access (x ++ '/' :: name)) = some d →
      resolve_loop access name fuel (some d0) ([':'].intercalate ds ++ [NUL]) e0 =
        (d ++ '/' :: name, d ++ '/' :: name) := by
  intro ds
  induction ds with
  | nil =>
    intro d0 fuel e0 d _ hf hfind
    cases fuel with
    | zero => exact absurd hf (Nat.not_lt_zero _)
    | succ n =>
      rw [resolve_loop]
      by_cases ha : access (d0 ++ '/' :: name) = true
      · simp only [List.find?_cons, ha] at hfind
        cases hfind
        simp [sprintf_path, ha]
      · simp [List.find?_cons, ha] at hfind
  | cons d1 ds ih =>
    intro d0 fuel e0 d hds hf hfind
    cases fuel with
    | zero => exact absurd hf (Nat.not_lt_zero _)
    | succ n =>
      rw [resolve_loop]
      by_cases ha : access (d0 ++ '/' :: name) = true
      · simp only [List.find?_cons, ha] at hfind
        cases hfind
        simp [sprintf_path, ha]
      · simp only [Bool.not_eq_true] at ha
        rw [List.find?_cons, ha] at hfind
        simp only at hfind
        have ha2 : access (sprintf_path (some d0) name) = false := by
          simpa [sprintf_path] using ha
        obtain ⟨e, rest, h1, h2, h3⟩ := intercalate_colon_cons d1 ds
        obtain ⟨hne, hw⟩ := hds d1 (List.mem_cons_self _ _)
        rw [ha2, h1, strtok_colon_word d1 e rest hne hw h2]
        simp only [Bool.false_eq_true, ↓reduceIte]
        rw [h3]
        exact ih d1 n e0 d (fun x hx => hds x (List.mem_cons_of_mem _ hx))
          (by simpa using hf) hfind

theorem intercalate_length (ds : List (List Char)) (hds : ∀ x ∈ ds, x ≠ []) :
    ds.length ≤ ([':'].intercalate ds).length + 1 := by
  induction ds with
  | nil => simp
  | cons d ds ih =>
    have hd : 0 < d.length := List.length_pos.2 (hds d (List.mem_cons_self _ _))
    have := ih (fun x hx => hds x (List.mem_cons_of_mem _ hx))
    rcases ds with _ | ⟨d2, ds⟩
    · simp [List.intercalate]
    · simp [List.intercalate] at this ⊢
      omega

theorem intercalate_no_NUL (ds : List (List Char)) (hds : ∀ x ∈ ds, ∀ c ∈ x, c ≠ NUL) :
    ∀ c ∈ [':'].intercalate ds, c ≠ NUL := by
  induction ds with
  | nil => intro c hc; simp [List.intercalate] at hc
  | cons d ds ih =>
    intro c hc
    have ih2 := ih (fun x hx => hds x (List.mem_cons_of_mem _ hx))
    rcases ds with _ | ⟨d2, ds⟩
    · simp [List.intercalate] at hc
      exact hds d (List.mem_cons_self _ _) c hc
    · have e : [':'].intercalate (d :: d2 :: ds)
          = d ++ ':' :: [':'].intercalate (d2 :: ds) := by
        simp [List.intercalate]
      rw [e] at hc
      rcases List.mem_append.1 hc with h | h
      · exact hds d (List.mem_cons_self _ _) c h
      · rcases List.mem_cons.1 h with rfl | h
        · decide
        · exact ih2 c h

theorem resolve_dirs (w : world) (name : List Char) (dirs : List (List Char)) (d : List Char)
    (hdirs : ∀ x ∈ dirs, x ≠ [] ∧ ∀ c ∈ x, c ≠ ':' ∧ c ≠ NUL)
    (hPATH : w.PATH = [':'].intercalate dirs)
    (hfind : dirs.find? (fun x => w.access (x ++ '/' :: name)) = some d) :
    resolve w name = (d ++ '/' :: name, d ++ '/' :: name) := by
  rcases dirs with _ | ⟨d1, ds⟩
  · simp at hfind
  · have hnn := intercalate_no_NUL (d1 :: ds) (fun x hx c hc => (hdirs x hx).2 c hc |>.2)
    have hc : c_str w.PATH = [':'].intercalate (d1 :: ds) := by
      rw [hPATH]; exact c_str_of_no_NUL _ hnn
    obtain ⟨e, rest, h1, h2, h3⟩ := intercalate_colon_cons d1 ds
    obtain ⟨hne, hw⟩ := hdirs d1 (List.mem_cons_self _ _)
    have hlen := intercalate_length (d1 :: ds) (fun x hx => (hdirs x hx).1)
    unfold resolve
    rw [hc, h1, strtok_colon_word d1 e rest hne hw h2]
    simp only [Option.map_some']
    rw [h3]
    apply resolve_loop_dirs w.access name ds d1 _ _ d
      (fun x hx => hdirs x (List.mem_cons_of_mem _ hx)) _ hfind
    simp only [List.length_cons] at hlen
    omega

theorem mem_try_execv (w : world) (path : List Char) (arr : List (Option (List Char)))
    (rest : List effect × outcome) (p : List Char) (argv : List (Option (List Char)))
    (h : effect.execv p argv ∈ (try_execv w path arr rest).1) :
    p = path ∨ effect.execv p argv ∈ rest.1 := by
  unfold try_execv at h
  split at h
  · left
    simp only [List.mem_singleton, effect.execv.injEq] at h
    exact h.1
  · rcases List.mem_cons.1 h with h | h
    · left
      simp only [effect.execv.injEq] at h
      exact h.1
    · right; exact h

theorem try_execv_has (w : world) (path : List Char) (arr : List (Option (List Char)))
    (rest : List effect × outcome) : effect.execv path arr ∈ (try_execv w path arr rest).1 := by
  unfold try_execv
  split <;> simp

/-! ## The path search within the bounds of its buffers -/

theorem fits_path_buf_iff (text : List Char) :
    fits_path_buf text = true ↔ text.length < 1024 := by
  unfold fits_path_buf
  rw [decide_eq_true_iff]
  omega

theorem resolve_loop_checked_eq (access : List Char → Bool) (name : List Char) :
    ∀ (fuel : Nat) (token : Option (List Char)) (save e_path : List Char)
      (r : List Char × List Char),
      resolve_loop_checked access name fuel token save e_path = some r →
      r = resolve_loop access name fuel token save e_path := by
  intro fuel
  induction fuel with
  | zero =>
    intro token save e_path r h
    rw [resolve_loop_checked] at h
    split at h
    · exact (Option.some.inj h).symm
    · exact Option.noConfusion h
  | succ n ih =>
    intro token save e_path r h
    rw [resolve_loop_checked] at h
    rw [resolve_loop]
    split at h
    · split at h
      · rename_i ha
        rw [if_pos ha]
        exact (Option.some.inj h).symm
      · rename_i ha
        rw [if_neg ha]
        rcases hst : strtok [':'] save with _ | ⟨tok, tail⟩
        · rw [hst] at h
          exact (Option.some.inj h).symm
        · rw [hst] at h
          exact ih _ _ _ _ h
    · exact Option.noConfusion h

/-- A path search that stays within its buffers leaves what `resolve` gives. -/
theorem resolve_checked_eq (w : world) (name : List Char) (r : List Char × List Char)
    (h : resolve_checked w name = some r) : r = resolve w name := by
  unfold resolve_checked at h
  split at h
  · exact resolve_loop_checked_eq _ _ _ _ _ _ _ h
  · exact Option.noConfusion h

/-- The search loop stays within `path[1024]` when `dir/name` fits for every directory. -/
theorem resolve_loop_checked_dirs (access : List Char → Bool) (name : List Char) :
    ∀ (ds : List (List Char)) (d0 : List Char) (fuel : Nat) (e0 : List Char),
      (∀ x ∈ ds, x ≠ [] ∧ ∀ c ∈ x, c ≠ ':' ∧ c ≠ NUL) →
      (∀ x ∈ d0 :: ds, (x ++ '/' :: name).length < 1024) →
      (resolve_loop_checked access name fuel (some d0) ([':'].intercalate ds ++ [NUL])
        e0).isSome = true := by
  intro ds
  induction ds with
  | nil =>
    intro d0 fuel e0 _ hfit
    have h0 : fits_path_buf (sprintf_path (some d0) name) = true :=
      (fits_path_buf_iff _).2 (hfit d0 (List.mem_cons_self _ _))
    cases fuel with
    | zero => rw [resolve_loop_checked, if_pos h0]; rfl
    | succ n =>
      rw [resolve_loop_checked, if_pos h0]
      split
      · rfl
      · have : strtok [':'] ([':'].intercalate ([] : List (List Char)) ++ [NUL]) = none := by
          decide
        rw [this]
        rfl
  | cons d1 ds ih =>
    intro d0 fuel e0 hds hfit
    have h0 : fits_path_buf (sprintf_path (some d0) name) = true :=
      (fits_path_buf_iff _).2 (hfit d0 (List.mem_cons_self _ _))
    cases fuel with
    | zero => rw [resolve_loop_checked, if_pos h0]; rfl
    | succ n =>
      rw [resolve_loop_checked, if_pos h0]
      split
      · rfl
      · obtain ⟨e, rest, h1, h2, h3⟩ := intercalate_colon_cons d1 ds
        obtain ⟨hne, hw⟩ := hds d1 (List.mem_cons_self _ _)
        rw [h1, strtok_colon_word d1 e rest hne hw h2]
        simp only
        rw [h3]
        exact ih d1 n e0 (fun x hx => hds x (List.mem_cons_of_mem _ hx))
          (fun x hx => hfit x (List.mem_cons_of_mem _ hx))

/-- The path search stays within its buffers when `PATH` is shorter than 1024 bytes and
`dir/name` is shorter than 1024 bytes for every directory. -/
theorem resolve_checked_dirs (w : world) (name : List Char) (dirs : List (List Char))
    (hdirs : ∀ x ∈ dirs, x ≠ [] ∧ ∀ c ∈ x, c ≠ ':' ∧ c ≠ NUL)
    (hPATH : w.PATH = [':'].intercalate dirs) (hne : dirs ≠ [])
    (hlen : w.PATH.length < 1024)
    (hfit : ∀ x ∈ dirs, (x ++ '/' :: name).length < 1024) :
    resolve_checked w name = some (resolve w name) := by
  have hsome : (resolve_checked w name).isSome = true := by
    rcases dirs with _ | ⟨d1, ds⟩
    · exact absurd rfl hne
    · have hnn := intercalate_no_NUL (d1 :: ds) (fun x hx c hc => (hdirs x hx).2 c hc |>.2)
      have hc : c_str w.PATH = [':'].intercalate (d1 :: ds) := by
        rw [hPATH]; exact c_str_of_no_NUL _ hnn
      obtain ⟨e, rest, h1, h2, h3⟩ := intercalate_colon_cons d1 ds
      obtain ⟨hne1, hw⟩ := hdirs d1 (List.mem_cons_self _ _)
      unfold resolve_checked
      rw [if_pos ((fits_path_buf_iff _).2 (by rw [hc, ← hPATH]; exact hlen)), hc, h1,
        strtok_colon_word d1 e rest hne1 hw h2]
      simp only [Option.map_some']
      rw [h3]
      exact resolve_loop_checked_dirs w.access name ds d1 _ _
        (fun x hx => hdirs x (List.mem_cons_of_mem _ hx)) hfit
  obtain ⟨r, hr⟩ := Option.isSome_iff_exists.1 hsome
  rw [hr, resolve_checked_eq w name r hr]

theorem resolve_checked_long (w : world) (name : List Char)
    (h : 1024 ≤ (c_str w.PATH).length) : resolve_checked w name = none := by
  unfold resolve_checked
  rw [if_neg]
  rw [fits_path_buf_iff]
  omega

/-- The length of a colon-joined list of copies of one directory. -/
theorem intercalate_replicate_length (d : List Char) :
    ∀ n : Nat, ([':'].intercalate (List.replicate (n + 1) d)).length
      = (n + 1) * d.length + n := by
  intro n
  induction n with
  | zero => simp [List.intercalate]
  | succ n ih =>
    have e : [':'].intercalate (List.replicate (n + 1 + 1) d)
        = d ++ ':' :: [':'].intercalate (List.replicate (n + 1) d) := by
      simp [List.intercalate, List.replicate_succ]
    rw [e, List.length_append, List.length_cons, ih]
    ring

/-- The path search on `long_path_world` overruns `pathcpy[1024]`. -/
theorem long_path_world_overruns (command : command_t) :
    long_path_world.PATH.length = 1025 ∧
    child_checked long_path_world command = none := by
  have hlen : long_path_world.PATH.length = 1025 := by
    show ([':'].intercalate (List.replicate (113 + 1) "/usr/bin".toList)).length = 1025
    rw [intercalate_replicate_length]
    rfl
  have hlong : c_str long_path_world.PATH = long_path_world.PATH := by
    apply c_str_of_no_NUL
    apply intercalate_no_NUL
    intro x hx c hc
    rw [List.eq_of_mem_replicate hx] at hc
    revert c
    decide
  refine ⟨hlen, ?_⟩
  unfold child_checked
  rw [resolve_checked_long long_path_world command.name (by rw [hlong, hlen]; omega)]
  rfl

/-- C9 (the code, and the failing input). For every colon-delimited search path with
non-empty directories, every command name and every file-existence test such that the
command exists in some directory: when `PATH` is shorter than 1024 bytes and `dir/name` is
shorter than 1024 bytes for every directory, the child stays within its buffers, and in the
foreground case every `execv` of the child is on `d/name` for the first directory `d` in
which the command exists (the directories before `d` do not hold it), and the child does
call `execv` on that path; when `PATH` has 1024 bytes or more, `strcpy(pathcpy, shellPath)`
writes past `pathcpy[1024]`.  A `PATH` that lists `/usr/bin` 114 times (1025 bytes) is of
the second kind. -/
theorem child_execv_first_match (w : world) (command : command_t) (dirs : List (List Char))
    (hdirs : ∀ x ∈ dirs, x ≠ [] ∧ ∀ c ∈ x, c ≠ ':' ∧ c ≠ NUL)
    (hPATH : w.PATH = [':'].intercalate dirs)
    (hex : ∃ x ∈ dirs, w.access (x ++ '/' :: command.name) = true)
    (hfg : command.background = false) :
    (w.PATH.length < 1024 → (∀ x ∈ dirs, (x ++ '/' :: command.name).length < 1024) →
      child_checked w command = some (child w command) ∧
      ∃ (before : List (List Char)) (d : List Char) (after : List (List Char)),
        dirs = before ++ d :: after ∧
        (∀ x ∈ before, w.access (x ++ '/' :: command.name) = false) ∧
        w.access (d ++ '/' :: command.name) = true ∧
        (∃ argv, effect.execv (d ++ '/' :: command.name) argv ∈ (child w command).1) ∧
        (∀ p argv, effect.execv p argv ∈ (child w command).1 →
          p = d ++ '/' :: command.name)) ∧
    (1024 ≤ w.PATH.length → child_checked w command = none) ∧
    (long_path_world.PATH = [':'].intercalate (List.replicate 114 "/usr/bin".toList) ∧
      long_path_world.PATH.length = 1025 ∧
      long_path_world.access ("/usr/bin".toList ++ '/' :: command.name) = true ∧
      child_checked long_path_world command = none) := by
  have hnn := intercalate_no_NUL dirs (fun x hx c hc => (hdirs x hx).2 c hc |>.2)
  have hcs : c_str w.PATH = w.PATH := by
    rw [hPATH]; exact c_str_of_no_NUL _ hnn
  refine ⟨?_, ?_, rfl, (long_path_world_overruns command).1, rfl,
    (long_path_world_overruns command).2⟩
  · intro hshort hfit
    obtain ⟨x, hx, hax⟩ := hex
    have hne : dirs ≠ [] := List.ne_nil_of_mem hx
    constructor
    · unfold child_checked
      rw [resolve_checked_dirs w command.name dirs hdirs hPATH hne hshort hfit]
      rfl
    · rcases hfind : dirs.find? (fun x => w.access (x ++ '/' :: command.name)) with _ | d
      · rw [List.find?_eq_none] at hfind
        exact absurd hax (hfind x hx)
      · have hres := resolve_dirs w command.name dirs d hdirs hPATH hfind
        obtain ⟨hd, before, after, hsplit, hbefore⟩ := List.find?_eq_some.1 hfind
        refine ⟨before, d, after, hsplit, ?_, hd, ?_, ?_⟩
        · intro y hy
          simpa using hbefore y hy
        · refine ⟨command.args.take command.arg_count ++ [none], ?_⟩
          unfold child
          simp only [hres]
          split
          · exact List.mem_cons_of_mem _ (List.mem_cons_of_mem _ (try_execv_has _ _ _ _))
          · exact List.mem_cons_of_mem _ (List.mem_cons_of_mem _ (try_execv_has _ _ _ _))
          · exact List.mem_cons_of_mem _ (List.mem_cons_of_mem _ (try_execv_has _ _ _ _))
          · unfold child_tail
            rw [hfg]
            exact try_execv_has _ _ _ _
        · intro p argv hp
          have htail : ∀ arr, effect.execv p argv ∈
              (child_tail w command arr (d ++ '/' :: command.name)
                (d ++ '/' :: command.name)).1 →
              p = d ++ '/' :: command.name := by
            intro arr h
            unfold child_tail at h
            rw [hfg] at h
            rcases mem_try_execv _ _ _ _ _ _ h with h | h
            · exact h
            · simp at h
          unfold child at hp
          simp only [hres] at hp
          split at hp
          · simp only [List.mem_cons, reduceCtorEq, false_or] at hp
            rcases mem_try_execv _ _ _ _ _ _ hp with h | h
            · exact h
            · exact htail _ h
          · simp only [List.mem_cons, reduceCtorEq, false_or] at hp
            rcases mem_try_execv _ _ _ _ _ _ hp with h | h
            · exact h
            · simp at h
          · simp only [List.mem_cons, reduceCtorEq, false_or] at hp
            rcases mem_try_execv _ _ _ _ _ _ hp with h | h
            · exact h
            · exact htail _ h
          · exact htail _ hp
  · intro hl
    unfold child_checked
    rw [resolve_checked_long w command.name (by rw [hcs]; exact hl)]
    rfl

/-- C9 at `PATH=/usr/bin:/bin` with `ls` present in `/bin` only. -/
theorem child_execv_first_match_witness :
    child_checked found_world (parse_command (fun _ => zeroed) "ls".toList zeroed)
      = some (child found_world (parse_command (fun _ => zeroed) "ls".toList zeroed)) ∧
    ∃ (before : List (List Char)) (d : List Char) (after : List (List Char)),
      ["/usr/bin".toList, "/bin".toList] = before ++ d :: after ∧
      (∀ x ∈ before, found_world.access (x ++ '/' ::
        (parse_command (fun _ => zeroed) "ls".toList zeroed).name) = false) ∧
      found_world.access (d ++ '/' ::
        (parse_command (fun _ => zeroed) "ls".toList zeroed).name) = true ∧
      (∃ argv, effect.execv (d ++ '/' ::
          (parse_command (fun _ => zeroed) "ls".toList zeroed).name) argv ∈
        (child found_world (parse_command (fun _ => zeroed) "ls".toList zeroed)).1) ∧
      (∀ p argv, effect.execv p argv ∈
          (child found_world (parse_command (fun _ => zeroed) "ls".toList zeroed)).1 →
        p = d ++ '/' :: (parse_command (fun _ => zeroed) "ls".toList zeroed).name) :=
  (child_execv_first_match found_world (parse_command (fun _ => zeroed) "ls".toList zeroed)
    ["/usr/bin".toList, "/bin".toList] (by decide) (by decide)
    ⟨"/bin".toList, by decide, by decide⟩ (by decide)).1 (by decide) (by decide)

/-! ## Claims about `prompt` -/

theorem prompt_loop_eof (fuel : Nat) :
    ∀ (ed : editor), 4095 - ed.index < fuel → ∃ e, prompt_loop fuel [] ed = some e := by
  induction fuel with
  | zero => intro ed h; exact absurd h (Nat.not_lt_zero _)
  | succ n ih =>
    intro ed h
    rw [prompt_loop]
    have h255 : (getchar []).1.toNat = 255 := by decide
    have hn : (getchar []).1 ≠ '\n' := by decide
    simp only [h255, hn]
    simp only [Nat.reduceEqDiff, ↓reduceIte, false_or, or_self]
    by_cases hfull : ed.index + 1 ≥ 4096 - 1
    · rw [if_pos hfull]; exact ⟨_, rfl⟩
    · rw [if_neg hfull]
      apply ih
      simp only
      omega

/-- The read loop ends for every input: the fuel `prompt` supplies is enough. -/
theorem prompt_loop_total (keys : List Char) :
    ∀ (fuel : Nat) (ed : editor), keys.length + 4095 < fuel →
      ∃ e, prompt_loop fuel keys ed = some e := by
  induction keys with
  | nil =>
    intro fuel ed h
    apply prompt_loop_eof
    simp only [List.length_nil] at h
    omega
  | cons k ks ih =>
    intro fuel ed h
    cases fuel with
    | zero => exact absurd h (Nat.not_lt_zero _)
    | succ n =>
      have hn : ks.length + 4095 < n := by
        simp only [List.length_cons] at h
        omega
      rw [prompt_loop]
      simp only [getchar]
      split
      · exact ⟨_, rfl⟩
      · split
        · exact ih _ _ hn
        · split
          · exact ih _ _ hn
          · split
            · exact ih _ _ hn
            · split
              · exact ⟨_, rfl⟩
              · split
                · exact ⟨_, rfl⟩
                · split
                  · exact ⟨_, rfl⟩
                  · exact ih _ _ hn

/-- C10 (the code at the failing input). Every `prompt` call returns, with `SUCCESS` or
`EXIT`.  When it returns `SUCCESS` (Enter, Tab, buffer full) the terminal has the
attributes saved at entry; when it returns `EXIT` (Ctrl-D) the terminal still has the
attributes of `new_termios`, with `ICANON` and `ECHO` cleared.  With the Linux masks, a
terminal in line mode and the single key Ctrl-D, the flags at return are 0x8a31, not the
saved 0x8a3b. -/
theorem prompt_ctrl_d_keeps_raw_mode (ICANON ECHO : Nat) (alloc : Nat → command_t)
    (stack : List Char) (s : session) (keys : List Char) (command : command_t) :
    (∃ r, prompt ICANON ECHO alloc stack s keys command = some r ∧
      (r.code = return_codes.SUCCESS ∨ r.code = return_codes.EXIT) ∧
      (r.code = return_codes.SUCCESS → r.after.tty = s.tty) ∧
      (r.code = return_codes.EXIT → r.after.tty = raw_mode ICANON ECHO s.tty)) ∧
    (∃ r, prompt 2 8 alloc stack cooked_session [Char.ofNat 4] command = some r ∧
      r.code = return_codes.EXIT ∧ r.after.tty.c_lflag = 0x8a31 ∧
      r.after.tty ≠ cooked_session.tty) := by
  constructor
  · obtain ⟨e, he⟩ := prompt_loop_total keys (keys.length + 4096)
      { buf := poke stack 0 NUL, index := 0, oldbuf := s.oldbuf } (by omega)
    unfold prompt
    rw [he]
    cases hc : e.ctrl_d
    · refine ⟨prompt_finish alloc s.tty e command, by simp [hc], Or.inl rfl, fun _ => rfl, ?_⟩
      intro h
      exact absurd h (by simp [prompt_finish])
    · refine ⟨{ code := return_codes.EXIT,
                after := { tty := raw_mode ICANON ECHO s.tty, oldbuf := e.ed.oldbuf },
                command := command, keys := e.keys }, by simp [hc], Or.inr rfl, ?_, fun _ => rfl⟩
      intro h
      exact absurd h (by simp)
  · refine ⟨{ code := return_codes.EXIT,
              after := { tty := raw_mode 2 8 cooked_session.tty, oldbuf := [] },
              command := command,
              keys := [] }, ?_, rfl, ?_, ?_⟩
    · unfold prompt
      rw [prompt_loop]
      have h4 : (getchar [Char.ofNat 4]).1.toNat = 4 := by decide
      have hn : (getchar [Char.ofNat 4]).1 ≠ '\n' := by decide
      have h2 : (getchar [Char.ofNat 4]).2 = [] := rfl
      simp only [h4, hn, h2]
      simp [cooked_session]
    · show (raw_mode 2 8 cooked_session.tty).c_lflag = 0x8a31
      decide
    · show raw_mode 2 8 cooked_session.tty ≠ cooked_session.tty
      decide


/-! ## The read loop of `prompt`, key by key -/

theorem prompt_loop_step (fuel : Nat) (c : Char) (ks : List Char) (ed : editor)
    (h9 : c.toNat ≠ 9) (hn : c ≠ '\n') (h4 : c.toNat ≠ 4) (hroom : ed.index < 4094) :
    prompt_loop (fuel + 1) (c :: ks) ed = prompt_loop fuel ks (key_step ed c) := by
  rw [prompt_loop]
  simp only [getchar, key_step]
  rw [if_neg h9]
  split
  · rfl
  · split
    · rfl
    · split
      · rfl
      · rw [if_neg (by omega)]

theorem typed_nil (ed : editor) : typed ed [] = ed := rfl

theorem typed_cons (ed : editor) (c : Char) (ks : List Char) :
    typed ed (c :: ks) = typed (key_step ed c) ks := rfl

theorem typed_append (ed : editor) (ks1 ks2 : List Char) :
    typed ed (ks1 ++ ks2) = typed (typed ed ks1) ks2 := by
  simp [typed, List.foldl_append]

theorem prompt_loop_typed : ∀ (pre : List Char) (fuel : Nat) (ed : editor) (rest : List Char),
    (∀ c ∈ pre, c.toNat ≠ 9 ∧ c ≠ '\n' ∧ c.toNat ≠ 4) →
    (∀ n, n < pre.length → (typed ed (pre.take n)).index < 4094) →
    prompt_loop (fuel + pre.length) (pre ++ rest) ed = prompt_loop fuel rest (typed ed pre) := by
  intro pre
  induction pre with
  | nil => intro fuel ed rest _ _; rfl
  | cons c ks ih =>
    intro fuel ed rest hpre hroom
    have hc := hpre c (List.mem_cons_self _ _)
    have h0 : ed.index < 4094 := by
      have := hroom 0 (by simp)
      simpa [typed_nil] using this
    rw [List.length_cons, ← Nat.add_assoc, List.cons_append,
      prompt_loop_step _ _ _ _ hc.1 hc.2.1 hc.2.2 h0, typed_cons]
    apply ih
    · intro x hx; exact hpre x (List.mem_cons_of_mem _ hx)
    · intro n hn
      have := hroom (n + 1) (by simpa using hn)
      simpa [typed_cons] using this

theorem prompt_loop_ctrl_d (fuel : Nat) (post : List Char) (ed : editor)
    (hroom : ed.index < 4094) :
    prompt_loop (fuel + 1) (Char.ofNat 4 :: post) ed =
      some { ctrl_d := true,
             ed := { ed with buf := poke ed.buf ed.index (Char.ofNat 4), index := ed.index + 1 },
             keys := post } := by
  rw [prompt_loop]
  simp only [getchar]
  have h4 : (Char.ofNat 4).toNat = 4 := by decide
  have hn : Char.ofNat 4 ≠ '\n' := by decide
  simp only [h4, hn]
  rw [if_neg (by decide), if_neg (by decide), if_neg (by decide), if_neg (by decide),
    if_neg (by omega)]
  simp

theorem key_step_oldbuf (ed : editor) (c : Char) (h : c.toNat ≠ 65) :
    (key_step ed c).oldbuf = ed.oldbuf := by
  unfold key_step
  split
  · rfl
  · split
    · rfl
    · rfl

theorem typed_oldbuf : ∀ (keys : List Char) (ed : editor), (∀ c ∈ keys, c.toNat ≠ 65) →
    (typed ed keys).oldbuf = ed.oldbuf := by
  intro keys
  induction keys with
  | nil => intro ed _; rfl
  | cons c ks ih =>
    intro ed h
    rw [typed_cons, ih _ (fun x hx => h x (List.mem_cons_of_mem _ hx)),
      key_step_oldbuf _ _ (h c (List.mem_cons_self _ _))]

theorem prompt_exit_at (ICANON ECHO : Nat) (alloc : Nat → command_t) (stack : List Char)
    (s : session) (p1 post : List Char) (command : command_t)
    (hp1 : ∀ c ∈ p1, c.toNat ≠ 9 ∧ c ≠ '\n' ∧ c.toNat ≠ 4)
    (hroom : ∀ n, n ≤ p1.length → (typed (fresh_editor stack s) (p1.take n)).index < 4094) :
    prompt ICANON ECHO alloc stack s (p1 ++ Char.ofNat 4 :: post) command =
      some { code := return_codes.EXIT,
             after := { tty := raw_mode ICANON ECHO s.tty,
                        oldbuf := (typed (fresh_editor stack s) p1).oldbuf },
             command := command,
             keys := post } := by
  have hfuel : (p1 ++ Char.ofNat 4 :: post).length + 4096
      = (post.length + 4096 + 1) + p1.length := by
    simp only [List.length_append, List.length_cons]; omega
  have hlast : (typed (fresh_editor stack s) p1).index < 4094 := by
    have := hroom p1.length (Nat.le_refl _)
    simpa using this
  unfold prompt
  rw [hfuel]
  show (match prompt_loop (post.length + 4096 + 1 + p1.length) (p1 ++ Char.ofNat 4 :: post)
      (fresh_editor stack s) with
    | none => none
    | some e => _) = _
  rw [prompt_loop_typed p1 _ _ _ hp1 (fun n hn => hroom n (Nat.le_of_lt hn)),
    prompt_loop_ctrl_d _ _ _ hlast]
  rfl

theorem char_of_toNat (c : Char) (n : Nat) (h : c.toNat = n) : c = Char.ofNat n := by
  rw [← h, Char.ofNat_toNat]

theorem split_at_ctrl_d : ∀ (pre : List Char), (∃ c ∈ pre, c.toNat = 4) →
    ∃ p1 p2, pre = p1 ++ Char.ofNat 4 :: p2 ∧ ∀ c ∈ p1, c.toNat ≠ 4 := by
  intro pre
  induction pre with
  | nil => intro h; simp at h
  | cons a l ih =>
    intro h
    by_cases ha : a.toNat = 4
    · exact ⟨[], l, by simp [char_of_toNat a 4 ha], by simp⟩
    · obtain ⟨c, hc, hc4⟩ := h
      have hcl : c ∈ l := by
        rcases List.mem_cons.1 hc with h1 | h1
        · exact absurd (h1 ▸ hc4) ha
        · exact h1
      obtain ⟨p1, p2, he, hp⟩ := ih ⟨c, hcl, hc4⟩
      refine ⟨a :: p1, p2, by simp [he], ?_⟩
      intro x hx
      rcases List.mem_cons.1 hx with h1 | h1
      · exact h1 ▸ ha
      · exact hp x h1

theorem key_step_index_le (ed : editor) (c : Char) (h : c.toNat ≠ 65) :
    (key_step ed c).index ≤ ed.index + 1 := by
  unfold key_step
  split
  · simp only; omega
  · split
    · omega
    · exact Nat.le_refl _

/-- Without the byte 65 the write position grows by at most one for each key. -/
theorem typed_index_le : ∀ (keys : List Char) (ed : editor), (∀ c ∈ keys, c.toNat ≠ 65) →
    (typed ed keys).index ≤ ed.index + keys.length := by
  intro keys
  induction keys with
  | nil => intro ed _; exact Nat.le_refl _
  | cons c ks ih =>
    intro ed h
    rw [typed_cons]
    have h1 := ih (key_step ed c) (fun x hx => h x (List.mem_cons_of_mem _ hx))
    have h2 := key_step_index_le ed c (h c (List.mem_cons_self _ _))
    simp only [List.length_cons]
    omega

/-- Fewer than 4094 keys, none of them the byte 65, never fill the buffer. -/
theorem typed_room_of_short (stack : List Char) (s : session) (pre : List Char)
    (h65 : ∀ c ∈ pre, c.toNat ≠ 65) (hlen : pre.length < 4094) :
    ∀ n, n ≤ pre.length → (typed (fresh_editor stack s) (pre.take n)).index < 4094 := by
  intro n hn
  have h := typed_index_le (pre.take n) (fresh_editor stack s)
    (fun c hc => h65 c (List.mem_of_mem_take hc))
  have h0 : (fresh_editor stack s).index = 0 := rfl
  simp only [List.length_take] at h
  omega

/-! ## Claims about Ctrl-D and the history slot -/

/-- A key that is written to the buffer when only one free place is left ends the loop by
the `break` of the buffer-full test, before the tests for Enter and Ctrl-D are reached. -/
theorem prompt_loop_full (fuel : Nat) (c : Char) (ks : List Char) (ed : editor)
    (h9 : c.toNat ≠ 9) (h127 : c.toNat ≠ 127)
    (hesc : ¬(c.toNat = 27 ∨ c.toNat = 91 ∨ c.toNat = 66 ∨ c.toNat = 67 ∨ c.toNat = 68))
    (h65 : c.toNat ≠ 65) (hfull : 4094 ≤ ed.index) :
    prompt_loop (fuel + 1) (c :: ks) ed =
      some { ctrl_d := false,
             ed := { ed with buf := poke ed.buf ed.index c, index := ed.index + 1 },
             keys := ks } := by
  rw [prompt_loop]
  simp only [getchar]
  rw [if_neg h9, if_neg h127, if_neg hesc, if_neg h65, if_pos (by omega)]

theorem typed_replicate_index : ∀ (n : Nat) (ed : editor),
    (typed ed (List.replicate n 'x')).index = ed.index + n := by
  intro n
  induction n with
  | zero => intro ed; rfl
  | succ k ih =>
    intro ed
    rw [List.replicate_succ, typed_cons, ih]
    have hx : (key_step ed 'x').index = ed.index + 1 := by
      unfold key_step
      rw [if_neg (by decide), if_neg (by decide), if_neg (by decide)]
    omega

/-- A Ctrl-D that arrives when 4094 characters are buffered ends the call by the
buffer-full `break`: `prompt` returns `SUCCESS`. -/
theorem prompt_full_at_ctrl_d (ICANON ECHO : Nat) (alloc : Nat → command_t)
    (stack : List Char) (s : session) (pre post : List Char) (command : command_t)
    (hpre : ∀ c ∈ pre, c.toNat ≠ 9 ∧ c ≠ '\n' ∧ c.toNat ≠ 4)
    (hroom : ∀ n, n < pre.length → (typed (fresh_editor stack s) (pre.take n)).index < 4094)
    (hidx : 4094 ≤ (typed (fresh_editor stack s) pre).index) :
    ∃ r, prompt ICANON ECHO alloc stack s (pre ++ Char.ofNat 4 :: post) command = some r ∧
      r.code = return_codes.SUCCESS := by
  have hfuel : (pre ++ Char.ofNat 4 :: post).length + 4096
      = (post.length + 4096 + 1) + pre.length := by
    simp only [List.length_append, List.length_cons]; omega
  have hloop := prompt_loop_typed pre (post.length + 4096 + 1)
    (fresh_editor stack s) (Char.ofNat 4 :: post) hpre hroom
  rw [prompt_loop_full (post.length + 4096) (Char.ofNat 4) post _ (by decide) (by decide)
    (by decide) (by decide) hidx] at hloop
  unfold prompt
  rw [hfuel]
  show ∃ r, (match prompt_loop (post.length + 4096 + 1 + pre.length)
      (pre ++ Char.ofNat 4 :: post) (fresh_editor stack s) with
    | none => none
    | some e => _) = some r ∧ _
  rw [hloop]
  exact ⟨_, rfl, rfl⟩

/-- C11 (counterexample). With `ls` in the history slot, an up-arrow (bytes 27,
91, 65) followed by Ctrl-D returns `EXIT` with the history slot changed: it now holds the
empty string, the buffer of the moment the arrow was pressed.  And with 4094 characters
buffered, the Ctrl-D fills the buffer: the loop ends by the buffer-full `break` and `prompt`
returns `SUCCESS`, not `EXIT`. -/
theorem prompt_ctrl_d_history_and_full :
    (∃ r, prompt 2 8 (fun _ => zeroed) [] ls_session
        [Char.ofNat 27, Char.ofNat 91, Char.ofNat 65, Char.ofNat 4] zeroed = some r ∧
      r.code = return_codes.EXIT ∧
      c_str ls_session.oldbuf = ['l', 's'] ∧
      c_str r.after.oldbuf = [] ∧
      c_str r.after.oldbuf ≠ c_str ls_session.oldbuf) ∧
    (∃ r, prompt 2 8 (fun _ => zeroed) [] cooked_session
        (List.replicate 4094 'x' ++ Char.ofNat 4 :: []) zeroed = some r ∧
      r.code = return_codes.SUCCESS ∧ r.code ≠ return_codes.EXIT) := by
  constructor
  · exact ⟨_, prompt_exit_at 2 8 (fun _ => zeroed) [] ls_session
      [Char.ofNat 27, Char.ofNat 91, Char.ofNat 65] [] zeroed (by decide) (by decide),
      rfl, by decide, by decide, by decide⟩
  · have hpre : ∀ c ∈ List.replicate 4094 'x', c.toNat ≠ 9 ∧ c ≠ '\n' ∧ c.toNat ≠ 4 := by
      intro c hc
      rw [List.eq_of_mem_replicate hc]
      decide
    have hroom : ∀ n, n < (List.replicate 4094 'x').length →
        (typed (fresh_editor [] cooked_session) ((List.replicate 4094 'x').take n)).index
          < 4094 := by
      intro n hn
      rw [List.length_replicate] at hn
      rw [List.take_replicate, typed_replicate_index, Nat.min_eq_left (Nat.le_of_lt hn)]
      have h0 : (fresh_editor [] cooked_session).index = 0 := rfl
      omega
    have hidx : 4094 ≤
        (typed (fresh_editor [] cooked_session) (List.replicate 4094 'x')).index := by
      rw [typed_replicate_index]
      omega
    obtain ⟨r, hr, hc⟩ := prompt_full_at_ctrl_d 2 8 (fun _ => zeroed) [] cooked_session
      (List.replicate 4094 'x') [] zeroed hpre hroom hidx
    exact ⟨r, hr, hc, by rw [hc]; decide⟩

/-- C11 (amended). For every keystroke sequence `pre` without Enter and Tab that is followed
by Ctrl-D, as long as fewer than 4094 characters are buffered at every keystroke up to
the Ctrl-D, `prompt` returns `EXIT` and leaves the struct `command` as it was passed (nothing
is parsed); when `pre` holds no earlier Ctrl-D the keys behind that Ctrl-D are left unread;
and when `pre` holds no byte 65 (up-arrow) the history slot is unchanged. -/
theorem prompt_ctrl_d_returns_exit (ICANON ECHO : Nat) (alloc : Nat → command_t)
    (stack : List Char) (s : session) (pre post : List Char) (command : command_t)
    (hpre : ∀ c ∈ pre, c.toNat ≠ 9 ∧ c ≠ '\n')
    (hroom : ∀ n, n ≤ pre.length → (typed (fresh_editor stack s) (pre.take n)).index < 4094) :
    ∃ r, prompt ICANON ECHO alloc stack s (pre ++ Char.ofNat 4 :: post) command = some r ∧
      r.code = return_codes.EXIT ∧
      r.command = command ∧
      ((∀ c ∈ pre, c.toNat ≠ 4) → r.keys = post) ∧
      ((∀ c ∈ pre, c.toNat ≠ 65) → r.after.oldbuf = s.oldbuf) := by
  by_cases h4 : ∃ c ∈ pre, c.toNat = 4
  · obtain ⟨p1, p2, he, hp1⟩ := split_at_ctrl_d pre h4
    have hmem : ∀ c ∈ p1, c ∈ pre := by
      intro c hc; rw [he]; exact List.mem_append_left _ hc
    have hr : ∀ n, n ≤ p1.length → (typed (fresh_editor stack s) (p1.take n)).index < 4094 := by
      intro n hn
      have h := hroom n (by rw [he]; simp only [List.length_append]; omega)
      rwa [he, List.take_append_of_le_length hn] at h
    have hrun := prompt_exit_at ICANON ECHO alloc stack s p1 (p2 ++ Char.ofNat 4 :: post) command
      (fun c hc => ⟨(hpre c (hmem c hc)).1, (hpre c (hmem c hc)).2, hp1 c hc⟩) hr
    have hk : pre ++ Char.ofNat 4 :: post = p1 ++ Char.ofNat 4 :: (p2 ++ Char.ofNat 4 :: post) := by
      rw [he]; simp
    rw [hk]
    refine ⟨_, hrun, rfl, rfl, ?_, ?_⟩
    · intro hno
      obtain ⟨c, hc, hc4⟩ := h4
      exact absurd hc4 (hno c hc)
    · intro h65
      exact typed_oldbuf p1 _ (fun c hc => h65 c (hmem c hc))
  · have hno : ∀ c ∈ pre, c.toNat ≠ 4 := fun c hc h => h4 ⟨c, hc, h⟩
    have hrun := prompt_exit_at ICANON ECHO alloc stack s pre post command
      (fun c hc => ⟨(hpre c hc).1, (hpre c hc).2, hno c hc⟩) hroom
    exact ⟨_, hrun, rfl, rfl, fun _ => rfl, fun h65 => typed_oldbuf pre _ h65⟩

/-- C11 (amended) at the keys `p`, `w`, `d`, backspace, Ctrl-D, `x`, with `ls` in the history
slot. -/
theorem prompt_ctrl_d_returns_exit_witness :
    ∃ r, prompt 2 8 (fun _ => zeroed) [] ls_session
        (['p', 'w', 'd', Char.ofNat 127] ++ Char.ofNat 4 :: ['x']) zeroed = some r ∧
      r.code = return_codes.EXIT ∧
      r.command = zeroed ∧
      ((∀ c ∈ ['p', 'w', 'd', Char.ofNat 127], c.toNat ≠ 4) → r.keys = ['x']) ∧
      ((∀ c ∈ ['p', 'w', 'd', Char.ofNat 127], c.toNat ≠ 65) →
        r.after.oldbuf = ls_session.oldbuf) :=
  prompt_ctrl_d_returns_exit 2 8 (fun _ => zeroed) [] ls_session
    ['p', 'w', 'd', Char.ofNat 127] ['x'] zeroed (by decide) (by decide)

/-! ## `strcpy` and `poke` on strings -/

/-- After `strcpy(dst, src)` the string at `dst` is the string at `src`. -/
theorem c_str_strcpy (dst src : List Char) : c_str (strcpy dst src) = c_str src := by
  unfold strcpy
  exact c_str_terminated _ _ (c_str_no_NUL src)

theorem getD_at_length (w : List Char) (x d : Char) (rest : List Char) :
    (w ++ x :: rest).getD w.length d = x := by
  rw [List.getD_eq_getElem?_getD, List.getElem?_append_right (Nat.le_refl _)]
  simp

theorem copy_unique_eq (cwdpath : List Char) : ∀ (history new_history : List (List Char)),
    copy_unique cwdpath history new_history
      = new_history ++ history.filter (fun entry => entry != cwdpath) := by
  intro history
  induction history with
  | nil => intro nh; simp [copy_unique]
  | cons e rest ih =>
    intro nh
    by_cases h : e = cwdpath
    · simp [copy_unique, h, ih]
    · simp [copy_unique, h, ih, List.filter_cons]

theorem range_map_getD_succ (l : List (List Char)) (n : Nat) (h : l.length = n + 1) :
    (List.range n).map (fun c => l.getD (c + 1) []) = l.tail := by
  apply List.ext_getElem
  · simp [h]
  · intro i h1 h2
    simp only [List.length_map, List.length_range] at h1
    rcases l with _ | ⟨a, t⟩
    · simp at h
    · simp only [List.length_cons, Nat.add_right_cancel_iff] at h
      have hi : i < t.length := by omega
      simp [List.getD_eq_getElem?_getD, List.getElem?_eq_getElem hi]

/-- The list that `cd` writes back: the old entries other than the current directory, in
their order, then the current directory; without the first entry when that makes eleven. -/
theorem cd_history_eq (history : List (List Char)) (cwdpath : List Char) :
    cd_history history cwdpath =
      if (history.filter (fun entry => entry != cwdpath)).length = 10 then
        (history.filter (fun entry => entry != cwdpath)).tail ++ [cwdpath]
      else history.filter (fun entry => entry != cwdpath) ++ [cwdpath] := by
  unfold cd_history
  rw [copy_unique_eq, List.nil_append]
  by_cases h : (history.filter (fun entry => entry != cwdpath)).length = 10
  · have h11 : (history.filter (fun entry => entry != cwdpath) ++ [cwdpath]).length = 10 + 1 := by
      simp [h]
    rw [if_pos h11, if_pos h, range_map_getD_succ _ 10 h11]
    rcases hf : history.filter (fun entry => entry != cwdpath) with _ | ⟨a, t⟩
    · rw [hf] at h; simp at h
    · rfl
  · have h11 : ¬ (history.filter (fun entry => entry != cwdpath) ++ [cwdpath]).length = 11 := by
      simp only [List.length_append, List.length_cons, List.length_nil]
      omega
    rw [if_neg h11, if_neg h]

/-- The update keeps the bound and the distinctness of the history, and puts the current
directory last. -/
theorem cd_history_keeps (history : List (List Char)) (cwdpath : List Char)
    (hlen : history.length ≤ 10) (hnd : history.Nodup) :
    (cd_history history cwdpath).length ≤ 10 ∧ (cd_history history cwdpath).Nodup ∧
      (cd_history history cwdpath).getLast? = some cwdpath := by
  have hF : (history.filter (fun entry => entry != cwdpath)).length ≤ history.length :=
    List.length_filter_le _ _
  have hFnd : (history.filter (fun entry => entry != cwdpath)).Nodup := hnd.filter _
  have hcwd : cwdpath ∉ history.filter (fun entry => entry != cwdpath) := by
    simp [List.mem_filter]
  have hconcat : ∀ l : List (List Char),
      l.Sublist (history.filter (fun entry => entry != cwdpath)) →
      (l ++ [cwdpath]).Nodup := by
    intro l hl
    rw [List.nodup_append]
    refine ⟨hFnd.sublist hl, List.nodup_singleton _, ?_⟩
    intro a ha hb
    rw [List.mem_singleton] at hb
    exact hcwd (hb ▸ hl.subset ha)
  rw [cd_history_eq]
  split
  · rename_i h10
    refine ⟨?_, hconcat _ (List.tail_sublist _), by simp⟩
    simp only [List.length_append, List.length_tail, List.length_cons, List.length_nil]
    omega
  · rename_i h10
    refine ⟨?_, hconcat _ (List.Sublist.refl _), by simp⟩
    simp only [List.length_append, List.length_cons, List.length_nil]
    omega

/-- After any number of `cd` calls that start without a history file, the file holds at most
10 entries, no entry twice, and the directory of the last call is its last entry. -/
theorem cd_history_iterated (dirs : List (List Char)) :
    (dirs.foldl cd_history []).length ≤ 10 ∧ (dirs.foldl cd_history []).Nodup ∧
      (dirs ≠ [] → (dirs.foldl cd_history []).getLast? = dirs.getLast?) := by
  induction dirs using List.reverseRecOn with
  | nil => simp
  | append_singleton ds d ih =>
    rw [List.foldl_append, List.foldl_cons, List.foldl_nil]
    obtain ⟨h1, h2, h3⟩ := cd_history_keeps (ds.foldl cd_history []) d ih.1 ih.2.1
    exact ⟨h1, h2, fun _ => by rw [h3]; simp⟩

/-! ## Claims about the output redirections -/

/-- C14 (counterexample). The line `cmd >a >>b` gives one node, the head, with the
truncate-output target `a` and the append-output target `b` both present. -/
theorem parse_both_output_kinds :
    (parse_command (fun _ => zeroed) "cmd >a >>b".toList zeroed).redirects 1
      = some "a".toList ∧
    (parse_command (fun _ => zeroed) "cmd >a >>b".toList zeroed).redirects 2
      = some "b".toList ∧
    (chain 3 (parse_command (fun _ => zeroed) "cmd >a >>b".toList zeroed)).length = 1 ∧
    (parse_command_checked (fun _ => zeroed) "cmd >a >>b".toList zeroed).map
        (fun r => (r.redirects 1, r.redirects 2))
      = some (some "a".toList, some "b".toList) := by
  decide

/-- C14 (amended). For a line that `parse_command` parses without overrunning `temp_buf`,
one token stores into at most one redirection slot, and for every node of the chain that
parses a stage of the line: the truncate-output target is present exactly when the struct
the node is built on came with that slot set or the node's own stage holds a token `>T`
(a `>` not followed by a second `>`), and the append-output target exactly when the struct
came with that slot set or the stage holds a token `>>T`.  So for a node built on a struct
whose two output slots came empty (the head, which `main` clears; a nested node when the
block from `malloc` had them clear) both targets are present exactly when its stage holds
tokens of both kinds, and a stage with output tokens of one kind only leaves at most one of
them set.  Every stage of the line has its node in the chain. -/
theorem parse_command_output_slots (alloc : Nat → command_t) (buf : List Char)
    (command c0 : command_t) (k j : Nat) (c : command_t) (ts : List (List Char))
    (hrun : parse_command_checked alloc buf command = some c0)
    (hc : (chain k c0)[j]? = some c)
    (hst : stage_line j (tokens (c_str buf)) = some ts) :
    (∀ (c1 : command_t) (t : List Char) (i1 i2 : Fin 3),
      (process_arg c1 t).redirects i1 ≠ c1.redirects i1 →
      (process_arg c1 t).redirects i2 ≠ c1.redirects i2 → i1 = i2) ∧
    (c.redirects 1).isSome =
      (((node_block alloc command j).redirects 1).isSome || (args_of ts).any (names_slot 1)) ∧
    (c.redirects 2).isSome =
      (((node_block alloc command j).redirects 2).isSome || (args_of ts).any (names_slot 2)) ∧
    ((node_block alloc command j).redirects 1 = none →
      (node_block alloc command j).redirects 2 = none →
      ((c.redirects 1 ≠ none ∧ c.redirects 2 ≠ none) ↔
        (∃ t ∈ args_of ts, names_slot 1 t = true) ∧
        (∃ t ∈ args_of ts, names_slot 2 t = true))) ∧
    (∃ c2, (chain (j + 1) c0)[j]? = some c2) := by
  have e0 := parse_command_checked_eq alloc buf command c0 hrun
  rw [e0] at hc ⊢
  have hnb : node_block (fun d => alloc (0 + d)) command j = node_block alloc command j := by
    congr 1
    funext d
    rw [Nat.zero_add]
  have h1 := chain_slot_isSome alloc 1 buf.length buf (Nat.le_refl _)
    (buf.length + 1) 0 command k j c ts (Nat.lt_succ_self _) hc hst
  have h2 := chain_slot_isSome alloc 2 buf.length buf (Nat.le_refl _)
    (buf.length + 1) 0 command k j c ts (Nat.lt_succ_self _) hc hst
  rw [hnb] at h1 h2
  refine ⟨?_, h1, h2, ?_, chain_has_stage_node alloc buf.length buf (Nat.le_refl _)
    (buf.length + 1) 0 command j ts (Nat.lt_succ_self _) hst⟩
  · intro c1 t i1 i2 e1 e2
    apply names_slot_unique i1 i2 t
    · rcases hn : names_slot i1 t with _ | _
      · exact absurd (process_arg_slot_kept c1 t i1 hn) e1
      · rfl
    · rcases hn : names_slot i2 t with _ | _
      · exact absurd (process_arg_slot_kept c1 t i2 hn) e2
      · rfl
  · intro hb1 hb2
    rw [hb1] at h1
    rw [hb2] at h2
    rw [← Option.isSome_iff_ne_none, ← Option.isSome_iff_ne_none, h1, h2]
    simp only [Option.isSome_none, Bool.false_or, List.any_eq_true]

/-- C14 (amended) at the second node of the line `a >x | b >>y`. -/
theorem parse_command_output_slots_witness :
    (∀ (c1 : command_t) (t : List Char) (i1 i2 : Fin 3),
      (process_arg c1 t).redirects i1 ≠ c1.redirects i1 →
      (process_arg c1 t).redirects i2 ≠ c1.redirects i2 → i1 = i2) ∧
    ((parse_command (fun _ => zeroed) "b >>y".toList zeroed).redirects 1).isSome =
      (((node_block (fun _ => zeroed) zeroed 1).redirects 1).isSome ||
        (args_of ["b".toList, ">>y".toList]).any (names_slot 1)) ∧
    ((parse_command (fun _ => zeroed) "b >>y".toList zeroed).redirects 2).isSome =
      (((node_block (fun _ => zeroed) zeroed 1).redirects 2).isSome ||
        (args_of ["b".toList, ">>y".toList]).any (names_slot 2)) ∧
    ((node_block (fun _ => zeroed) zeroed 1).redirects 1 = none →
      (node_block (fun _ => zeroed) zeroed 1).redirects 2 = none →
      (((parse_command (fun _ => zeroed) "b >>y".toList zeroed).redirects 1 ≠ none ∧
          (parse_command (fun _ => zeroed) "b >>y".toList zeroed).redirects 2 ≠ none) ↔
        (∃ t ∈ args_of ["b".toList, ">>y".toList], names_slot 1 t = true) ∧
        (∃ t ∈ args_of ["b".toList, ">>y".toList], names_slot 2 t = true))) ∧
    (∃ c2, (chain (1 + 1) (parse_command (fun _ => zeroed) "a >x | b >>y".toList zeroed))[1]?
      = some c2) :=
  parse_command_output_slots (fun _ => zeroed) "a >x | b >>y".toList zeroed
    (parse_command (fun _ => zeroed) "a >x | b >>y".toList zeroed) 2 1
    (parse_command (fun _ => zeroed) "b >>y".toList zeroed) ["b".toList, ">>y".toList]
    rfl rfl (by decide)


/-! ## The six bytes of the arrow keys -/

theorem arrow_byte_iff (c : Char) :
    arrow_byte c = true ↔
      ((c.toNat = 27 ∨ c.toNat = 91 ∨ c.toNat = 66 ∨ c.toNat = 67 ∨ c.toNat = 68) ∨
        c.toNat = 65) := by
  simp [arrow_byte, or_assoc]

theorem arrow_byte_false (c : Char)
    (h1 : ¬(c.toNat = 27 ∨ c.toNat = 91 ∨ c.toNat = 66 ∨ c.toNat = 67 ∨ c.toNat = 68))
    (h2 : ¬c.toNat = 65) : arrow_byte c = false := by
  rcases h : arrow_byte c with _ | _
  · rfl
  · rcases (arrow_byte_iff c).1 h with h3 | h3
    · exact absurd h3 h1
    · exact absurd h3 h2

theorem arrow_free_poke (mem : List Char) (i : Nat) (c : Char) (hm : arrow_free mem)
    (hc : arrow_byte c = false) : arrow_free (poke mem i c) := by
  intro x hx
  unfold poke at hx
  rcases List.mem_append.1 hx with h | h
  · rcases List.mem_append.1 h with h | h
    · exact hm x (List.mem_of_mem_take h)
    · rw [List.eq_of_mem_replicate h]; decide
  · rcases List.mem_cons.1 h with h | h
    · rw [h]; exact hc
    · exact hm x (List.mem_of_mem_drop h)

theorem arrow_free_c_str (mem : List Char) (hm : arrow_free mem) : arrow_free (c_str mem) :=
  fun x hx => hm x ((List.takeWhile_prefix _).subset hx)

theorem arrow_free_strcpy (dst src : List Char) (hd : arrow_free dst) (hs : arrow_free src) :
    arrow_free (strcpy dst src) := by
  intro x hx
  unfold strcpy at hx
  rcases List.mem_append.1 hx with h | h
  · exact arrow_free_c_str src hs x h
  · rcases List.mem_cons.1 h with h | h
    · rw [h]; decide
    · exact hd x (List.mem_of_mem_drop h)

/-- The read loop keeps the buffer and the history slot free of the six bytes when they
start free of them: no key writes one of them. -/
theorem prompt_loop_arrow_free : ∀ (fuel : Nat) (keys : List Char) (ed : editor) (e : loop_end),
    arrow_free ed.buf → arrow_free ed.oldbuf → prompt_loop fuel keys ed = some e →
    arrow_free e.ed.buf ∧ arrow_free e.ed.oldbuf := by
  intro fuel
  induction fuel with
  | zero => intro keys ed e _ _ h; exact Option.noConfusion h
  | succ n ih =>
    intro keys ed e hb ho h
    rw [prompt_loop] at h
    by_cases h9 : (getchar keys).1.toNat = 9
    · rw [if_pos h9] at h
      rw [← Option.some.inj h]
      exact ⟨arrow_free_poke _ _ _ hb (by decide), ho⟩
    · rw [if_neg h9] at h
      by_cases h127 : (getchar keys).1.toNat = 127
      · rw [if_pos h127] at h
        exact ih _ { ed with index := ed.index - 1 } e hb ho h
      · rw [if_neg h127] at h
        by_cases hesc : (getchar keys).1.toNat = 27 ∨ (getchar keys).1.toNat = 91 ∨
            (getchar keys).1.toNat = 66 ∨ (getchar keys).1.toNat = 67 ∨
            (getchar keys).1.toNat = 68
        · rw [if_pos hesc] at h
          exact ih _ _ e hb ho h
        · rw [if_neg hesc] at h
          by_cases h65 : (getchar keys).1.toNat = 65
          · rw [if_pos h65] at h
            exact ih _ _ e (arrow_free_strcpy _ _ hb ho)
              (arrow_free_strcpy _ _ ho (arrow_free_c_str _ hb)) h
          · rw [if_neg h65] at h
            have hc := arrow_byte_false _ hesc h65
            have hp := arrow_free_poke ed.buf ed.index _ hb hc
            by_cases hfull : ed.index + 1 ≥ 4096 - 1
            · rw [if_pos hfull] at h
              rw [← Option.some.inj h]
              exact ⟨hp, ho⟩
            · rw [if_neg hfull] at h
              by_cases hnl : (getchar keys).1 = '\n'
              · rw [if_pos hnl] at h
                rw [← Option.some.inj h]
                exact ⟨hp, ho⟩
              · rw [if_neg hnl] at h
                by_cases h4 : (getchar keys).1.toNat = 4
                · rw [if_pos h4] at h
                  rw [← Option.some.inj h]
                  exact ⟨hp, ho⟩
                · rw [if_neg h4] at h
                  exact ih _ ⟨poke ed.buf ed.index (getchar keys).1, ed.index + 1, ed.oldbuf⟩
                    e hp ho h

/-! ## A line typed with plain keys -/

theorem poke_append (u rest : List Char) (c : Char) :
    poke (u ++ rest) u.length c = u ++ c :: rest.drop 1 := by
  unfold poke
  simp [List.take_append_eq_append_take, List.drop_append_eq_append_drop]

theorem key_step_plain (ed : editor) (c : Char) (h127 : c.toNat ≠ 127)
    (ha : arrow_byte c = false) :
    key_step ed c = { ed with buf := poke ed.buf ed.index c, index := ed.index + 1 } := by
  have h := (arrow_byte_iff c).not.1 (by rw [ha]; exact Bool.noConfusion)
  unfold key_step
  rw [if_neg h127, if_neg (fun h1 => h (Or.inl h1)), if_neg (fun h1 => h (Or.inr h1))]

/-- Plain keys are written to the buffer one behind the other. -/
theorem typed_plain : ∀ (w u rest ob : List Char),
    (∀ c ∈ w, c.toNat ≠ 127 ∧ arrow_byte c = false) →
    typed { buf := u ++ rest, index := u.length, oldbuf := ob } w =
      { buf := u ++ w ++ rest.drop w.length, index := u.length + w.length, oldbuf := ob } := by
  intro w
  induction w with
  | nil => intro u rest ob _; simp [typed_nil]
  | cons c w ih =>
    intro u rest ob hw
    have hc := hw c (List.mem_cons_self _ _)
    rw [typed_cons, key_step_plain _ _ hc.1 hc.2]
    simp only
    rw [poke_append]
    have e1 : u ++ c :: rest.drop 1 = (u ++ [c]) ++ rest.drop 1 := by simp
    have e2 : u.length + 1 = (u ++ [c]).length := by simp
    rw [e1, e2, ih _ _ _ (fun x hx => hw x (List.mem_cons_of_mem _ hx))]
    simp [Nat.add_comm, Nat.add_left_comm, Nat.add_assoc]

theorem prompt_loop_enter (fuel : Nat) (post : List Char) (ed : editor) :
    prompt_loop (fuel + 1) ('\n' :: post) ed =
      some { ctrl_d := false,
             ed := { ed with buf := poke ed.buf ed.index '\n', index := ed.index + 1 },
             keys := post } := by
  rw [prompt_loop]
  simp only [getchar]
  rw [if_neg (by decide), if_neg (by decide), if_neg (by decide), if_neg (by decide)]
  by_cases hfull : ed.index + 1 ≥ 4096 - 1
  · rw [if_pos hfull]
  · rw [if_neg hfull, if_pos trivial]

/-- A line of fewer than 4094 plain keys followed by Enter: `prompt` returns `SUCCESS`, the
command is parsed from the buffer that holds the keys and a terminator in place of the
newline, and that string is copied to the history slot. -/
theorem prompt_plain_line (ICANON ECHO : Nat) (alloc : Nat → command_t) (stack : List Char)
    (s : session) (w post : List Char) (command : command_t)
    (hw : ∀ c ∈ w, c.toNat ≠ 9 ∧ c ≠ '\n' ∧ c.toNat ≠ 4 ∧ c.toNat ≠ 127 ∧
      arrow_byte c = false)
    (hlen : w.length < 4094) :
    prompt ICANON ECHO alloc stack s (w ++ '\n' :: post) command =
      some { code := return_codes.SUCCESS,
             after := { tty := s.tty,
                        oldbuf := strcpy s.oldbuf (w ++ NUL :: stack.drop (w.length + 1)) },
             command := parse_command alloc (w ++ NUL :: stack.drop (w.length + 1)) command,
             keys := post } := by
  have hfuel : (w ++ '\n' :: post).length + 4096 = (post.length + 4096 + 1) + w.length := by
    simp only [List.length_append, List.length_cons]; omega
  have h0 : fresh_editor stack s
      = { buf := [] ++ NUL :: stack.drop 1, index := ([] : List Char).length,
          oldbuf := s.oldbuf } := by
    simp [fresh_editor, poke]
  have htyped : ∀ v : List Char, (∀ c ∈ v, c ∈ w) → typed (fresh_editor stack s) v
      = { buf := [] ++ v ++ (NUL :: stack.drop 1).drop v.length,
          index := ([] : List Char).length + v.length, oldbuf := s.oldbuf } := by
    intro v hv
    rw [h0]
    exact typed_plain v [] _ _ (fun c hc => ⟨(hw c (hv c hc)).2.2.2.1, (hw c (hv c hc)).2.2.2.2⟩)
  have hroom : ∀ n, n < w.length → (typed (fresh_editor stack s) (w.take n)).index < 4094 := by
    intro n hn
    rw [htyped _ (fun c hc => List.mem_of_mem_take hc)]
    simp only [List.length_nil, List.length_take, Nat.zero_add]
    omega
  unfold prompt
  rw [hfuel]
  show (match prompt_loop (post.length + 4096 + 1 + w.length) (w ++ '\n' :: post)
      (fresh_editor stack s) with
    | none => none
    | some e => _) = _
  rw [prompt_loop_typed w _ _ _ (fun c hc => ⟨(hw c hc).1, (hw c hc).2.1, (hw c hc).2.2.1⟩) hroom,
    prompt_loop_enter, htyped w (fun c hc => hc)]
  have hrest : ((NUL :: stack.drop 1).drop w.length).drop 1 = stack.drop (w.length + 1) := by
    rw [List.drop_drop, List.drop_succ_cons, List.drop_drop]
    congr 1
    omega
  simp only [List.nil_append, List.length_nil, Nat.zero_add, poke_append, hrest,
    Bool.false_eq_true, ↓reduceIte, prompt_finish, Nat.add_sub_cancel,
    getD_at_length, Nat.succ_pos, gt_iff_lt, and_self, List.drop_succ_cons, List.drop_zero]

/-! ## The typed part of the buffer -/

theorem c_str_before_NUL (a rest : List Char) : c_str (a ++ NUL :: rest) = c_str a := by
  induction a with
  | nil => simp [c_str, List.takeWhile_cons]
  | cons x a ih =>
    unfold c_str at ih ⊢
    by_cases hx : x = NUL
    · simp [List.takeWhile_cons, hx]
    · simp only [List.cons_append, List.takeWhile_cons, bne_iff_ne, ne_eq, hx,
        not_false_eq_true, decide_True, ↓reduceIte, ih]

theorem take_poke_succ (mem : List Char) (i : Nat) (c : Char) :
    (poke mem i c).take (i + 1) = mem.take i ++ List.replicate (i - mem.length) NUL ++ [c] := by
  unfold poke
  have hl : (mem.take i ++ List.replicate (i - mem.length) NUL).length = i := by
    simp only [List.length_append, List.length_take, List.length_replicate]
    omega
  rw [List.take_append_eq_append_take, hl, List.take_of_length_le (by omega)]
  simp

theorem arrow_free_take_le (mem : List Char) (i j : Nat) (hij : i ≤ j)
    (h : arrow_free (mem.take j)) : arrow_free (mem.take i) := by
  intro c hc
  apply h c
  have : mem.take i = (mem.take j).take i := by
    rw [List.take_take, Nat.min_eq_left hij]
  rw [this] at hc
  exact List.mem_of_mem_take hc

theorem arrow_free_take_poke (mem : List Char) (i : Nat) (c : Char)
    (h : arrow_free (mem.take i)) (hc : arrow_byte c = false) :
    arrow_free ((poke mem i c).take (i + 1)) := by
  rw [take_poke_succ]
  intro x hx
  rcases List.mem_append.1 hx with h1 | h1
  · rcases List.mem_append.1 h1 with h2 | h2
    · exact h x h2
    · rw [List.eq_of_mem_replicate h2]; decide
  · rw [List.mem_singleton.1 h1]; exact hc

/-- The string that the terminator written at `i` closes lies in the first `i` bytes. -/
theorem arrow_free_line (mem : List Char) (i : Nat) (h : arrow_free (mem.take i)) :
    arrow_free (c_str (poke mem i NUL)) := by
  have e : poke mem i NUL
      = (mem.take i ++ List.replicate (i - mem.length) NUL) ++ NUL :: mem.drop (i + 1) := by
    unfold poke; simp
  rw [e, c_str_before_NUL]
  intro x hx
  have hx2 := (List.takeWhile_prefix _).subset hx
  rcases List.mem_append.1 hx2 with h1 | h1
  · exact h x h1
  · rw [List.eq_of_mem_replicate h1]; decide

/-- Without the byte 65 among the keys the read loop leaves the history slot alone and
writes none of the six bytes into the part of the buffer below the write position. -/
theorem prompt_loop_typed_part : ∀ (fuel : Nat) (keys : List Char) (ed : editor) (e : loop_end),
    (∀ c ∈ keys, c.toNat ≠ 65) → arrow_free (ed.buf.take ed.index) →
    prompt_loop fuel keys ed = some e →
    arrow_free (e.ed.buf.take e.ed.index) ∧ e.ed.oldbuf = ed.oldbuf := by
  intro fuel
  induction fuel with
  | zero => intro keys ed e _ _ h; exact Option.noConfusion h
  | succ n ih =>
    intro keys ed e hk hb h
    have h65 : (getchar keys).1.toNat ≠ 65 := by
      rcases keys with _ | ⟨k, ks⟩
      · decide
      · exact hk k (List.mem_cons_self _ _)
    have hk2 : ∀ c ∈ (getchar keys).2, c.toNat ≠ 65 := by
      rcases keys with _ | ⟨k, ks⟩
      · intro c hc; simp [getchar] at hc
      · intro c hc; exact hk c (List.mem_cons_of_mem _ hc)
    rw [prompt_loop] at h
    by_cases h9 : (getchar keys).1.toNat = 9
    · rw [if_pos h9] at h
      rw [← Option.some.inj h]
      exact ⟨arrow_free_take_poke _ _ _ hb (by decide), rfl⟩
    · rw [if_neg h9] at h
      by_cases h127 : (getchar keys).1.toNat = 127
      · rw [if_pos h127] at h
        exact ih _ ⟨ed.buf, ed.index - 1, ed.oldbuf⟩ e hk2
          (arrow_free_take_le _ _ _ (Nat.sub_le _ _) hb) h
      · rw [if_neg h127] at h
        by_cases hesc : (getchar keys).1.toNat = 27 ∨ (getchar keys).1.toNat = 91 ∨
            (getchar keys).1.toNat = 66 ∨ (getchar keys).1.toNat = 67 ∨
            (getchar keys).1.toNat = 68
        · rw [if_pos hesc] at h
          exact ih _ ed e hk2 hb h
        · rw [if_neg hesc, if_neg h65] at h
          have hc := arrow_byte_false _ hesc h65
          have hp := arrow_free_take_poke ed.buf ed.index _ hb hc
          by_cases hfull : ed.index + 1 ≥ 4096 - 1
          · rw [if_pos hfull] at h
            rw [← Option.some.inj h]
            exact ⟨hp, rfl⟩
          · rw [if_neg hfull] at h
            by_cases hnl : (getchar keys).1 = '\n'
            · rw [if_pos hnl] at h
              rw [← Option.some.inj h]
              exact ⟨hp, rfl⟩
            · rw [if_neg hnl] at h
              by_cases h4 : (getchar keys).1.toNat = 4
              · rw [if_pos h4] at h
                rw [← Option.some.inj h]
                exact ⟨hp, rfl⟩
              · rw [if_neg h4] at h
                exact ih _ ⟨poke ed.buf ed.index (getchar keys).1, ed.index + 1, ed.oldbuf⟩
                  e hk2 hp h

/-- A `prompt` call without the byte 65 among its keys parses a line free of the six
bytes, whatever the array `buf` and the history slot held before. -/
theorem prompt_no_recall_arrow_free (ICANON ECHO : Nat) (alloc : Nat → command_t)
    (stack : List Char) (s : session) (keys : List Char) (command : command_t)
    (r : prompt_result) (hk : ∀ c ∈ keys, c.toNat ≠ 65)
    (h : prompt ICANON ECHO alloc stack s keys command = some r)
    (hcode : r.code = return_codes.SUCCESS) :
    ∃ m, r.command = parse_command alloc m command ∧ c_str r.after.oldbuf = c_str m ∧
      arrow_free (c_str m) := by
  unfold prompt at h
  split at h
  · exact Option.noConfusion h
  · rename_i e he
    obtain ⟨hb, _⟩ := prompt_loop_typed_part _ _ _ e hk (by intro c hc; simp at hc) he
    by_cases hc : e.ctrl_d = true
    · rw [if_pos hc] at h
      rw [← Option.some.inj h] at hcode
      exact absurd hcode (by simp)
    · rw [if_neg hc] at h
      rw [← Option.some.inj h]
      refine ⟨_, rfl, c_str_strcpy _ _, arrow_free_line _ _ ?_⟩
      split
      · exact arrow_free_take_le _ _ _ (Nat.sub_le _ _) hb
      · exact hb

/-- A `prompt` call on memory free of the six bytes leaves the history slot free of them,
and a line it parses is free of them. -/
theorem prompt_arrow_free (ICANON ECHO : Nat) (alloc : Nat → command_t) (stack : List Char)
    (s : session) (keys : List Char) (command : command_t) (r : prompt_result)
    (hstack : arrow_free stack) (hold : arrow_free s.oldbuf)
    (h : prompt ICANON ECHO alloc stack s keys command = some r) :
    arrow_free r.after.oldbuf ∧
    (r.code = return_codes.SUCCESS →
      ∃ m, r.command = parse_command alloc m command ∧ c_str r.after.oldbuf = c_str m ∧
        arrow_free (c_str m)) := by
  unfold prompt at h
  split at h
  · exact Option.noConfusion h
  · rename_i e he
    obtain ⟨hb, ho⟩ := prompt_loop_arrow_free _ _ _ e
      (arrow_free_poke stack 0 NUL hstack (by decide)) hold he
    by_cases hc : e.ctrl_d = true
    · rw [if_pos hc] at h
      rw [← Option.some.inj h]
      exact ⟨ho, fun hcode => absurd hcode (by simp)⟩
    · rw [if_neg hc] at h
      rw [← Option.some.inj h]
      have hm := arrow_free_poke e.ed.buf
        (if e.ed.index > 0 ∧ e.ed.buf.getD (e.ed.index - 1) NUL = '\n'
          then e.ed.index - 1 else e.ed.index) NUL hb (by decide)
      exact ⟨arrow_free_strcpy _ _ ho hm,
        fun _ => ⟨_, rfl, c_str_strcpy _ _, arrow_free_c_str _ hm⟩⟩

/-- C15 (the code at the failing input). A key that is one of the six bytes 27, 91, 66, 67,
68, 65 is never written to the buffer: the first five leave the variables as they are, 65
swaps the buffer with the history slot by `strcpy`.  When the array `buf` and the history
slot hold none of the six bytes at the start of a call, the history slot after the call and
the line it parses hold none; and a call without the byte 65 among its keys parses a line
free of them whatever `buf` held.  But `buf` is not initialised and the swap copies it up to
the first terminator it meets: with `B` left in `buf[1]`, an empty history slot and the keys
`x`, up, up, Enter, the call returns the line `xB` and stores it in the history slot. -/
theorem prompt_line_stale_arrow_byte (ICANON ECHO : Nat) (alloc : Nat → command_t)
    (stack : List Char) (s : session) (keys : List Char) (command : command_t) :
    (∀ (fuel : Nat) (c : Char) (ks : List Char) (ed : editor), arrow_byte c = true →
      prompt_loop (fuel + 1) (c :: ks) ed = prompt_loop fuel ks
        (if c.toNat = 65 then
          { buf := strcpy ed.buf ed.oldbuf,
            index := (c_str (strcpy ed.buf ed.oldbuf)).length,
            oldbuf := strcpy ed.oldbuf (c_str ed.buf) }
         else ed)) ∧
    (arrow_free stack → arrow_free s.oldbuf →
      ∀ r, prompt ICANON ECHO alloc stack s keys command = some r →
        arrow_free r.after.oldbuf ∧
        (r.code = return_codes.SUCCESS →
          ∃ m, r.command = parse_command alloc m command ∧ c_str r.after.oldbuf = c_str m ∧
            arrow_free (c_str m))) ∧
    ((∀ c ∈ keys, c.toNat ≠ 65) →
      ∀ r, prompt ICANON ECHO alloc stack s keys command = some r →
        r.code = return_codes.SUCCESS →
        ∃ m, r.command = parse_command alloc m command ∧ c_str r.after.oldbuf = c_str m ∧
          arrow_free (c_str m)) ∧
    (∃ r, prompt ICANON ECHO alloc stale_stack cooked_session
        ['x', Char.ofNat 65, Char.ofNat 65, '\n'] command = some r ∧
      r.code = return_codes.SUCCESS ∧
      r.command = parse_command alloc ['x', 'B', NUL, NUL] command ∧
      (parse_command (fun _ => zeroed) ['x', 'B', NUL, NUL] zeroed).name = ['x', 'B'] ∧
      c_str r.after.oldbuf = ['x', 'B'] ∧
      cooked_session.oldbuf = [] ∧
      arrow_byte 'B' = true) := by
  refine ⟨?_, ?_, ?_, ?_⟩
  · intro fuel c ks ed hc
    rw [prompt_loop]
    simp only [getchar]
    rcases (arrow_byte_iff c).1 hc with h | h
    · have h65 : c.toNat ≠ 65 := by omega
      rw [if_neg (by omega), if_neg (by omega), if_pos h, if_neg h65]
    · rw [if_neg (by omega), if_neg (by omega), if_neg (by omega), if_pos h, if_pos h]
  · intro hstack hold r hr
    exact prompt_arrow_free ICANON ECHO alloc stack s keys command r hstack hold hr
  · intro hk r hr hcode
    exact prompt_no_recall_arrow_free ICANON ECHO alloc stack s keys command r hk hr hcode
  · refine ⟨{ code := return_codes.SUCCESS,
              after := { tty := cooked_session.tty, oldbuf := ['x', 'B', NUL] },
              command := parse_command alloc ['x', 'B', NUL, NUL] command,
              keys := [] }, rfl, rfl, rfl, by decide, ?_, rfl, by decide⟩
    show c_str ['x', 'B', NUL] = ['x', 'B']
    decide

end Mishell
